import Mathlib

set_option maxHeartbeats 1000000

namespace SwellNode

/-! # Shallow embedding of swell-node (socket client + response cache)

Definitions are translated from the repository sources:
`src/lib/connection.js`, `src/lib/cache.js`, `src/lib/client.js`.
JavaScript runtime values are modelled as follows: JSON values become the
inductive `JVal`; plain string-keyed JS objects become insertion-ordered
association lists with set/get/delete mirroring JS property semantics;
the in-flight counter is modelled as `Int` (JS `this.requested -= 1` can
drive the counter below zero, which the model preserves). -/

mutual
/-- JSON values as they travel on the wire and sit in cache storage.
Numbers are modelled as integers (the protocol's versions, sizes and
status codes are integral; no claim depends on float behaviour). -/
inductive JVal where
  | null
  | bool (b : Bool)
  | num (n : Int)
  | str (s : String)
  | arr (elems : JArr)
  | obj (fields : JObj)
deriving DecidableEq, Repr
/-- A JSON array. -/
inductive JArr where
  | nil
  | cons (v : JVal) (rest : JArr)
deriving DecidableEq, Repr
/-- A JSON object (field list in insertion order). -/
inductive JObj where
  | nil
  | cons (k : String) (v : JVal) (rest : JObj)
deriving DecidableEq, Repr
end

namespace JVal

/-- JavaScript truthiness of a JSON-parsed value: `null`, `false`, `0` and
the empty string are falsy; arrays and objects are always truthy. -/
def jsTruthy : JVal → Bool
  | .null => false
  | .bool b => b
  | .num n => n != 0
  | .str s => s != ""
  | .arr _ => true
  | .obj _ => true

/-- Whether a value is of JS reference type (array or object). -/
def isRef : JVal → Bool
  | .arr _ => true
  | .obj _ => true
  | _ => false

/-- JavaScript strict inequality `a !== b` between two values that each come
from their own `JSON.parse` call (as in `cache.clear`, which compares a
version from the freshly parsed response against a version reloaded from
storage).  Primitives compare by value; two separately parsed arrays or
objects are distinct references, hence always `!==`. -/
def jsStrictNeq (a b : JVal) : Bool :=
  if a.isRef || b.isRef then true else a != b

end JVal

/-! ## JS object semantics

A plain JS object used as a dictionary: property insertion order is kept,
assigning an existing key overwrites in place, `delete` removes the key.
(JS additionally enumerates canonical-array-index keys first; the keys that
flow through the cache are md5 hex digests — 32 characters, above `2^32`
even when all digits — and collection names, so insertion order is the
enumeration order for every key this client produces.) -/

/-- `m[k]`, i.e. property lookup returning `undefined` as `none`. -/
def objGet {κ α : Type} [DecidableEq κ] (m : List (κ × α)) (k : κ) : Option α :=
  match m with
  | [] => none
  | (k', v) :: rest => if k' = k then some v else objGet rest k

/-- `m[k] = v`: overwrite in place if present, else append. -/
def objSet {κ α : Type} [DecidableEq κ] (m : List (κ × α)) (k : κ) (v : α) :
    List (κ × α) :=
  match m with
  | [] => [(k, v)]
  | (k', v') :: rest =>
      if k' = k then (k', v) :: rest else (k', v') :: objSet rest k v

/-- `delete m[k]`. -/
def objDelete {κ α : Type} [DecidableEq κ] (m : List (κ × α)) (k : κ) :
    List (κ × α) :=
  match m with
  | [] => []
  | (k', v) :: rest =>
      if k' = k then objDelete rest k else (k', v) :: objDelete rest k

/-- `Object.keys(m)` (insertion order; see the note above). -/
def objKeys {κ α : Type} (m : List (κ × α)) : List κ :=
  m.map (fun p => p.1)

@[simp] theorem objGet_nil {κ α : Type} [DecidableEq κ] (k : κ) :
    objGet ([] : List (κ × α)) k = none := rfl

theorem objGet_objSet_self {κ α : Type} [DecidableEq κ]
    (m : List (κ × α)) (k : κ) (v : α) : objGet (objSet m k v) k = some v := by
  induction m with
  | nil => simp [objSet, objGet]
  | cons p rest ih =>
      obtain ⟨k', v'⟩ := p
      by_cases h : k' = k
      · simp [objSet, h, objGet]
      · simp [objSet, h, objGet, ih]

theorem objGet_objSet_other {κ α : Type} [DecidableEq κ]
    (m : List (κ × α)) (k k' : κ) (v : α) (hne : k ≠ k') :
    objGet (objSet m k v) k' = objGet m k' := by
  induction m with
  | nil => simp [objSet, objGet, hne]
  | cons p rest ih =>
      obtain ⟨k0, v0⟩ := p
      by_cases h : k0 = k
      · subst h
        simp [objSet, objGet, hne]
      · simp [objSet, h, objGet, ih]

theorem objGet_objDelete_self {κ α : Type} [DecidableEq κ]
    (m : List (κ × α)) (k : κ) : objGet (objDelete m k) k = none := by
  induction m with
  | nil => simp [objDelete, objGet]
  | cons p rest ih =>
      obtain ⟨k0, v0⟩ := p
      by_cases h : k0 = k
      · simp [objDelete, h, ih]
      · simp [objDelete, objGet, h, ih]

theorem objGet_objDelete_other {κ α : Type} [DecidableEq κ]
    (m : List (κ × α)) (k k' : κ) (hne : k ≠ k') :
    objGet (objDelete m k) k' = objGet m k' := by
  induction m with
  | nil => simp [objDelete]
  | cons p rest ih =>
      obtain ⟨k0, v0⟩ := p
      by_cases h : k0 = k
      · subst h
        simp [objDelete, objGet, hne, ih]
      · by_cases h' : k0 = k'
        · subst h'
          simp [objDelete, objGet, h, Ne.symm hne]
        · simp [objDelete, objGet, h, h', ih]

/-- Length after `objSet`: at most one more entry. -/
theorem length_objSet_le {κ α : Type} [DecidableEq κ]
    (m : List (κ × α)) (k : κ) (v : α) :
    (objSet m k v).length ≤ m.length + 1 := by
  induction m with
  | nil => simp [objSet]
  | cons p rest ih =>
      obtain ⟨k0, v0⟩ := p
      by_cases h : k0 = k
      · simp [objSet, h]
      · simp only [objSet, if_neg h, List.length_cons]
        omega

theorem length_objDelete_le {κ α : Type} [DecidableEq κ]
    (m : List (κ × α)) (k : κ) : (objDelete m k).length ≤ m.length := by
  induction m with
  | nil => simp [objDelete]
  | cons p rest ih =>
      obtain ⟨k0, v0⟩ := p
      by_cases h : k0 = k
      · simp only [objDelete, if_pos h, List.length_cons]
        omega
      · simp only [objDelete, if_neg h, List.length_cons]
        omega

/-- Deleting a present key strictly shrinks the list. -/
theorem length_objDelete_lt {κ α : Type} [DecidableEq κ]
    (m : List (κ × α)) (k : κ) (v : α) (h : objGet m k = some v) :
    (objDelete m k).length < m.length := by
  induction m with
  | nil => simp [objGet] at h
  | cons p rest ih =>
      obtain ⟨k0, v0⟩ := p
      by_cases hk : k0 = k
      · simp only [objDelete, if_pos hk, List.length_cons]
        have := length_objDelete_le rest k
        omega
      · simp only [objGet, if_neg hk] at h
        have hlt := ih h
        simp only [objDelete, if_neg hk, List.length_cons]
        omega

end SwellNode

namespace SwellNode

/-! ## URL/key normalization (`Cache.getKey`, src/lib/cache.js:70-77)

`getKey` computes `md5(JSON.stringify([saneUrl, data]))` where
`saneUrl = String(url).trim().replace(/^\/|\/$/g, '')` and
`data = data || null`.  The model keeps the digest *input* (the pair fed
to `JSON.stringify`): md5 is injective on the key inputs this client can
produce up to astronomically unlikely collisions, and no claim inspects
the digest text itself. -/

/-- The character class trimmed by JS `String.prototype.trim`
(WhiteSpace and LineTerminator code points). -/
def jsWhitespace (c : Char) : Bool :=
  c.val == 0x9 || c.val == 0xA || c.val == 0xB || c.val == 0xC ||
  c.val == 0xD || c.val == 0x20 || c.val == 0xA0 || c.val == 0x1680 ||
  (0x2000 ≤ c.val && c.val ≤ 0x200A) || c.val == 0x2028 || c.val == 0x2029 ||
  c.val == 0x202F || c.val == 0x205F || c.val == 0x3000 || c.val == 0xFEFF

/-- `String(url).trim()` on the character list. -/
def jsTrimL (l : List Char) : List Char :=
  ((l.dropWhile jsWhitespace).reverse.dropWhile jsWhitespace).reverse

/-- `s.replace(/^\/|\/$/g, '')`.  The global regex consumes the slash at
position 0 (if any) and then a final slash (if any) that was not already
consumed as the leading match — i.e. at most one slash is removed from
each end, and a lone "/" loses only its single character. -/
def stripSlashesL (l : List Char) : List Char :=
  let t := match l with
    | '/' :: rest => rest
    | _ => l
  match t.getLast? with
  | some '/' => t.dropLast
  | _ => t

/-- `String(url).trim().replace(/^\/|\/$/g, '')`. -/
def saneUrl (url : String) : String :=
  ⟨stripSlashesL (jsTrimL url.data)⟩

/-- `data = data || null` (src/lib/cache.js:42,71). -/
def jsOrNull (d : JVal) : JVal :=
  if d.jsTruthy then d else JVal.null

/-- The pair whose JSON encoding is hashed into the cache key. -/
abbrev CKey := String × JVal

/-- Digest input of `Cache.getKey(url, data)`. -/
def getKeyInput (url : String) (data : JVal) : CKey :=
  (saneUrl url, jsOrNull data)

/-! ## `JSON.stringify` (used by `writeCache` for the stored byte size) -/

/-- String-body escaping for `JSON.stringify`.  Only the two escapes that
affect the claims' inputs are modelled (quote and backslash); the result
is used solely as an opaque stored blob and for its positive length. -/
def jsonEscape (s : String) : String :=
  s.data.foldr
    (fun c acc =>
      (if c = '"' then "\\\"" else if c = '\\' then "\\\\" else String.singleton c)
        ++ acc)
    ""

mutual
/-- `JSON.stringify` of a value. -/
def jsonStringify : JVal → String
  | .null => "null"
  | .bool b => if b then "true" else "false"
  | .num n => toString n
  | .str s => "\"" ++ jsonEscape s ++ "\""
  | .arr a => "[" ++ jsonStringifyArr a ++ "]"
  | .obj o => "\x7b" ++ jsonStringifyObj o ++ "\x7d"
/-- Comma-separated array elements. -/
def jsonStringifyArr : JArr → String
  | .nil => ""
  | .cons v .nil => jsonStringify v
  | .cons v rest => jsonStringify v ++ "," ++ jsonStringifyArr rest
/-- Comma-separated object fields. -/
def jsonStringifyObj : JObj → String
  | .nil => ""
  | .cons k v .nil => "\"" ++ jsonEscape k ++ "\":" ++ jsonStringify v
  | .cons k v rest =>
      "\"" ++ jsonEscape k ++ "\":" ++ jsonStringify v ++ "," ++ jsonStringifyObj rest
end

end SwellNode

namespace SwellNode

/-! ## ResponseCache (src/lib/cache.js)

Storage is keyed by `getPath(...)` strings built from a fixed prefix; for
one cache instance the three key families — `<prefix><cacheKey>.result`,
`<prefix>index`, `<prefix>versions` — never collide (the `.result`
suffix separates them), so the storage is modelled structurally as three
components.  `getVersions`/`getIndex` re-read storage on every call and
every mutation is written back immediately, so the memoization fields
`this.versions`/`this.indexes` always agree with storage at read sites
and are not modelled separately. -/

/-- Version map: collection name to JSON version value. -/
abbrev VMap := List (String × JVal)

/-- One collection's index: cache key to stored byte size. -/
abbrev KMap := List (CKey × Nat)

/-- The stored `index` object: collection name to key map. -/
abbrev IMap := List (String × KMap)

/-- The `$cached` field of a response or stored result: absent, the boolean
written by `put`, or the collection-to-version map sent by the server. -/
inductive CField where
  | absent
  | flag (b : Bool)
  | vmap (m : VMap)
deriving DecidableEq, Repr

/-- `$cached[collection]`: property lookup on the field's value (lookups on
the booleans yield `undefined`). -/
def CField.lookup : CField → String → Option JVal
  | .vmap m, c => objGet m c
  | _, _ => none

/-- A response object as the cache inspects it: the `$`-fields read by
`put`/`get`/`clear` (`$data`, `$collection`, `$expanded`, `$cached`).
Other response fields are copied through `put` verbatim and never read
back, so they are not modelled. -/
structure ApiResult where
  rdata : Option JVal
  collection : Option String
  expanded : Option (List String)
  rcached : CField
deriving DecidableEq, Repr

/-- Serialize a result the way `writeCache` JSON-stringifies it (field
order as produced by the copy loop in `put`). -/
def listToJObj : List (String × JVal) → JObj
  | [] => .nil
  | (k, v) :: rest => .cons k v (listToJObj rest)

/-- String list to JSON array. -/
def listToJArr : List String → JArr
  | [] => .nil
  | s :: rest => .cons (JVal.str s) (listToJArr rest)

/-- The stored result as a JSON value. -/
def ApiResult.toJVal (r : ApiResult) : JVal :=
  JVal.obj (listToJObj (
    (match r.rdata with | some d => [("$data", d)] | none => []) ++
    (match r.collection with
     | some c => [("$collection", JVal.str c)] | none => []) ++
    (match r.expanded with
     | some l => [("$expanded", JVal.arr (listToJArr l))] | none => []) ++
    (match r.rcached with
     | .absent => []
     | .flag b => [("$cached", JVal.bool b)]
     | .vmap m => [("$cached", JVal.obj (listToJObj m))])))

/-- `writeCache` returns `JSON.stringify(content).length`. -/
def resultSize (r : ApiResult) : Nat :=
  (jsonStringify r.toJVal).length

/-- The value stored in the `invalid` sets handed to `clearIndexes`:
`true` (clear the whole collection), a single cache key, or `undefined`
(produced by truncating an empty index; falsy, so ignored).  A cache-key
value is an md5 hex digest in the source — a nonempty string, always
truthy. -/
inductive InvalidVal where
  | whole
  | single (k : CKey)
  | undef
deriving DecidableEq, Repr

/-- Cache state: constructor params (src/lib/cache.js:21-27) plus the
storage content. -/
structure CacheSt where
  clientId : String
  path : String
  env : Option String
  indexLimit : Nat
  results : List (CKey × ApiResult)
  index : Option IMap
  versions : Option VMap
deriving Repr

namespace Cache

/-- `new Cache(clientId, options)`: `indexLimit: options.indexLimit || 1000`
(a missing or zero option falls back to the default). -/
def init (clientId path : String) (env : Option String)
    (indexLimitOpt : Option Nat) : CacheSt :=
  { clientId := clientId
    path := path
    env := env
    indexLimit := match indexLimitOpt with
      | some n => if n = 0 then 1000 else n
      | none => 1000
    results := []
    index := none
    versions := none }

/-- `path.replace(/\/$/, '')` (no global flag: one trailing slash). -/
def stripOneTrailingSlash (s : String) : String :=
  match s.data.getLast? with
  | some '/' => ⟨s.data.dropLast⟩
  | _ => s

/-- `Cache.getPath(...args)` (src/lib/cache.js:80-96). -/
def getPath (c : CacheSt) (args : List String) : String :=
  let base := stripOneTrailingSlash c.path ++ "/client." ++ c.clientId ++ "."
  let base := match c.env with
    | some e => if e ≠ "" then base ++ e ++ "." else base
    | none => base
  base ++ String.intercalate "." args

/-- `getVersions()` = `this.versions = this.getCache('versions') || {}`. -/
def getVersions (c : CacheSt) : VMap := c.versions.getD []

/-- `getIndex()` = `this.indexes = this.getCache('index') || {}`. -/
def getIndex (c : CacheSt) : IMap := c.index.getD []

/-- `putVersion(collection, version)` (src/lib/cache.js:196-204): a falsy
version is not persisted. -/
def putVersion (c : CacheSt) (col : String) (v : JVal) : CacheSt :=
  if v.jsTruthy then
    { c with versions := some (objSet (getVersions c) col v) }
  else c

/-- The loop body of `clearIndexes` for one collection of the `invalid`
set, threading the mutated index object and the storage of results. -/
def clearIndexesStep (invalid : List (String × InvalidVal))
    (acc : IMap × List (CKey × ApiResult)) (col : String) :
    IMap × List (CKey × ApiResult) :=
  let (idx, results) := acc
  match objGet idx col with
  | none => acc
  | some kmap =>
      match objGet invalid col with
      | some .whole =>
          let keys := objKeys kmap
          (objSet idx col (keys.foldl (fun m k => objDelete m k) kmap),
           keys.foldl (fun r k => objDelete r k) results)
      | some (.single k) =>
          match objGet kmap k with
          | some _ => (objSet idx col (objDelete kmap k), objDelete results k)
          | none => acc
      | _ => acc

/-- `clearIndexes(invalid)` (src/lib/cache.js:240-272): walks the keys of
`invalid` over the freshly loaded index, deleting whole collections
(value `true`) or single cache keys (truthy string value) together with
their stored results, then writes the index back once. -/
def clearIndexes (c : CacheSt) (invalid : List (String × InvalidVal)) : CacheSt :=
  if invalid.isEmpty then c
  else
    let fin := (objKeys invalid).foldl (clearIndexesStep invalid)
      (getIndex c, c.results)
    { c with index := some fin.1, results := fin.2 }

/-- `truncateIndex(collection)` (src/lib/cache.js:183-193): removes the
*last* key of `Object.keys(this.indexes[collection])`. -/
def truncateIndex (c : CacheSt) (col : String) : CacheSt :=
  let idx := getIndex c
  match objGet idx col with
  | none => c
  | some kmap =>
      clearIndexes c
        [(col, match (objKeys kmap).getLast? with
               | some k => InvalidVal.single k
               | none => InvalidVal.undef)]

/-- `putIndex(collection, key, size)` (src/lib/cache.js:154-170). -/
def putIndex (c : CacheSt) (col : String) (key : CKey) (size : Nat) : CacheSt :=
  let idx := getIndex c
  let c := match objGet idx col with
    | some kmap =>
        if kmap.length ≥ c.indexLimit then truncateIndex c col else c
    | none => c
  let idx := getIndex c
  let kmap := (objGet idx col).getD []
  { c with index := some (objSet idx col (objSet kmap key size)) }

/-- `remove(url, data)` (src/lib/cache.js:174-179). -/
def remove (c : CacheSt) (url : String) (data : JVal) : CacheSt :=
  { c with results := objDelete c.results (getKeyInput url data) }

/-- `resultCollections(result)` (src/lib/cache.js:300-311): `$collection`
first, then each `$expanded` entry not already present. -/
def resultCollections (r : ApiResult) : List String :=
  let base := match r.collection with
    | some col => [col]
    | none => []
  match r.expanded with
  | none => base
  | some l => l.foldl (fun acc e => if e ∈ acc then acc else acc ++ [e]) base

/-- The loop body of `put` over `resultCollections(result)`: skip a
collection that is neither version-tracked nor named in the response's
`$cached` set, otherwise index the key and persist a declared version. -/
def putLoopStep (rc : CField) (cacheKey : CKey) (size : Nat)
    (c : CacheSt) (col : String) : CacheSt :=
  match CField.lookup rc col, objGet (getVersions c) col with
  | none, none => c
  | cachedV, _ =>
      let c := putIndex c col cacheKey size
      match cachedV with
      | some v => putVersion c col v
      | none => c

/-- `put(url, data, result)` (src/lib/cache.js:116-151). -/
def put (c : CacheSt) (url : String) (data : JVal) (result : ApiResult) :
    CacheSt :=
  let result := { result with rdata := some (result.rdata.getD JVal.null) }
  let content := { result with rcached := CField.flag true }
  let cacheKey := getKeyInput url data
  let size := resultSize content
  let c := { c with results := objSet c.results cacheKey content }
  if size > 0 then
    match result.rcached with
    | .absent => c
    | rc => (resultCollections result).foldl (putLoopStep rc cacheKey size) c
  else c

/-- The purge loop body of `get` (src/lib/cache.js:58-63). -/
def getPurgeStep (cacheKey : CKey) (c : CacheSt) (col : String) : CacheSt :=
  clearIndexes c [(col, InvalidVal.single cacheKey)]

/-- `get(url, data)` (src/lib/cache.js:41-67): returns the stored result
only while its collection's index still lists the cache key (with a
truthy size); otherwise purges the key from every collection the result
names and returns `null`. -/
def get (c : CacheSt) (url : String) (data : JVal) :
    CacheSt × Option ApiResult :=
  let cacheKey := getKeyInput url data
  match objGet c.results cacheKey with
  | none => (c, none)
  | some result =>
      let idx := getIndex c
      let hit : Bool := match result.collection with
        | some col =>
            match objGet idx col with
            | some kmap =>
                match objGet kmap cacheKey with
                | some size => size != 0
                | none => false
            | none => false
        | none => false
      if hit then (c, some result)
      else
        let c := (resultCollections result).foldl (getPurgeStep cacheKey) c
        (c, none)

/-- One invalidation step of `clear`'s loop body for a collection whose
version differs: persist the version, mark the collection wholly invalid,
and apply the `admin.settings` cross-invalidation hack. -/
def clearStep (c : CacheSt) (invalid : List (String × InvalidVal))
    (col : String) (version : JVal) :
    CacheSt × List (String × InvalidVal) :=
  let c := putVersion c col version
  let invalid := objSet invalid col InvalidVal.whole
  if col = "admin.settings" then
    (c,
     (objKeys (getVersions c)).foldl
       (fun inv vc =>
         if vc.endsWith ".settings" then objSet inv vc InvalidVal.whole
         else inv)
       invalid)
  else (c, invalid)

/-- The loop body of `clear` over `Object.keys(result.$cached)`. -/
def clearLoopStep (rc : CField)
    (acc : CacheSt × List (String × InvalidVal)) (col : String) :
    CacheSt × List (String × InvalidVal) :=
  let version := (CField.lookup rc col).getD JVal.null
  match objGet (Cache.getVersions acc.1) col with
  | some stored =>
      if version.jsStrictNeq stored then
        clearStep acc.1 acc.2 col version
      else acc
  | none => clearStep acc.1 acc.2 col version

/-- `clear(result)` (src/lib/cache.js:207-237). -/
def clear (c : CacheSt) (result : ApiResult) : CacheSt :=
  match result.rcached with
  | .absent => c
  | rc =>
      let cachedKeys := match rc with
        | .vmap m => objKeys m
        | _ => []
      let fin := cachedKeys.foldl (clearLoopStep rc) (c, [])
      if fin.2.isEmpty then fin.1 else clearIndexes fin.1 fin.2

end Cache

/-- The cache's mutating entry points, for stating reachability
invariants. -/
inductive CacheOp where
  | putOp (url : String) (data : JVal) (result : ApiResult)
  | putIndexOp (col : String) (key : CKey) (size : Nat)
  | putVersionOp (col : String) (v : JVal)
  | clearOp (result : ApiResult)
  | removeOp (url : String) (data : JVal)
  | getOp (url : String) (data : JVal)
  | truncateOp (col : String)
  | clearIndexesOp (invalid : List (String × InvalidVal))

/-- Apply one cache operation. -/
def CacheSt.apply (c : CacheSt) : CacheOp → CacheSt
  | .putOp url data result => Cache.put c url data result
  | .putIndexOp col key size => Cache.putIndex c col key size
  | .putVersionOp col v => Cache.putVersion c col v
  | .clearOp result => Cache.clear c result
  | .removeOp url data => Cache.remove c url data
  | .getOp url data => (Cache.get c url data).1
  | .truncateOp col => Cache.truncateIndex c col
  | .clearIndexesOp invalid => Cache.clearIndexes c invalid

/-- Run a sequence of cache operations. -/
def runCacheOps (ops : List CacheOp) (c : CacheSt) : CacheSt :=
  ops.foldl CacheSt.apply c

end SwellNode

namespace SwellNode

/-! ## Connection (src/lib/connection.js)

The socket itself is external; the model keeps the boolean `hasStream`
(`this.stream !== null`), records every `stream.write` as an event, and
feeds parsed inbound lines to `receiveResponse` directly (the newline
chunking of `receive` reassembles lines and is not itself the subject of
any claim).  Timers are not modelled; the `connect()` callback firing is
the separate operation `connectDone`. -/

/-- The `$`-fields of a request's data object that the connection reads:
`$req_id` (connection.js:225) and `$client`/`$key` truthiness
(connection.js:26-29).  A service call without a data object (e.g.
`request('auth', cb)`) reads these properties off a string, which yields
`undefined`; such a call is modelled with all fields absent. -/
structure ReqData where
  reqId : Option String
  hasClient : Bool
  hasKey : Bool
deriving DecidableEq, Repr

/-- One queued request `args`: the first argument (method or service
name), the data object (second-to-last argument) and the trailing
callback, identified by a number.  `cb = none` models a call whose
trailing callback slot is `undefined`; every caller in src/lib/client.js
passes a function. -/
structure Request where
  name : String
  data : ReqData
  cb : Option Nat
deriving DecidableEq, Repr

/-- A parsed response line: the fields `receiveResponse` inspects, plus
an opaque `payload` so invocations can be matched to the line that
caused them. -/
structure RespObj where
  push : Bool
  reqId : Option String
  err : Bool
  endd : Bool
  payload : JVal
deriving DecidableEq, Repr

/-- Result of `JSON.parse` on one inbound line: `bad` covers a parse
error and every falsy or non-object parse (all of which take the
synthesized protocol-error path at connection.js:309-316), `obj` a
truthy object. -/
inductive Parsed where
  | bad
  | obj (o : RespObj)
deriving DecidableEq, Repr

/-- What a responder callback receives: the parsed response, or a
synthesized `{$status: 500, $error: ...}`. -/
inductive RespOut where
  | ok (o : RespObj)
  | errResp
deriving DecidableEq, Repr

/-- Observable connection effects, in program order. -/
inductive Ev where
  | wrote (r : Request)
  | invoked (cb : Nat) (out : RespOut)
  | pushed (o : RespObj)
  | emitted (name : String)
deriving DecidableEq, Repr

/-- Connection state (constructor, connection.js:65-103). -/
structure Conn where
  hasStream : Bool
  ready : Bool
  connected : Bool
  requestBuffer : List Request
  pendingBuffer : List Request
  requested : Int
  requestCallbacks : List (String × Option Nat)
  maxConcurrent : Nat
  hasOnPush : Bool
deriving DecidableEq, Repr

/-- `hasRequestAuthData` (connection.js:26-29). -/
def hasRequestAuthData (r : Request) : Bool :=
  r.data.hasClient && r.data.hasKey

/-- JS truthiness filter on a `$req_id` value (`if (req_id)`). -/
def truthyId : Option String → Option String
  | some s => if s = "" then none else some s
  | none => none

namespace Conn

/-- `new Connection(host, port, options)` followed by the synchronous part
of `connect()` (`this.ready = false; this.stream = proto.connect(...)`).
`maxConcurrent = Number(options.maxConcurrent) || 10`. -/
def init (maxConcurrentOpt : Option Nat) : Conn :=
  { hasStream := true
    ready := false
    connected := false
    requestBuffer := []
    pendingBuffer := []
    requested := 0
    requestCallbacks := []
    maxConcurrent := match maxConcurrentOpt with
      | some n => if n = 0 then 10 else n
      | none => 10
    hasOnPush := true }

/-- `isBufferNotEmpty()` (connection.js:470-472). -/
def isBufferNotEmpty (c : Conn) : Bool :=
  c.requestBuffer.length > 0 || c.pendingBuffer.length > 0

/-- The synchronous body of `connect()` as observable in state:
`this.ready = false` and a fresh socket object assigned to
`this.stream`.  Completion is the separate `connectDone`. -/
def connectSync (c : Conn) : Conn :=
  { c with ready := false, hasStream := true }

/-- `requestNext()` (connection.js:212-236).  Note the admission guard is
`this.requested > this.maxConcurrent`: a write is still performed when
`requested` *equals* `maxConcurrent`. -/
def requestNext (c : Conn) : Conn × List Ev :=
  if c.requested > (c.maxConcurrent : Int) then (c, [])
  else
    let args : Option Request :=
      if (c.requestBuffer.length : Int) > c.requested then
        if c.requested < 0 then none
        else c.requestBuffer.get? c.requested.toNat
      else none
    match args with
    | none => (c, [])
    | some r =>
        let cbs := match truthyId r.data.reqId with
          | some rid => objSet c.requestCallbacks rid r.cb
          | none => c.requestCallbacks
        ({ c with requestCallbacks := cbs, requested := c.requested + 1 },
         [Ev.wrote r])

/-- `request(...args)` (connection.js:179-210). -/
def request (c : Conn) (r : Request) : Conn × List Ev :=
  let c :=
    if r.name = "auth" ∨ r.name = "cached" then
      { c with requestBuffer := c.requestBuffer ++ [r] }
    else if c.ready || hasRequestAuthData r then
      { c with requestBuffer := c.requestBuffer ++ [r] }
    else
      { c with pendingBuffer := c.pendingBuffer ++ [r] }
  if c.connected = false then (c, [])
  else if c.hasStream = false then (connectSync c, [])
  else requestNext c

/-- `close(stream)` (connection.js:361-393) for a call whose stream guard
passes (the socket's own close event, `this.close(this.stream)`, or an
owner calling `close()` with no argument). -/
def close (c : Conn) : Conn × List Ev :=
  let evs := [Ev.emitted "close"]
  if c.connected = false then (c, evs)
  else
    let c := { c with
      ready := false
      connected := false
      hasStream := false
      requestCallbacks := []
      pendingBuffer :=
        (c.requestBuffer.filter
          (fun r => r.name ≠ "auth" ∧ r.name ≠ "cached")) ++ c.pendingBuffer
      requestBuffer := []
      requested := 0 }
    if isBufferNotEmpty c then (connectSync c, evs) else (c, evs)

/-- The non-push tail of `receiveResponse` (connection.js:290-333),
applied after the push check; `o? = none` is a line whose parse result
is falsy or threw. -/
def receiveNonPush (c : Conn) (o? : Option RespObj) : Conn × List Ev :=
  let request := c.requestBuffer.head?
  let c := { c with requestBuffer := c.requestBuffer.tail }
  let reqId := match o? with
    | some o => truthyId o.reqId
    | none => none
  let responder : Option Nat :=
    match reqId with
    | some rid => (objGet c.requestCallbacks rid).join
    | none => match request with
      | some r => r.cb
      | none => none
  let c := match reqId with
    | some rid => { c with requestCallbacks := objDelete c.requestCallbacks rid }
    | none => c
  let c := { c with requested := c.requested - 1 }
  match responder with
  | none => (c, [])
  | some cbId =>
      match o? with
      | none =>
          (c, [Ev.emitted "error.protocol", Ev.invoked cbId RespOut.errResp])
      | some o =>
          let evs := if o.err then [Ev.emitted "error.server"] else []
          let cevs := if o.endd then close c else (c, [])
          let c := cevs.1
          let evs := evs ++ cevs.2 ++ [Ev.invoked cbId (RespOut.ok o)]
          if c.connected && c.hasStream then
            let nxt := requestNext c
            (nxt.1, evs ++ nxt.2)
          else (c, evs)

/-- `receiveResponse(data)` (connection.js:274-333). -/
def receiveResponse (c : Conn) (p : Parsed) : Conn × List Ev :=
  match p with
  | .obj o =>
      if o.push then (c, if c.hasOnPush then [Ev.pushed o] else [])
      else receiveNonPush c (some o)
  | .bad => receiveNonPush c none

/-- Re-submission step used by both flush loops (`this.request(...request)`). -/
def requestFoldStep (acc : Conn × List Ev) (r : Request) : Conn × List Ev :=
  let step := request acc.1 r
  (step.1, acc.2 ++ step.2)

/-- `flushPendingBuffer()` (connection.js:432-444). -/
def flushPendingBuffer (c : Conn) : Conn × List Ev :=
  if c.connected = false then (c, [])
  else
    let pending := c.pendingBuffer
    let c := { c with pendingBuffer := [], ready := true }
    pending.foldl requestFoldStep (c, [])

/-- `flushRequestBuffer()` (connection.js:415-427). -/
def flushRequestBuffer (c : Conn) : Conn × List Ev :=
  if c.connected = false then (c, [])
  else
    let buf := c.requestBuffer
    let c := { c with requestBuffer := [], requested := 0 }
    buf.foldl requestFoldStep (c, [])

/-- `flushRequestBufferWithError(error)` (connection.js:452-468). -/
def flushRequestBufferWithError (c : Conn) : Conn × List Ev :=
  let buf := c.requestBuffer ++ c.pendingBuffer
  let c := { c with requestBuffer := [], pendingBuffer := [], requested := 0 }
  (c, buf.filterMap (fun r => r.cb.map (fun cb => Ev.invoked cb RespOut.errResp)))

/-- `timeout(stream)` (connection.js:402-410) for a matching stream. -/
def timeoutClose (c : Conn) : Conn × List Ev :=
  if isBufferNotEmpty c then (c, []) else close c

/-- The success callback passed to `proto.connect` (connection.js:121-137):
marks connected, emits `connect`, and asks the owner to authorize when
requests are waiting. -/
def connectDone (c : Conn) : Conn × List Ev :=
  let c := { c with connected := true }
  if isBufferNotEmpty c then
    (c, [Ev.emitted "connect", Ev.emitted "auth.require"])
  else (c, [Ev.emitted "connect"])

end Conn

/-- Entry points through which a connection's state evolves. -/
inductive ConnOp where
  | requestOp (r : Request)
  | receiveOp (p : Parsed)
  | flushPendingOp
  | flushRequestsOp
  | flushErrorOp
  | closeOp
  | timeoutOp
  | connectDoneOp
deriving DecidableEq, Repr

/-- Apply one operation. -/
def Conn.apply (c : Conn) : ConnOp → Conn × List Ev
  | .requestOp r => Conn.request c r
  | .receiveOp p => Conn.receiveResponse c p
  | .flushPendingOp => Conn.flushPendingBuffer c
  | .flushRequestsOp => Conn.flushRequestBuffer c
  | .flushErrorOp => Conn.flushRequestBufferWithError c
  | .closeOp => Conn.close c
  | .timeoutOp => Conn.timeoutClose c
  | .connectDoneOp => Conn.connectDone c

/-- One step of an operation run, accumulating events. -/
def connOpFold (acc : Conn × List Ev) (op : ConnOp) : Conn × List Ev :=
  let step := Conn.apply acc.1 op
  (step.1, acc.2 ++ step.2)

/-- Run a sequence of operations, accumulating events. -/
def runConnOps (ops : List ConnOp) (c : Conn) : Conn × List Ev :=
  ops.foldl connOpFold (c, [])

/-- The state of a freshly connected and authorized connection
(reachable from `Conn.init` by `connectDone` then `flushPendingBuffer`). -/
def Conn.readyState (k : Nat) : Conn :=
  { Conn.init (some k) with connected := true, ready := true }

/-- Projection of an event trace to callback invocations. -/
def invocations (evs : List Ev) : List (Nat × RespOut) :=
  evs.filterMap (fun e => match e with
    | Ev.invoked cb out => some (cb, out)
    | _ => none)

/-- Projection of an event trace to socket writes. -/
def writes (evs : List Ev) : List Request :=
  evs.filterMap (fun e => match e with
    | Ev.wrote r => some r
    | _ => none)

end SwellNode

namespace SwellNode

/-! ## Facts about url normalization (claim C10) -/

theorem jsWhitespace_space : jsWhitespace ' ' = true := by decide

theorem jsWhitespace_slash : jsWhitespace '/' = false := by decide

theorem jsTrimL_cons_ws (c : Char) (h : jsWhitespace c = true) (l : List Char) :
    jsTrimL (c :: l) = jsTrimL l := by
  simp [jsTrimL, List.dropWhile_cons, h]

theorem jsTrimL_concat_ws (c : Char) (h : jsWhitespace c = true) (l : List Char) :
    jsTrimL (l ++ [c]) = jsTrimL l := by
  unfold jsTrimL
  rw [List.dropWhile_append]
  by_cases he : (l.dropWhile jsWhitespace).isEmpty
  · have h0 : l.dropWhile jsWhitespace = [] := by
      simpa [List.isEmpty_iff] using he
    simp [he, h0, List.dropWhile_cons, h]
  · simp [he, List.reverse_append, List.dropWhile_cons, h]

theorem jsTrimL_slash_wrap (l : List Char) :
    jsTrimL ('/' :: (l ++ ['/'])) = '/' :: (l ++ ['/']) := by
  unfold jsTrimL
  rw [List.dropWhile_cons]
  simp only [jsWhitespace_slash, Bool.false_eq_true, if_false]
  rw [List.reverse_cons, List.reverse_append]
  simp only [List.reverse_cons, List.reverse_nil, List.nil_append,
    List.singleton_append, List.cons_append, List.dropWhile_cons,
    jsWhitespace_slash, Bool.false_eq_true, if_false]
  simp [List.reverse_append]

theorem stripSlashesL_wrap (l : List Char) :
    stripSlashesL ('/' :: (l ++ ['/'])) = l := by
  show (match (l ++ ['/']).getLast? with
        | some '/' => (l ++ ['/']).dropLast
        | _ => (l ++ ['/'])) = l
  rw [List.getLast?_concat]
  simp [List.dropLast_concat]

theorem saneUrl_space_wrap (url : String) :
    saneUrl (" " ++ url ++ " ") = saneUrl url := by
  unfold saneUrl
  have hdata : (" " ++ url ++ " ").data = ' ' :: (url.data ++ [' ']) := by
    simp [String.data_append]
  rw [hdata, jsTrimL_cons_ws ' ' jsWhitespace_space,
    jsTrimL_concat_ws ' ' jsWhitespace_space]

theorem saneUrl_slash_wrap (url : String) :
    saneUrl ("/" ++ url ++ "/") = ⟨url.data⟩ := by
  unfold saneUrl
  have hdata : ("/" ++ url ++ "/").data = '/' :: (url.data ++ ['/']) := by
    simp [String.data_append]
  rw [hdata, jsTrimL_slash_wrap, stripSlashesL_wrap]

theorem string_mk_data (s : String) : (⟨s.data⟩ : String) = s := rfl

end SwellNode

namespace SwellNode

/-- Claim C10 (counterexample): `getKey(url, d) = getKey('/' + url + '/', d)`
fails at `url = "/"` (the regex strips at most one slash from each end of
the already slash-wrapped string, so the two key inputs are `""` and
`"/"`), and two distinct data values are collapsed by `data = data || null`
(`0` and `null` produce the same key input), refuting "distinct data yield
distinct key inputs". -/
theorem C10_counterexample :
    (getKeyInput "/" JVal.null ≠ getKeyInput "///" JVal.null)
    ∧ (JVal.num 0 ≠ JVal.null
       ∧ getKeyInput "a" (JVal.num 0) = getKeyInput "a" JVal.null) := by
  constructor
  · decide
  · exact ⟨by decide, by decide⟩

/-- Claim C10 (amended): `getKey` identifies urls up to surrounding
whitespace unconditionally; it identifies `url` with `'/' + url + '/'`
exactly when `url` is already normalized (trimmed, with no leading or
trailing slash, i.e. `saneUrl url = url`); and distinct normalized urls
or distinct falsy-normalized data (`data || null`) yield distinct key
inputs. -/
theorem C10_key_normalization :
    (∀ (url : String) (d : JVal),
        getKeyInput (" " ++ url ++ " ") d = getKeyInput url d)
    ∧ (∀ (url : String) (d : JVal), saneUrl url = url →
        getKeyInput ("/" ++ url ++ "/") d = getKeyInput url d)
    ∧ (∀ (u1 u2 : String) (d1 d2 : JVal),
        saneUrl u1 ≠ saneUrl u2 ∨ jsOrNull d1 ≠ jsOrNull d2 →
        getKeyInput u1 d1 ≠ getKeyInput u2 d2) := by
  refine ⟨?_, ?_, ?_⟩
  · intro url d
    unfold getKeyInput
    rw [saneUrl_space_wrap]
  · intro url d h
    unfold getKeyInput
    rw [saneUrl_slash_wrap, string_mk_data, h]
  · intro u1 u2 d1 d2 h heq
    unfold getKeyInput at heq
    have h1 : saneUrl u1 = saneUrl u2 := congrArg Prod.fst heq
    have h2 : jsOrNull d1 = jsOrNull d2 := congrArg Prod.snd heq
    rcases h with h | h
    · exact h h1
    · exact h h2

/-- Witness for C10_key_normalization at concrete inputs. -/
theorem C10_witness :
    getKeyInput (" " ++ "products" ++ " ") (JVal.num 1)
      = getKeyInput "products" (JVal.num 1)
    ∧ getKeyInput ("/" ++ "products" ++ "/") (JVal.num 1)
      = getKeyInput "products" (JVal.num 1)
    ∧ getKeyInput "a" JVal.null ≠ getKeyInput "b" JVal.null :=
  ⟨C10_key_normalization.1 "products" (JVal.num 1),
   C10_key_normalization.2.1 "products" (JVal.num 1) (by decide),
   C10_key_normalization.2.2 "a" "b" JVal.null JVal.null (Or.inl (by decide))⟩

end SwellNode

namespace SwellNode

/-! ## Facts about the cache index (claim C8) -/

/-- Generic foldl preservation. -/
theorem foldl_preserve {α β : Type} (P : α → Prop) (f : α → β → α)
    (l : List β) (h : ∀ a b, P a → P (f a b)) :
    ∀ a, P a → P (l.foldl f a) := by
  induction l with
  | nil => intro a ha; exact ha
  | cons b rest ih => intro a ha; exact ih _ (h a b ha)

theorem objGet_mem_keys {κ α : Type} [DecidableEq κ]
    (m : List (κ × α)) (k : κ) (v : α) (h : objGet m k = some v) :
    k ∈ objKeys m := by
  induction m with
  | nil => simp [objGet] at h
  | cons p rest ih =>
      obtain ⟨k0, v0⟩ := p
      by_cases hk : k0 = k
      · simp [objKeys, hk]
      · simp only [objGet, if_neg hk] at h
        simp [objKeys] at ih ⊢
        exact Or.inr (ih h)

theorem mem_keys_objGet {κ α : Type} [DecidableEq κ]
    (m : List (κ × α)) (k : κ) (h : k ∈ objKeys m) :
    ∃ v, objGet m k = some v := by
  induction m with
  | nil => simp [objKeys] at h
  | cons p rest ih =>
      obtain ⟨k0, v0⟩ := p
      by_cases hk : k0 = k
      · exact ⟨v0, by simp [objGet, hk]⟩
      · simp only [objKeys, List.map_cons, List.mem_cons] at h
        rcases h with h | h
        · exact absurd h.symm hk
        · obtain ⟨v, hv⟩ := ih h
          exact ⟨v, by simp [objGet, hk, hv]⟩

/-- Folding deletions never grows a map. -/
theorem length_foldDelete_le {κ α : Type} [DecidableEq κ]
    (ks : List κ) : ∀ (m : List (κ × α)),
    (ks.foldl (fun m k => objDelete m k) m).length ≤ m.length := by
  induction ks with
  | nil => intro m; simp
  | cons k rest ih =>
      intro m
      calc (rest.foldl (fun m k => objDelete m k) (objDelete m k)).length
          ≤ (objDelete m k).length := ih _
        _ ≤ m.length := length_objDelete_le m k

/-- After deleting every key of a list, lookups of its members fail. -/
theorem objGet_foldDelete_none {κ α : Type} [DecidableEq κ]
    (ks : List κ) : ∀ (m : List (κ × α)) (k : κ),
    (k ∈ ks ∨ objGet m k = none) →
    objGet (ks.foldl (fun m k => objDelete m k) m) k = none := by
  induction ks with
  | nil =>
      intro m k h
      rcases h with h | h
      · simp at h
      · simpa using h
  | cons k0 rest ih =>
      intro m k h
      simp only [List.foldl_cons]
      by_cases hk : k = k0
      · subst hk
        exact ih _ _ (Or.inr (objGet_objDelete_self m k))
      · rcases h with h | h
        · rcases List.mem_cons.mp h with h | h
          · exact absurd h hk
          · exact ih _ _ (Or.inl h)
        · refine ih _ _ (Or.inr ?_)
          rw [objGet_objDelete_other m k0 k (fun he => hk he.symm)]
          exact h

/-- Deleting keys not equal to `k` preserves `k`'s binding. -/
theorem objGet_foldDelete_other {κ α : Type} [DecidableEq κ]
    (ks : List κ) : ∀ (m : List (κ × α)) (k : κ), k ∉ ks →
    objGet (ks.foldl (fun m k => objDelete m k) m) k = objGet m k := by
  induction ks with
  | nil => intro m k _; simp
  | cons k0 rest ih =>
      intro m k h
      simp only [List.mem_cons, not_or] at h
      simp only [List.foldl_cons]
      rw [ih _ _ h.2, objGet_objDelete_other m k0 k (fun he => h.1 he.symm)]

/-- An entry surviving `objDelete` was in the original map. -/
theorem mem_of_mem_objDelete {κ α : Type} [DecidableEq κ]
    (m : List (κ × α)) (k : κ) (q : κ × α) (hq : q ∈ objDelete m k) :
    q ∈ m := by
  induction m with
  | nil => simp [objDelete] at hq
  | cons p0 rest0 ih0 =>
      simp only [objDelete] at hq
      by_cases he : p0.1 = k
      · rw [if_pos he] at hq
        exact List.mem_cons_of_mem _ (ih0 hq)
      · rw [if_neg he] at hq
        rcases List.mem_cons.mp hq with h1 | h1
        · simp [h1]
        · exact List.mem_cons_of_mem _ (ih0 h1)

/-- Deleting every key of a map empties it. -/
theorem foldDelete_all_self {κ α : Type} [DecidableEq κ]
    (ks : List κ) : ∀ (m : List (κ × α)), (∀ p ∈ m, p.1 ∈ ks) →
    ks.foldl (fun m k => objDelete m k) m = [] := by
  induction ks with
  | nil =>
      intro m h
      cases m with
      | nil => rfl
      | cons p rest => exact absurd (h p (by simp)) (by simp)
  | cons k0 rest ih =>
      intro m h
      simp only [List.foldl_cons]
      refine ih _ ?_
      intro p hp
      have hp' : p ∈ m := mem_of_mem_objDelete m k0 p hp
      have hne : p.1 ≠ k0 := by
        intro he
        have hmem : p.1 ∈ objKeys (objDelete m k0) :=
          List.mem_map_of_mem _ hp
        rw [he] at hmem
        obtain ⟨v, hv⟩ := mem_keys_objGet _ _ hmem
        rw [objGet_objDelete_self] at hv
        exact Option.noConfusion hv
      rcases List.mem_cons.mp (h p hp') with h1 | h1
      · exact absurd h1 hne
      · exact h1

end SwellNode

namespace SwellNode

/-- The bounded-index invariant: the configured limit together with the
bound on every collection's index map. -/
def IndexInv (lim : Nat) (c : CacheSt) : Prop :=
  c.indexLimit = lim ∧
  ∀ col km, objGet (Cache.getIndex c) col = some km → km.length ≤ lim

theorem putVersion_index (c : CacheSt) (col : String) (v : JVal) :
    (Cache.putVersion c col v).index = c.index := by
  unfold Cache.putVersion
  split <;> rfl

theorem putVersion_results (c : CacheSt) (col : String) (v : JVal) :
    (Cache.putVersion c col v).results = c.results := by
  unfold Cache.putVersion
  split <;> rfl

theorem putVersion_indexLimit (c : CacheSt) (col : String) (v : JVal) :
    (Cache.putVersion c col v).indexLimit = c.indexLimit := by
  unfold Cache.putVersion
  split <;> rfl

/-- One `clearIndexes` loop step keeps every per-collection map within
the bound it already satisfied (it only deletes entries). -/
theorem clearIndexesStep_bound (lim : Nat) (inv : List (String × InvalidVal))
    (acc : IMap × List (CKey × ApiResult)) (col : String)
    (h : ∀ col' km, objGet acc.1 col' = some km → km.length ≤ lim) :
    ∀ col' km, objGet (Cache.clearIndexesStep inv acc col).1 col' = some km →
      km.length ≤ lim := by
  obtain ⟨idx, results⟩ := acc
  unfold Cache.clearIndexesStep
  cases hidx : objGet idx col with
  | none => simp only [hidx]; exact h
  | some kmap =>
      cases hinv : objGet inv col with
      | none => simp only [hidx, hinv]; exact h
      | some invVal =>
          cases invVal with
          | whole =>
              simp only [hidx, hinv]
              intro col' km hkm
              by_cases hc : col = col'
              · subst hc
                rw [objGet_objSet_self] at hkm
                cases hkm
                calc ((objKeys kmap).foldl (fun m k => objDelete m k) kmap).length
                    ≤ kmap.length := length_foldDelete_le _ _
                  _ ≤ lim := h col kmap hidx
              · rw [objGet_objSet_other _ _ _ _ hc] at hkm
                exact h col' km hkm
          | single k =>
              simp only [hidx, hinv]
              cases hk : objGet kmap k with
              | none => simp only [hk]; exact h
              | some sz =>
                  simp only [hk]
                  intro col' km hkm
                  by_cases hc : col = col'
                  · subst hc
                    rw [objGet_objSet_self] at hkm
                    cases hkm
                    calc (objDelete kmap k).length
                        ≤ kmap.length := length_objDelete_le _ _
                      _ ≤ lim := h col kmap hidx
                  · rw [objGet_objSet_other _ _ _ _ hc] at hkm
                    exact h col' km hkm
          | undef => simp only [hidx, hinv]; exact h

theorem clearIndexes_IndexInv (lim : Nat) (c : CacheSt)
    (inv : List (String × InvalidVal)) (h : IndexInv lim c) :
    IndexInv lim (Cache.clearIndexes c inv) := by
  obtain ⟨hlim, hbound⟩ := h
  unfold Cache.clearIndexes
  split
  · exact ⟨hlim, hbound⟩
  · refine ⟨hlim, ?_⟩
    intro col km hkm
    have hfold := foldl_preserve
      (fun acc : IMap × List (CKey × ApiResult) =>
        ∀ col' km', objGet acc.1 col' = some km' → km'.length ≤ lim)
      (Cache.clearIndexesStep inv) (objKeys inv)
      (fun acc col' ha => clearIndexesStep_bound lim inv acc col' ha)
      (Cache.getIndex c, c.results) hbound
    exact hfold col km hkm

theorem clearIndexes_indexLimit (c : CacheSt)
    (inv : List (String × InvalidVal)) :
    (Cache.clearIndexes c inv).indexLimit = c.indexLimit := by
  unfold Cache.clearIndexes
  split <;> rfl

theorem truncateIndex_IndexInv (lim : Nat) (c : CacheSt) (col : String)
    (h : IndexInv lim c) : IndexInv lim (Cache.truncateIndex c col) := by
  unfold Cache.truncateIndex
  cases hidx : objGet (Cache.getIndex c) col with
  | none => simp only [hidx]; exact h
  | some kmap => simp only [hidx]; exact clearIndexes_IndexInv lim c _ h

theorem truncateIndex_indexLimit (c : CacheSt) (col : String) :
    (Cache.truncateIndex c col).indexLimit = c.indexLimit := by
  unfold Cache.truncateIndex
  cases hidx : objGet (Cache.getIndex c) col with
  | none => simp only [hidx]
  | some kmap => simp only [hidx]; exact clearIndexes_indexLimit c _

end SwellNode

namespace SwellNode

theorem clearIndexes_versions (c : CacheSt) (inv : List (String × InvalidVal)) :
    (Cache.clearIndexes c inv).versions = c.versions := by
  unfold Cache.clearIndexes
  split <;> rfl

theorem truncateIndex_versions (c : CacheSt) (col : String) :
    (Cache.truncateIndex c col).versions = c.versions := by
  unfold Cache.truncateIndex
  cases hidx : objGet (Cache.getIndex c) col with
  | none => simp only [hidx]
  | some kmap => simp only [hidx]; exact clearIndexes_versions c _

/-- Effect of `truncateIndex` when the collection's index is present and
nonempty: its *most recently inserted* key `lk` is deleted, together with
that key's stored result; other collections are untouched. -/
theorem truncateIndex_effect (c : CacheSt) (col : String) (km : KMap) (lk : CKey)
    (hidx : objGet (Cache.getIndex c) col = some km)
    (hlast : (objKeys km).getLast? = some lk) :
    objGet (Cache.getIndex (Cache.truncateIndex c col)) col
        = some (objDelete km lk)
    ∧ (∀ col', col ≠ col' →
        objGet (Cache.getIndex (Cache.truncateIndex c col)) col'
          = objGet (Cache.getIndex c) col')
    ∧ (Cache.truncateIndex c col).results = objDelete c.results lk := by
  have hmem : lk ∈ objKeys km := List.mem_of_mem_getLast? hlast
  obtain ⟨v, hv⟩ := mem_keys_objGet _ _ hmem
  unfold Cache.truncateIndex
  simp only [hidx, hlast]
  unfold Cache.clearIndexes
  simp only [List.isEmpty_cons, if_false]
  have hstep : Cache.clearIndexesStep [(col, InvalidVal.single lk)]
      (Cache.getIndex c, c.results) col
      = (objSet (Cache.getIndex c) col (objDelete km lk),
         objDelete c.results lk) := by
    unfold Cache.clearIndexesStep
    simp only [hidx]
    have hinv : objGet [(col, InvalidVal.single lk)] col
        = some (InvalidVal.single lk) := by
      simp [objGet]
    simp only [hinv, hv]
  have hkeys : objKeys [(col, InvalidVal.single lk)] = [col] := rfl
  rw [hkeys]
  simp only [List.foldl_cons, List.foldl_nil, hstep]
  refine ⟨?_, ?_, rfl⟩
  · show objGet (objSet (Cache.getIndex c) col (objDelete km lk)) col
        = some (objDelete km lk)
    exact objGet_objSet_self _ _ _
  · intro col' hc
    show objGet (objSet (Cache.getIndex c) col (objDelete km lk)) col'
        = objGet (Cache.getIndex c) col'
    exact objGet_objSet_other _ _ _ _ hc

end SwellNode

namespace SwellNode

theorem putIndex_versions (c : CacheSt) (col : String) (key : CKey) (size : Nat) :
    (Cache.putIndex c col key size).versions = c.versions := by
  unfold Cache.putIndex
  cases hidx : objGet (Cache.getIndex c) col with
  | none => simp only [hidx]
  | some km =>
      by_cases hfull : km.length ≥ c.indexLimit
      · simp only [hidx, if_pos hfull]
        exact truncateIndex_versions c col
      · simp only [hidx, if_neg hfull]

theorem putIndex_indexLimit (c : CacheSt) (col : String) (key : CKey) (size : Nat) :
    (Cache.putIndex c col key size).indexLimit = c.indexLimit := by
  unfold Cache.putIndex
  cases hidx : objGet (Cache.getIndex c) col with
  | none => simp only [hidx]
  | some km =>
      by_cases hfull : km.length ≥ c.indexLimit
      · simp only [hidx, if_pos hfull]
        exact truncateIndex_indexLimit c col
      · simp only [hidx, if_neg hfull]

/-- `putIndex` on a full collection: the victim is the *last* key of the
collection's map (the most recently inserted), which is replaced by the
incoming key. -/
theorem putIndex_evicts (c : CacheSt) (col : String) (key : CKey) (size : Nat)
    (km : KMap) (lk : CKey)
    (hidx : objGet (Cache.getIndex c) col = some km)
    (hfull : km.length ≥ c.indexLimit)
    (hlast : (objKeys km).getLast? = some lk) :
    objGet (Cache.getIndex (Cache.putIndex c col key size)) col
      = some (objSet (objDelete km lk) key size) := by
  obtain ⟨heff, _, _⟩ := truncateIndex_effect c col km lk hidx hlast
  unfold Cache.putIndex
  simp only [hidx, if_pos hfull]
  simp only [heff, Option.getD_some]
  show objGet (objSet (Cache.getIndex (Cache.truncateIndex c col)) col
      (objSet (objDelete km lk) key size)) col
    = some (objSet (objDelete km lk) key size)
  exact objGet_objSet_self _ _ _

/-- `putIndex` keeps every collection's index within the limit. -/
theorem putIndex_IndexInv (lim : Nat) (c : CacheSt) (col : String)
    (key : CKey) (size : Nat) (h1 : 1 ≤ lim) (h : IndexInv lim c) :
    IndexInv lim (Cache.putIndex c col key size) := by
  obtain ⟨hlim, hbound⟩ := h
  refine ⟨by rw [putIndex_indexLimit]; exact hlim, ?_⟩
  intro col' km' hkm'
  cases hidx : objGet (Cache.getIndex c) col with
  | none =>
      unfold Cache.putIndex at hkm'
      simp only [hidx, Option.getD_none] at hkm'
      rw [show Cache.getIndex { c with
            index := some (objSet (Cache.getIndex c) col (objSet [] key size)) }
          = objSet (Cache.getIndex c) col (objSet [] key size) from rfl] at hkm'
      by_cases hc : col = col'
      · subst hc
        rw [objGet_objSet_self] at hkm'
        cases hkm'
        simpa [objSet] using h1
      · rw [objGet_objSet_other _ _ _ _ hc] at hkm'
        exact hbound col' km' hkm'
  | some km =>
      by_cases hfull : km.length ≥ c.indexLimit
      · have hfl : km.length ≥ lim := by rw [hlim] at hfull; exact hfull
        have hkmlen : 0 < km.length := by omega
        have hkeysne : objKeys km ≠ [] := by
          intro he
          have : (objKeys km).length = 0 := by rw [he]; rfl
          rw [show (objKeys km).length = km.length from List.length_map _ _] at this
          omega
        cases hl : (objKeys km).getLast? with
        | none =>
            exact absurd (List.getLast?_eq_none_iff.mp hl) hkeysne
        | some lk =>
            obtain ⟨heffc, heffo, heffr⟩ :=
              truncateIndex_effect c col km lk hidx hl
            have hmem : lk ∈ objKeys km := List.mem_of_mem_getLast? hl
            obtain ⟨v, hv⟩ := mem_keys_objGet _ _ hmem
            have hdel : (objDelete km lk).length < km.length :=
              length_objDelete_lt km lk v hv
            have hkmb : km.length ≤ lim := hbound col km hidx
            unfold Cache.putIndex at hkm'
            simp only [hidx, if_pos hfull, heffc, Option.getD_some] at hkm'
            rw [show Cache.getIndex { Cache.truncateIndex c col with
                  index := some (objSet (Cache.getIndex (Cache.truncateIndex c col))
                    col (objSet (objDelete km lk) key size)) }
                = objSet (Cache.getIndex (Cache.truncateIndex c col))
                    col (objSet (objDelete km lk) key size) from rfl] at hkm'
            by_cases hc : col = col'
            · subst hc
              rw [objGet_objSet_self] at hkm'
              cases hkm'
              have := length_objSet_le (objDelete km lk) key size
              omega
            · rw [objGet_objSet_other _ _ _ _ hc, heffo col' hc] at hkm'
              exact hbound col' km' hkm'
      · have hlt : km.length < lim := by
          rw [hlim] at hfull
          omega
        unfold Cache.putIndex at hkm'
        simp only [hidx, if_neg hfull, Option.getD_some] at hkm'
        rw [show Cache.getIndex { c with
              index := some (objSet (Cache.getIndex c) col (objSet km key size)) }
            = objSet (Cache.getIndex c) col (objSet km key size) from rfl] at hkm'
        by_cases hc : col = col'
        · subst hc
          rw [objGet_objSet_self] at hkm'
          cases hkm'
          have := length_objSet_le km key size
          omega
        · rw [objGet_objSet_other _ _ _ _ hc] at hkm'
          exact hbound col' km' hkm'

end SwellNode

namespace SwellNode

theorem putVersion_IndexInv (lim : Nat) (c : CacheSt) (col : String) (v : JVal)
    (h : IndexInv lim c) : IndexInv lim (Cache.putVersion c col v) := by
  refine ⟨by rw [putVersion_indexLimit]; exact h.1, ?_⟩
  intro col' km hkm
  have hi : Cache.getIndex (Cache.putVersion c col v) = Cache.getIndex c := by
    unfold Cache.getIndex
    rw [putVersion_index]
  rw [hi] at hkm
  exact h.2 col' km hkm

theorem clearStep_fst (c : CacheSt) (inv : List (String × InvalidVal))
    (col : String) (v : JVal) :
    (Cache.clearStep c inv col v).1 = Cache.putVersion c col v := by
  unfold Cache.clearStep
  split <;> rfl

theorem clearLoopStep_IndexInv (lim : Nat) (rc : CField)
    (acc : CacheSt × List (String × InvalidVal)) (col : String)
    (h : IndexInv lim acc.1) :
    IndexInv lim (Cache.clearLoopStep rc acc col).1 := by
  unfold Cache.clearLoopStep
  cases hv : objGet (Cache.getVersions acc.1) col with
  | some stored =>
      simp only [hv]
      split
      · rw [clearStep_fst]
        exact putVersion_IndexInv lim acc.1 col _ h
      · exact h
  | none =>
      simp only [hv]
      rw [clearStep_fst]
      exact putVersion_IndexInv lim acc.1 col _ h

theorem putLoopStep_IndexInv (lim : Nat) (rc : CField) (ck : CKey)
    (size : Nat) (h1 : 1 ≤ lim) (c : CacheSt) (col : String)
    (h : IndexInv lim c) :
    IndexInv lim (Cache.putLoopStep rc ck size c col) := by
  unfold Cache.putLoopStep
  split
  · exact h
  · split
    · exact putVersion_IndexInv lim _ col _
        (putIndex_IndexInv lim c col ck size h1 h)
    · exact putIndex_IndexInv lim c col ck size h1 h

theorem put_IndexInv (lim : Nat) (c : CacheSt) (url : String) (data : JVal)
    (r : ApiResult) (h1 : 1 ≤ lim) (h : IndexInv lim c) :
    IndexInv lim (Cache.put c url data r) := by
  simp only [Cache.put]
  split
  · split
    · exact ⟨h.1, h.2⟩
    · exact foldl_preserve (IndexInv lim) _ _
        (fun a b ha => putLoopStep_IndexInv lim _ _ _ h1 a b ha) _ ⟨h.1, h.2⟩
  · exact ⟨h.1, h.2⟩

theorem clear_IndexInv (lim : Nat) (c : CacheSt) (r : ApiResult)
    (h : IndexInv lim c) : IndexInv lim (Cache.clear c r) := by
  cases hrc : r.rcached with
  | absent =>
      unfold Cache.clear
      rw [hrc]
      exact h
  | flag b =>
      unfold Cache.clear
      rw [hrc]
      exact h
  | vmap m =>
      unfold Cache.clear
      rw [hrc]
      have hfold := foldl_preserve
        (fun acc : CacheSt × List (String × InvalidVal) => IndexInv lim acc.1)
        (Cache.clearLoopStep (CField.vmap m)) (objKeys m)
        (fun a b ha => clearLoopStep_IndexInv lim _ a b ha) (c, []) h
      by_cases he :
          ((objKeys m).foldl (Cache.clearLoopStep (CField.vmap m)) (c, [])).2.isEmpty
      · simpa [he] using hfold
      · simpa [he] using clearIndexes_IndexInv lim _ _ hfold

theorem get_IndexInv (lim : Nat) (c : CacheSt) (url : String) (data : JVal)
    (h : IndexInv lim c) : IndexInv lim (Cache.get c url data).1 := by
  unfold Cache.get
  cases hr : objGet c.results (getKeyInput url data) with
  | none => simp only [hr]; exact h
  | some result =>
      simp only [hr]
      split
    
      · exact h
      · exact foldl_preserve (IndexInv lim) _ _
          (fun a b ha => by
            unfold Cache.getPurgeStep
            exact clearIndexes_IndexInv lim a _ ha) c h

theorem apply_IndexInv (lim : Nat) (c : CacheSt) (op : CacheOp)
    (h1 : 1 ≤ lim) (h : IndexInv lim c) :
    IndexInv lim (CacheSt.apply c op) := by
  cases op with
  | putOp url data r => exact put_IndexInv lim c url data r h1 h
  | putIndexOp col key size => exact putIndex_IndexInv lim c col key size h1 h
  | putVersionOp col v => exact putVersion_IndexInv lim c col v h
  | clearOp r => exact clear_IndexInv lim c r h
  | removeOp url data => exact ⟨h.1, h.2⟩
  | getOp url data => exact get_IndexInv lim c url data h
  | truncateOp col => exact truncateIndex_IndexInv lim c col h
  | clearIndexesOp inv => exact clearIndexes_IndexInv lim c inv h

theorem init_indexLimit_pos (cid path : String) (env : Option String)
    (limOpt : Option Nat) : 1 ≤ (Cache.init cid path env limOpt).indexLimit := by
  unfold Cache.init
  cases limOpt with
  | none => simp
  | some n =>
      by_cases hn : n = 0
      · simp [hn]
      · simp only [if_neg hn]
        omega

theorem init_IndexInv (cid path : String) (env : Option String)
    (limOpt : Option Nat) :
    IndexInv (Cache.init cid path env limOpt).indexLimit
      (Cache.init cid path env limOpt) := by
  refine ⟨rfl, ?_⟩
  intro col km hkm
  have : Cache.getIndex (Cache.init cid path env limOpt) = [] := rfl
  rw [this] at hkm
  exact absurd hkm (by simp)

theorem runCacheOps_IndexInv (cid path : String) (env : Option String)
    (limOpt : Option Nat) (ops : List CacheOp) :
    IndexInv (Cache.init cid path env limOpt).indexLimit
      (runCacheOps ops (Cache.init cid path env limOpt)) := by
  unfold runCacheOps
  exact foldl_preserve _ _ ops
    (fun a b ha => apply_IndexInv _ a b (init_indexLimit_pos cid path env limOpt) ha)
    _ (init_IndexInv cid path env limOpt)

end SwellNode

namespace SwellNode

/-- Claim C8 (counterexample): with `indexLimit = 2`, inserting keys
a, b, c in that order evicts b — the most recently inserted of the two
existing entries — while the oldest entry a survives, refuting
"the oldest (first-inserted) entry is the one evicted". -/
theorem C8_counterexample :
    objGet (Cache.getIndex
      (Cache.putIndex
        (Cache.putIndex
          (Cache.putIndex (Cache.init "t" "" none (some 2))
            "col" ("a", JVal.null) 5)
          "col" ("b", JVal.null) 6)
        "col" ("c", JVal.null) 7)) "col"
      = some [(("a", JVal.null), 5), (("c", JVal.null), 7)] := by
  decide

end SwellNode

namespace SwellNode

/-- Claim C8 (amended): (1) starting from a fresh cache, after any
sequence of cache operations every collection's index holds at most
`indexLimit` entries; (2) when `putIndex` inserts into a collection
already at (or beyond) the limit, the evicted entry is the *last* key of
the collection's map — the most recently inserted one, not the oldest;
(3) with `indexLimit = 1`, inserting two distinct keys leaves exactly
the later key (here the claim's own instance is accurate, since the
only existing entry is both oldest and newest). -/
theorem C8_index_bound :
    (∀ (cid path : String) (env : Option String) (limOpt : Option Nat)
        (ops : List CacheOp) (col : String) (km : KMap),
        objGet (Cache.getIndex
            (runCacheOps ops (Cache.init cid path env limOpt))) col = some km →
        km.length ≤ (Cache.init cid path env limOpt).indexLimit)
    ∧ (∀ (c : CacheSt) (col : String) (key : CKey) (size : Nat)
        (km : KMap) (lk : CKey),
        objGet (Cache.getIndex c) col = some km →
        km.length ≥ c.indexLimit →
        (objKeys km).getLast? = some lk →
        objGet (Cache.getIndex (Cache.putIndex c col key size)) col
          = some (objSet (objDelete km lk) key size))
    ∧ objGet (Cache.getIndex (Cache.putIndex (Cache.putIndex
        (Cache.init "t" "" none (some 1)) "col" ("a", JVal.null) 5)
        "col" ("b", JVal.null) 6)) "col"
      = some [(("b", JVal.null), 6)] := by
  refine ⟨?_, ?_, by decide⟩
  · intro cid path env limOpt ops col km hkm
    exact (runCacheOps_IndexInv cid path env limOpt ops).2 col km hkm
  · intro c col key size km lk hidx hfull hlast
    exact putIndex_evicts c col key size km lk hidx hfull hlast

/-- Witness for C8_index_bound at concrete inputs. -/
theorem C8_witness :
    ([(( "a", JVal.null), 5)] : KMap).length
        ≤ (Cache.init "t" "" none (some 1)).indexLimit
    ∧ objGet (Cache.getIndex (Cache.putIndex
        (Cache.putIndex (Cache.init "t" "" none (some 1))
          "col" ("a", JVal.null) 5)
        "col" ("b", JVal.null) 6)) "col"
      = some (objSet (objDelete [(("a", JVal.null), 5)] ("a", JVal.null))
          ("b", JVal.null) 6) :=
  ⟨C8_index_bound.1 "t" "" none (some 1)
      [CacheOp.putIndexOp "col" ("a", JVal.null) 5] "col"
      [(("a", JVal.null), 5)] (by decide),
   C8_index_bound.2.1
      (Cache.putIndex (Cache.init "t" "" none (some 1))
        "col" ("a", JVal.null) 5)
      "col" ("b", JVal.null) 6 [(("a", JVal.null), 5)] ("a", JVal.null)
      (by decide) (by decide) (by decide)⟩

end SwellNode

namespace SwellNode

/-! ## Facts about `clear` (claim C7) -/

theorem getVersions_putVersion_self (c : CacheSt) (col : String) (v : JVal) :
    objGet (Cache.getVersions (Cache.putVersion c col v)) col
      = if v.jsTruthy then some v else objGet (Cache.getVersions c) col := by
  unfold Cache.putVersion
  by_cases ht : v.jsTruthy
  · rw [if_pos ht, if_pos ht]
    exact objGet_objSet_self _ _ _
  · rw [if_neg ht, if_neg ht]

theorem getVersions_putVersion_other (c : CacheSt) (col col' : String)
    (v : JVal) (h : col ≠ col') :
    objGet (Cache.getVersions (Cache.putVersion c col v)) col'
      = objGet (Cache.getVersions c) col' := by
  unfold Cache.putVersion
  by_cases ht : v.jsTruthy
  · rw [if_pos ht]
    exact objGet_objSet_other _ _ _ _ h
  · rw [if_neg ht]

/-- The settings-suffix propagation loop only writes `whole` markers, so a
collection already marked `whole` stays marked. -/
theorem foldSetWhole_preserve (l : List String)
    (inv : List (String × InvalidVal)) (col : String)
    (h : objGet inv col = some InvalidVal.whole) :
    objGet (l.foldl
      (fun acc vc =>
        if vc.endsWith ".settings" then objSet acc vc InvalidVal.whole
        else acc) inv) col = some InvalidVal.whole := by
  refine foldl_preserve
    (fun acc => objGet acc col = some InvalidVal.whole) _ l ?_ inv h
  intro acc vc ha
  by_cases hs : vc.endsWith ".settings"
  · rw [if_pos hs]
    by_cases hc : vc = col
    · subst hc
      exact objGet_objSet_self _ _ _
    · rw [objGet_objSet_other _ _ _ _ hc]
      exact ha
  · rw [if_neg hs]
    exact ha

theorem clearStep_snd_self (c : CacheSt) (inv : List (String × InvalidVal))
    (col : String) (v : JVal) :
    objGet (Cache.clearStep c inv col v).2 col = some InvalidVal.whole := by
  unfold Cache.clearStep
  split
  · exact foldSetWhole_preserve _ _ _ (objGet_objSet_self _ _ _)
  · exact objGet_objSet_self _ _ _

theorem clearStep_snd_preserve (c : CacheSt) (inv : List (String × InvalidVal))
    (col' : String) (v : JVal) (col : String)
    (h : objGet inv col = some InvalidVal.whole) :
    objGet (Cache.clearStep c inv col' v).2 col = some InvalidVal.whole := by
  have hset : objGet (objSet inv col' InvalidVal.whole) col
      = some InvalidVal.whole := by
    by_cases hc : col' = col
    · subst hc
      exact objGet_objSet_self _ _ _
    · rw [objGet_objSet_other _ _ _ _ hc]
      exact h
  unfold Cache.clearStep
  split
  · exact foldSetWhole_preserve _ _ _ hset
  · exact hset

theorem clearLoopStep_versions_other (m : VMap)
    (acc : CacheSt × List (String × InvalidVal)) (col' col : String)
    (hc : col' ≠ col) :
    objGet (Cache.getVersions (Cache.clearLoopStep (CField.vmap m) acc col').1) col
      = objGet (Cache.getVersions acc.1) col := by
  unfold Cache.clearLoopStep
  cases hst : objGet (Cache.getVersions acc.1) col' with
  | some stored =>
      simp only [hst]
      split
      · rw [clearStep_fst]
        exact getVersions_putVersion_other _ _ _ _ hc
      · rfl
  | none =>
      simp only [hst]
      rw [clearStep_fst]
      exact getVersions_putVersion_other _ _ _ _ hc

theorem clearLoopStep_index_results (rc : CField)
    (acc : CacheSt × List (String × InvalidVal)) (col' : String) :
    (Cache.clearLoopStep rc acc col').1.index = acc.1.index
    ∧ (Cache.clearLoopStep rc acc col').1.results = acc.1.results := by
  unfold Cache.clearLoopStep
  cases hst : objGet (Cache.getVersions acc.1) col' with
  | some stored =>
      simp only [hst]
      split
      · rw [clearStep_fst]
        exact ⟨putVersion_index _ _ _, putVersion_results _ _ _⟩
      · exact ⟨rfl, rfl⟩
  | none =>
      simp only [hst]
      rw [clearStep_fst]
      exact ⟨putVersion_index _ _ _, putVersion_results _ _ _⟩

end SwellNode

namespace SwellNode

/-- The version value stored for an invalidated collection: a truthy new
version replaces the stored one; a falsy one is dropped by `putVersion`. -/
def clearTarget (c : CacheSt) (col : String) (v : JVal) : Option JVal :=
  if v.jsTruthy then some v else objGet (Cache.getVersions c) col

/-- Once a collection's version is at its target and its `whole` marker is
set, every further `clear` loop step keeps both. -/
theorem clearLoopStep_preserveTarget (c : CacheSt) (m : VMap) (col : String)
    (v : JVal) (hv : objGet m col = some v)
    (acc : CacheSt × List (String × InvalidVal)) (col' : String)
    (hΨv : objGet (Cache.getVersions acc.1) col = clearTarget c col v)
    (hΨi : objGet acc.2 col = some InvalidVal.whole) :
    objGet (Cache.getVersions
        (Cache.clearLoopStep (CField.vmap m) acc col').1) col
      = clearTarget c col v
    ∧ objGet (Cache.clearLoopStep (CField.vmap m) acc col').2 col
      = some InvalidVal.whole := by
  by_cases hc : col' = col
  · subst hc
    have hlv : (CField.lookup (CField.vmap m) col').getD JVal.null = v := by
      rw [show CField.lookup (CField.vmap m) col' = objGet m col' from rfl, hv]
      rfl
    unfold Cache.clearLoopStep
    cases hst : objGet (Cache.getVersions acc.1) col' with
    | some stored =>
        simp only [hst]
        split
        · rw [clearStep_fst, hlv]
          refine ⟨?_, clearStep_snd_self _ _ _ _⟩
          rw [getVersions_putVersion_self]
          unfold clearTarget
          by_cases ht : v.jsTruthy
          · rw [if_pos ht, if_pos ht]
          · rw [if_neg ht, if_neg ht]
            unfold clearTarget at hΨv
            rw [if_neg ht] at hΨv
            exact hΨv
        · exact ⟨hΨv, hΨi⟩
    | none =>
        simp only [hst]
        rw [clearStep_fst, hlv]
        refine ⟨?_, clearStep_snd_self _ _ _ _⟩
        rw [getVersions_putVersion_self]
        unfold clearTarget
        by_cases ht : v.jsTruthy
        · rw [if_pos ht, if_pos ht]
        · rw [if_neg ht, if_neg ht]
          unfold clearTarget at hΨv
          rw [if_neg ht] at hΨv
          exact hΨv
  · constructor
    · rw [clearLoopStep_versions_other m acc col' col hc]
      exact hΨv
    · unfold Cache.clearLoopStep
      cases hst : objGet (Cache.getVersions acc.1) col' with
      | some stored =>
          simp only [hst]
          split
          · exact clearStep_snd_preserve _ _ _ _ _ hΨi
          · exact hΨi
      | none =>
          simp only [hst]
          exact clearStep_snd_preserve _ _ _ _ _ hΨi

end SwellNode

namespace SwellNode

/-- Folding `clear`'s loop over a key list containing `col` establishes the
target version and the `whole` invalidation marker for `col`, provided
`col`'s stored version was absent or strictly different. -/
theorem clearFold_establish (c0 : CacheSt) (m : VMap) (col : String) (v : JVal)
    (hv : objGet m col = some v)
    (hdiff : ∀ stored, objGet (Cache.getVersions c0) col = some stored →
      v.jsStrictNeq stored = true) :
    ∀ (cols : List String) (acc : CacheSt × List (String × InvalidVal)),
      col ∈ cols →
      objGet (Cache.getVersions acc.1) col
        = objGet (Cache.getVersions c0) col →
      objGet (Cache.getVersions
          (cols.foldl (Cache.clearLoopStep (CField.vmap m)) acc).1) col
        = clearTarget c0 col v
      ∧ objGet (cols.foldl (Cache.clearLoopStep (CField.vmap m)) acc).2 col
        = some InvalidVal.whole := by
  intro cols
  induction cols with
  | nil => intro acc hmem _; simp at hmem
  | cons col0 rest ih =>
      intro acc hmem hver
      by_cases hc : col0 = col
      · subst hc
        have hlv : (CField.lookup (CField.vmap m) col0).getD JVal.null = v := by
          rw [show CField.lookup (CField.vmap m) col0 = objGet m col0 from rfl,
            hv]
          rfl
        have hstep : objGet (Cache.getVersions
              (Cache.clearLoopStep (CField.vmap m) acc col0).1) col0
            = clearTarget c0 col0 v
          ∧ objGet (Cache.clearLoopStep (CField.vmap m) acc col0).2 col0
            = some InvalidVal.whole := by
          unfold Cache.clearLoopStep
          cases hst : objGet (Cache.getVersions acc.1) col0 with
          | some stored =>
              have hne : v.jsStrictNeq stored = true := by
                refine hdiff stored ?_
                rw [← hver]
                exact hst
              simp only [hst, hlv, hne, if_true]
              rw [clearStep_fst]
              refine ⟨?_, clearStep_snd_self _ _ _ _⟩
              rw [getVersions_putVersion_self]
              unfold clearTarget
              by_cases ht : v.jsTruthy
              · rw [if_pos ht, if_pos ht]
              · rw [if_neg ht, if_neg ht, hst, ← hver, hst]
          | none =>
              simp only [hst, hlv]
              rw [clearStep_fst]
              refine ⟨?_, clearStep_snd_self _ _ _ _⟩
              rw [getVersions_putVersion_self]
              unfold clearTarget
              by_cases ht : v.jsTruthy
              · rw [if_pos ht, if_pos ht]
              · rw [if_neg ht, if_neg ht, hst, ← hver, hst]
          -- both cases end with the invalidation marker from clearStep
        simp only [List.foldl_cons]
        exact foldl_preserve
          (fun acc : CacheSt × List (String × InvalidVal) =>
            objGet (Cache.getVersions acc.1) col0 = clearTarget c0 col0 v
            ∧ objGet acc.2 col0 = some InvalidVal.whole)
          (Cache.clearLoopStep (CField.vmap m)) rest
          (fun a b ha =>
            clearLoopStep_preserveTarget c0 m col0 v hv a b ha.1 ha.2)
          _ hstep
      · have hmem' : col ∈ rest := by
          rcases List.mem_cons.mp hmem with h1 | h1
          · exact absurd h1.symm hc
          · exact h1
        simp only [List.foldl_cons]
        refine ih _ hmem' ?_
        rw [clearLoopStep_versions_other m acc col0 col hc]
        exact hver

/-- `clear`'s loop only writes versions: index and results are untouched. -/
theorem clearFold_index_results (rc : CField) (cols : List String)
    (acc : CacheSt × List (String × InvalidVal)) :
    (cols.foldl (Cache.clearLoopStep rc) acc).1.index = acc.1.index
    ∧ (cols.foldl (Cache.clearLoopStep rc) acc).1.results = acc.1.results := by
  have := foldl_preserve
    (fun a : CacheSt × List (String × InvalidVal) =>
      a.1.index = acc.1.index ∧ a.1.results = acc.1.results)
    (Cache.clearLoopStep rc) cols
    (fun a b ha => by
      obtain ⟨hi, hr⟩ := clearLoopStep_index_results rc a b
      exact ⟨hi.trans ha.1, hr.trans ha.2⟩)
    acc ⟨rfl, rfl⟩
  exact this

theorem objGet_some_ne_nil {κ α : Type} [DecidableEq κ]
    (m : List (κ × α)) (k : κ) (v : α) (h : objGet m k = some v) :
    m.isEmpty = false := by
  cases m with
  | nil => simp [objGet] at h
  | cons p rest => rfl

theorem objDelete_none_preserve {κ α : Type} [DecidableEq κ]
    (m : List (κ × α)) (k k' : κ) (h : objGet m k = none) :
    objGet (objDelete m k') k = none := by
  by_cases hc : k' = k
  · subst hc
    exact objGet_objDelete_self m k'
  · rw [objGet_objDelete_other m k' k hc]
    exact h

end SwellNode

namespace SwellNode

/-- After a collection is emptied by `clearIndexes`, later loop steps keep
it empty and keep its former keys' results deleted. -/
theorem clearIndexesStep_preserveWhole (inv : List (String × InvalidVal))
    (col : String) (km : KMap)
    (hinv : objGet inv col = some InvalidVal.whole)
    (acc : IMap × List (CKey × ApiResult)) (col0 : String)
    (hΦ1 : objGet acc.1 col = some ([] : KMap))
    (hΦ2 : ∀ k ∈ objKeys km, objGet acc.2 k = none) :
    objGet (Cache.clearIndexesStep inv acc col0).1 col = some ([] : KMap)
    ∧ ∀ k ∈ objKeys km,
        objGet (Cache.clearIndexesStep inv acc col0).2 k = none := by
  obtain ⟨idx, results⟩ := acc
  by_cases hc : col0 = col
  · subst hc
    unfold Cache.clearIndexesStep
    simp only [hΦ1, hinv]
    refine ⟨?_, hΦ2⟩
    show objGet (objSet idx col0 _) col0 = _
    rw [objGet_objSet_self]
    rfl
  · have hc' : col0 ≠ col := hc
    unfold Cache.clearIndexesStep
    cases h0 : objGet idx col0 with
    | none => simp only [h0]; exact ⟨hΦ1, hΦ2⟩
    | some kmap0 =>
        cases h1 : objGet inv col0 with
        | none => simp only [h0, h1]; exact ⟨hΦ1, hΦ2⟩
        | some iv =>
            cases iv with
            | whole =>
                simp only [h0, h1]
                refine ⟨?_, ?_⟩
                · rw [objGet_objSet_other _ _ _ _ hc']
                  exact hΦ1
                · intro k hk
                  exact objGet_foldDelete_none _ _ _ (Or.inr (hΦ2 k hk))
            | single k' =>
                simp only [h0, h1]
                cases h2 : objGet kmap0 k' with
                | none => simp only [h2]; exact ⟨hΦ1, hΦ2⟩
                | some sz =>
                    simp only [h2]
                    refine ⟨?_, ?_⟩
                    · rw [objGet_objSet_other _ _ _ _ hc']
                      exact hΦ1
                    · intro k hk
                      exact objDelete_none_preserve _ _ _ (hΦ2 k hk)
            | undef => simp only [h0, h1]; exact ⟨hΦ1, hΦ2⟩

/-- Folding `clearIndexes`' loop over a key list containing `col` (whose
`invalid` entry is `whole`) empties `col`'s index and removes every
indexed key's stored result. -/
theorem clearIndexesFold_establish (inv : List (String × InvalidVal))
    (col : String) (km : KMap)
    (hinv : objGet inv col = some InvalidVal.whole) :
    ∀ (cols : List String) (acc : IMap × List (CKey × ApiResult)),
      col ∈ cols →
      objGet acc.1 col = some km →
      objGet (cols.foldl (Cache.clearIndexesStep inv) acc).1 col
        = some ([] : KMap)
      ∧ ∀ k ∈ objKeys km,
          objGet (cols.foldl (Cache.clearIndexesStep inv) acc).2 k = none := by
  intro cols
  induction cols with
  | nil => intro acc hmem _; simp at hmem
  | cons col0 rest ih =>
      intro acc hmem hstart
      by_cases hc : col0 = col
      · subst hc
        have hstep : objGet (Cache.clearIndexesStep inv acc col0).1 col0
              = some ([] : KMap)
            ∧ ∀ k ∈ objKeys km,
                objGet (Cache.clearIndexesStep inv acc col0).2 k = none := by
          obtain ⟨idx, results⟩ := acc
          unfold Cache.clearIndexesStep
          simp only [hstart, hinv] at *
          refine ⟨?_, ?_⟩
          · show objGet (objSet idx col0
                ((objKeys km).foldl (fun m k => objDelete m k) km)) col0 = _
            rw [objGet_objSet_self, foldDelete_all_self]
            intro p hp
            exact List.mem_map_of_mem _ hp
          · intro k hk
            exact objGet_foldDelete_none _ _ _ (Or.inl hk)
        simp only [List.foldl_cons]
        exact foldl_preserve
          (fun a : IMap × List (CKey × ApiResult) =>
            objGet a.1 col0 = some ([] : KMap)
            ∧ ∀ k ∈ objKeys km, objGet a.2 k = none)
          (Cache.clearIndexesStep inv) rest
          (fun a b ha =>
            clearIndexesStep_preserveWhole inv col0 km hinv a b ha.1 ha.2)
          _ hstep
      · have hmem' : col ∈ rest := by
          rcases List.mem_cons.mp hmem with h1 | h1
          · exact absurd h1.symm hc
          · exact h1
        have hkeep : objGet (Cache.clearIndexesStep inv acc col0).1 col
            = some km := by
          obtain ⟨idx, results⟩ := acc
          unfold Cache.clearIndexesStep
          cases h0 : objGet idx col0 with
          | none => simp only [h0]; exact hstart
          | some kmap0 =>
              cases h1 : objGet inv col0 with
              | none => simp only [h0, h1]; exact hstart
              | some iv =>
                  cases iv with
                  | whole =>
                      simp only [h0, h1]
                      rw [objGet_objSet_other _ _ _ _ hc]
                      exact hstart
                  | single k' =>
                      simp only [h0, h1]
                      cases h2 : objGet kmap0 k' with
                      | none => simp only [h2]; exact hstart
                      | some sz =>
                          simp only [h2]
                          rw [objGet_objSet_other _ _ _ _ hc]
                          exact hstart
                  | undef => simp only [h0, h1]; exact hstart
        simp only [List.foldl_cons]
        exact ih _ hmem' hkeep

/-- `clearIndexes` with a `whole` marker for `col`: the collection's index
is emptied and every indexed key's stored result is removed. -/
theorem clearIndexes_whole_effect (c : CacheSt)
    (inv : List (String × InvalidVal)) (col : String) (km : KMap)
    (hinv : objGet inv col = some InvalidVal.whole)
    (hidx : objGet (Cache.getIndex c) col = some km) :
    objGet (Cache.getIndex (Cache.clearIndexes c inv)) col = some ([] : KMap)
    ∧ ∀ k ∈ objKeys km,
        objGet (Cache.clearIndexes c inv).results k = none := by
  have hne : inv.isEmpty = false := objGet_some_ne_nil inv col _ hinv
  have hmem : col ∈ objKeys inv := objGet_mem_keys inv col _ hinv
  unfold Cache.clearIndexes
  rw [hne]
  simp only [Bool.false_eq_true, if_false]
  exact clearIndexesFold_establish inv col km hinv (objKeys inv)
    (Cache.getIndex c, c.results) hmem hidx

end SwellNode

namespace SwellNode

theorem getVersions_clearIndexes (c : CacheSt)
    (inv : List (String × InvalidVal)) :
    Cache.getVersions (Cache.clearIndexes c inv) = Cache.getVersions c := by
  unfold Cache.getVersions
  rw [clearIndexes_versions]

/-- Claim C7 (amended): for every response whose `$cached` map assigns a
collection a version that differs from (or is absent in) the locally
stored version map, `Cache.clear` purges every cached key indexed under
that collection from both storage and the index; the new version is
persisted when it is truthy, while a falsy (e.g. zero) version leaves the
stored version map unchanged.  In particular, with an entry cached for
collection "bar" at version 1, `clear({$cached: {bar: 2}})` makes a
subsequent `get` return null and `getVersions().bar` equal 2. -/
theorem C7_version_invalidation :
    (∀ (c : CacheSt) (r : ApiResult) (m : VMap) (col : String) (v : JVal),
        r.rcached = CField.vmap m →
        objGet m col = some v →
        (∀ stored, objGet (Cache.getVersions c) col = some stored →
          v.jsStrictNeq stored = true) →
        ((v.jsTruthy = true →
            objGet (Cache.getVersions (Cache.clear c r)) col = some v)
         ∧ (v.jsTruthy = false →
            objGet (Cache.getVersions (Cache.clear c r)) col
              = objGet (Cache.getVersions c) col)
         ∧ (∀ km, objGet (Cache.getIndex c) col = some km →
              objGet (Cache.getIndex (Cache.clear c r)) col = some ([] : KMap)
              ∧ ∀ k ∈ objKeys km, objGet (Cache.clear c r).results k = none)))
    ∧ ((Cache.get
          (Cache.clear
            (Cache.put (Cache.init "t" "" none none) "/x" JVal.null
              ⟨some (JVal.str "foo"), some "bar", none,
               CField.vmap [("bar", JVal.num 1)]⟩)
            ⟨none, none, none, CField.vmap [("bar", JVal.num 2)]⟩)
          "/x" JVal.null).2 = none
        ∧ objGet (Cache.getVersions
            (Cache.clear
              (Cache.put (Cache.init "t" "" none none) "/x" JVal.null
                ⟨some (JVal.str "foo"), some "bar", none,
                 CField.vmap [("bar", JVal.num 1)]⟩)
              ⟨none, none, none, CField.vmap [("bar", JVal.num 2)]⟩)) "bar"
          = some (JVal.num 2)) := by
  constructor
  · intro c r m col v hm hv hdiff
    have hmem : col ∈ objKeys m := objGet_mem_keys m col v hv
    have hΨ := clearFold_establish c m col v hv hdiff (objKeys m) (c, []) hmem rfl
    have hir := clearFold_index_results (CField.vmap m) (objKeys m) (c, [])
    have hne :
        ((objKeys m).foldl (Cache.clearLoopStep (CField.vmap m)) (c, [])).2.isEmpty
          = false := objGet_some_ne_nil _ _ _ hΨ.2
    have hclear : Cache.clear c r
        = Cache.clearIndexes
            ((objKeys m).foldl (Cache.clearLoopStep (CField.vmap m)) (c, [])).1
            ((objKeys m).foldl (Cache.clearLoopStep (CField.vmap m)) (c, [])).2 := by
      unfold Cache.clear
      rw [hm]
      simp only [hne, Bool.false_eq_true, if_false]
    refine ⟨?_, ?_, ?_⟩
    · intro ht
      rw [hclear, getVersions_clearIndexes, hΨ.1]
      unfold clearTarget
      rw [if_pos ht]
    · intro ht
      rw [hclear, getVersions_clearIndexes, hΨ.1]
      unfold clearTarget
      rw [ht]
      simp only [Bool.false_eq_true, if_false]
    · intro km hkm
      have hidx1 : objGet (Cache.getIndex
          ((objKeys m).foldl (Cache.clearLoopStep (CField.vmap m)) (c, [])).1) col
          = some km := by
        unfold Cache.getIndex
        rw [hir.1]
        exact hkm
      have heff := clearIndexes_whole_effect _ _ col km hΨ.2 hidx1
      rw [hclear]
      exact heff
  · exact ⟨by decide, by decide⟩

/-- Claim C7 (counterexample): with collection "bar" stored at version 1,
`clear({$cached: {bar: 0}})` purges but does *not* persist the differing
new version 0 (`putVersion` drops falsy versions, src/lib/cache.js:197),
so "persists the new version" fails as stated. -/
theorem C7_counterexample :
    objGet (Cache.getVersions (Cache.clear
      (Cache.put (Cache.init "t" "" none none) "/x" JVal.null
        ⟨some (JVal.str "foo"), some "bar", none,
         CField.vmap [("bar", JVal.num 1)]⟩)
      ⟨none, none, none, CField.vmap [("bar", JVal.num 0)]⟩)) "bar"
      = some (JVal.num 1)
    ∧ JVal.num 1 ≠ JVal.num 0 :=
  ⟨by decide, by decide⟩

/-- Witness for C7_version_invalidation at the claim's own instance. -/
theorem C7_witness :
    objGet (Cache.getVersions (Cache.clear
      (Cache.put (Cache.init "t" "" none none) "/x" JVal.null
        ⟨some (JVal.str "foo"), some "bar", none,
         CField.vmap [("bar", JVal.num 1)]⟩)
      ⟨none, none, none, CField.vmap [("bar", JVal.num 2)]⟩)) "bar"
      = some (JVal.num 2) := by
  have h := C7_version_invalidation.1
    (Cache.put (Cache.init "t" "" none none) "/x" JVal.null
      ⟨some (JVal.str "foo"), some "bar", none,
       CField.vmap [("bar", JVal.num 1)]⟩)
    ⟨none, none, none, CField.vmap [("bar", JVal.num 2)]⟩
    [("bar", JVal.num 2)] "bar" (JVal.num 2) rfl (by decide)
    (fun stored hst => by
      have hv1 : objGet (Cache.getVersions
          (Cache.put (Cache.init "t" "" none none) "/x" JVal.null
            ⟨some (JVal.str "foo"), some "bar", none,
             CField.vmap [("bar", JVal.num 1)]⟩)) "bar"
          = some (JVal.num 1) := by decide
      rw [hv1] at hst
      cases hst
      decide)
  exact h.1 (by decide)

end SwellNode

namespace SwellNode

/-! ## Facts about `put`/`get` (claim C6) -/

theorem resultSize_pos (r : ApiResult) : 0 < resultSize r := by
  show 0 < (jsonStringify (ApiResult.toJVal r)).length
  rw [show jsonStringify (ApiResult.toJVal r)
      = "\x7b" ++ jsonStringifyObj (listToJObj _) ++ "\x7d" from rfl]
  rw [String.length_append, String.length_append]
  have h1 : ("\x7b" : String).length = 1 := rfl
  rw [h1]
  omega

/-- The dedup fold of `resultCollections` extends its accumulator. -/
theorem dedupFold_shape (l : List String) :
    ∀ acc : List String, ∃ extras,
      l.foldl (fun acc e => if e ∈ acc then acc else acc ++ [e]) acc
        = acc ++ extras := by
  induction l with
  | nil => intro acc; exact ⟨[], by simp⟩
  | cons e rest ih =>
      intro acc
      simp only [List.foldl_cons]
      by_cases he : e ∈ acc
      · rw [if_pos he]
        exact ih acc
      · rw [if_neg he]
        obtain ⟨extras, hex⟩ := ih (acc ++ [e])
        exact ⟨[e] ++ extras, by rw [hex, List.append_assoc]⟩

/-- The dedup fold of `resultCollections` keeps the list duplicate-free. -/
theorem dedupFold_nodup (l : List String) :
    ∀ acc : List String, acc.Nodup →
      (l.foldl (fun acc e => if e ∈ acc then acc else acc ++ [e]) acc).Nodup := by
  induction l with
  | nil => intro acc h; exact h
  | cons e rest ih =>
      intro acc h
      simp only [List.foldl_cons]
      by_cases he : e ∈ acc
      · rw [if_pos he]
        exact ih acc h
      · rw [if_neg he]
        refine ih (acc ++ [e]) ?_
        simpa [List.nodup_append] using ⟨h, he⟩

/-- For a result declaring `$collection = col`, the collection list starts
with `col` and is duplicate-free. -/
theorem resultCollections_shape (r : ApiResult) (col : String)
    (hcol : r.collection = some col) :
    ∃ extras, Cache.resultCollections r = col :: extras
      ∧ (col :: extras).Nodup := by
  unfold Cache.resultCollections
  rw [hcol]
  cases hexp : r.expanded with
  | none => exact ⟨[], rfl, by simp⟩
  | some l =>
      obtain ⟨extras, hex⟩ := dedupFold_shape l [col]
      refine ⟨extras, by simpa using hex, ?_⟩
      have := dedupFold_nodup l [col] (by simp)
      rw [hex] at this
      simpa using this

end SwellNode

namespace SwellNode

/-- `clearIndexes` handed a lone `undefined` marker (the empty-index
truncation case) deletes nothing and merely rewrites the index file. -/
theorem clearIndexes_undef_id (c : CacheSt) (col : String) :
    Cache.clearIndexes c [(col, InvalidVal.undef)]
      = { c with index := some (Cache.getIndex c) } := by
  unfold Cache.clearIndexes
  have hne : ([(col, InvalidVal.undef)] : List (String × InvalidVal)).isEmpty
      = false := rfl
  rw [hne]
  simp only [Bool.false_eq_true, if_false]
  have hstep : Cache.clearIndexesStep [(col, InvalidVal.undef)]
      (Cache.getIndex c, c.results) col = (Cache.getIndex c, c.results) := by
    unfold Cache.clearIndexesStep
    cases hidx : objGet (Cache.getIndex c) col with
    | none => simp only [hidx]
    | some km =>
        simp only [hidx,
          show objGet [(col, InvalidVal.undef)] col = some InvalidVal.undef
            from by simp [objGet]]
  rw [show objKeys [(col, InvalidVal.undef)] = [col] from rfl]
  simp only [List.foldl_cons, List.foldl_nil, hstep]

/-- Effect of `putIndex` at `col` on the data claim C6 tracks, under the
proviso that a truncation triggered by a full index does not pick the
very key being written as its victim: the key ends up indexed under
`col` with its size, the stored result at `key` is untouched, and every
other collection's index binding is unchanged. -/
theorem putIndex_effect (c : CacheSt) (col : String) (key : CKey) (size : Nat)
    (hsafe : ∀ km, objGet (Cache.getIndex c) col = some km →
      km.length ≥ c.indexLimit → (objKeys km).getLast? ≠ some key) :
    (∃ km', objGet (Cache.getIndex (Cache.putIndex c col key size)) col
        = some km' ∧ objGet km' key = some size)
    ∧ objGet (Cache.putIndex c col key size).results key = objGet c.results key
    ∧ (∀ col'', col ≠ col'' →
        objGet (Cache.getIndex (Cache.putIndex c col key size)) col''
          = objGet (Cache.getIndex c) col'') := by
  cases hidx : objGet (Cache.getIndex c) col with
  | none =>
      unfold Cache.putIndex
      simp only [hidx, Option.getD_none]
      refine ⟨⟨objSet [] key size, ?_, objGet_objSet_self _ _ _⟩, ?_, ?_⟩
      · exact objGet_objSet_self _ _ _
      · first
        | rfl
        | trivial
      · intro col'' hc
        exact objGet_objSet_other _ _ _ _ hc
  | some km0 =>
      by_cases hfull : km0.length ≥ c.indexLimit
      · cases hlast : (objKeys km0).getLast? with
        | some lk =>
            have hlk : lk ≠ key := by
              intro he
              subst he
              exact hsafe km0 hidx hfull hlast
            obtain ⟨heffc, heffo, heffr⟩ :=
              truncateIndex_effect c col km0 lk hidx hlast
            unfold Cache.putIndex
            simp only [hidx, if_pos hfull, heffc, Option.getD_some]
            refine ⟨⟨objSet (objDelete km0 lk) key size, ?_,
                objGet_objSet_self _ _ _⟩, ?_, ?_⟩
            · exact objGet_objSet_self _ _ _
            · show objGet (Cache.truncateIndex c col).results key
                = objGet c.results key
              rw [heffr]
              exact objGet_objDelete_other _ _ _ hlk
            · intro col'' hc
              show objGet (objSet (Cache.getIndex (Cache.truncateIndex c col))
                  col (objSet (objDelete km0 lk) key size)) col''
                = objGet (Cache.getIndex c) col''
              rw [objGet_objSet_other _ _ _ _ hc]
              exact heffo col'' hc
        | none =>
            have htr : Cache.truncateIndex c col
                = { c with index := some (Cache.getIndex c) } := by
              unfold Cache.truncateIndex
              simp only [hidx, hlast]
              exact clearIndexes_undef_id c col
            have hg : Cache.getIndex { c with index := some (Cache.getIndex c) }
                = Cache.getIndex c := rfl
            unfold Cache.putIndex
            simp only [hidx, if_pos hfull, htr, hg, Option.getD_some]
            refine ⟨⟨objSet km0 key size, ?_, objGet_objSet_self _ _ _⟩, ?_, ?_⟩
            · exact objGet_objSet_self _ _ _
            · first
              | rfl
              | trivial
            · intro col'' hc
              exact objGet_objSet_other _ _ _ _ hc
      · unfold Cache.putIndex
        simp only [hidx, if_neg hfull, Option.getD_some]
        refine ⟨⟨objSet km0 key size, ?_, objGet_objSet_self _ _ _⟩, ?_, ?_⟩
        · exact objGet_objSet_self _ _ _
        · first
          | rfl
          | trivial
        · intro col'' hc
          exact objGet_objSet_other _ _ _ _ hc

end SwellNode

namespace SwellNode

theorem getIndex_putVersion (c : CacheSt) (col : String) (v : JVal) :
    Cache.getIndex (Cache.putVersion c col v) = Cache.getIndex c := by
  unfold Cache.getIndex
  rw [putVersion_index]

/-- Effect of one `put` loop iteration on the tracked data, under the
no-self-eviction proviso for its collection. -/
theorem putLoopStep_effect (rc : CField) (key : CKey) (size : Nat)
    (c' : CacheSt) (col0 : String)
    (hsafe0 : ∀ km, objGet (Cache.getIndex c') col0 = some km →
      km.length ≥ c'.indexLimit → (objKeys km).getLast? ≠ some key) :
    objGet (Cache.putLoopStep rc key size c' col0).results key
      = objGet c'.results key
    ∧ (∀ col'', col0 ≠ col'' →
        objGet (Cache.getIndex (Cache.putLoopStep rc key size c' col0)) col''
          = objGet (Cache.getIndex c') col'')
    ∧ (Cache.putLoopStep rc key size c' col0).indexLimit = c'.indexLimit
    ∧ (∀ v, CField.lookup rc col0 = some v →
        ∃ km', objGet (Cache.getIndex
            (Cache.putLoopStep rc key size c' col0)) col0
          = some km' ∧ objGet km' key = some size) := by
  obtain ⟨⟨km', hkm', hkey'⟩, hres, hoth⟩ :=
    putIndex_effect c' col0 key size hsafe0
  unfold Cache.putLoopStep
  cases hlv : CField.lookup rc col0 with
  | none =>
      cases hver : objGet (Cache.getVersions c') col0 with
      | none =>
          simp only [hlv, hver]
          exact ⟨trivial, fun _ _ => trivial, trivial,
            fun v hv => absurd hv (by simp)⟩
      | some w =>
          simp only [hlv, hver]
          exact ⟨hres, hoth, putIndex_indexLimit _ _ _ _,
            fun v hv => absurd hv (by simp)⟩
  | some v0 =>
      simp only [hlv]
      refine ⟨?_, ?_, ?_, ?_⟩
      · rw [putVersion_results]
        exact hres
      · intro col'' hc
        rw [getIndex_putVersion]
        exact hoth col'' hc
      · rw [putVersion_indexLimit]
        exact putIndex_indexLimit _ _ _ _
      · intro v hv
        exact ⟨km', by rw [getIndex_putVersion]; exact hkm', hkey'⟩

/-- Folding `put`'s loop over the remaining (distinct, non-`col`)
collections keeps the stored result and `col`'s index entry intact. -/
theorem C6_loop (rc : CField) (key : CKey) (size : Nat) (col : String)
    (content : ApiResult) :
    ∀ (cols : List String) (c' : CacheSt),
      cols.Nodup →
      (∀ col' ∈ cols, col' ≠ col) →
      (∀ col' ∈ cols, ∀ km, objGet (Cache.getIndex c') col' = some km →
        km.length ≥ c'.indexLimit → (objKeys km).getLast? ≠ some key) →
      objGet c'.results key = some content →
      (∃ km', objGet (Cache.getIndex c') col = some km'
        ∧ objGet km' key = some size) →
      objGet (cols.foldl (Cache.putLoopStep rc key size) c').results key
        = some content
      ∧ ∃ km', objGet (Cache.getIndex
          (cols.foldl (Cache.putLoopStep rc key size) c')) col = some km'
        ∧ objGet km' key = some size := by
  intro cols
  induction cols with
  | nil => intro c' _ _ _ hres hcol; exact ⟨hres, hcol⟩
  | cons col0 rest ih =>
      intro c' hnd hne hsafe hres hcol
      have hnd' : rest.Nodup := (List.nodup_cons.mp hnd).2
      have hnotmem : col0 ∉ rest := (List.nodup_cons.mp hnd).1
      have hne0 : col0 ≠ col := hne col0 (by simp)
      obtain ⟨hres0, hoth0, hlim0, _⟩ :=
        putLoopStep_effect rc key size c' col0
          (hsafe col0 (by simp))
      simp only [List.foldl_cons]
      refine ih _ hnd' (fun col' hm => hne col' (List.mem_cons_of_mem _ hm))
        ?_ ?_ ?_
      · intro col' hm km hkm hfull
        have hcc : col0 ≠ col' := fun he => hnotmem (he ▸ hm)
        rw [hoth0 col' hcc] at hkm
        rw [hlim0] at hfull
        exact hsafe col' (List.mem_cons_of_mem _ hm) km hkm hfull
      · rw [hres0]
        exact hres
      · obtain ⟨km', hkm', hkey'⟩ := hcol
        exact ⟨km', by rw [hoth0 col hne0]; exact hkm', hkey'⟩

end SwellNode

namespace SwellNode

/-- Claim C6 (amended): `put` followed immediately by `get` on the same
url and data returns the stored result — whose `$cached` field is the
boolean `true` and whose `$data` equals the original response's `$data` —
for every response whose `$collection` is assigned a version by its
`$cached` map, **provided** no collection named by the response has an
index already at its limit whose most recently inserted key is the very
key being written (otherwise the bounded-index truncation inside
`putIndex` deletes the freshly stored result and the `get` misses). -/
theorem C6_cache_roundtrip (c : CacheSt) (url : String) (data : JVal)
    (r : ApiResult) (col : String) (v : JVal) (d : JVal)
    (hcol : r.collection = some col)
    (hv : CField.lookup r.rcached col = some v)
    (hd : r.rdata = some d)
    (hsafe : ∀ col' ∈ Cache.resultCollections r, ∀ km,
      objGet (Cache.getIndex c) col' = some km →
      km.length ≥ c.indexLimit →
      (objKeys km).getLast? ≠ some (getKeyInput url data)) :
    (Cache.get (Cache.put c url data r) url data).2
      = some { r with rcached := CField.flag true } := by
  obtain ⟨rd, rcol, rexp, rcc⟩ := r
  simp only at hcol hv hd hsafe
  subst hd
  subst hcol
  cases hrc : rcc with
  | absent => rw [hrc] at hv; simp [CField.lookup] at hv
  | flag b => rw [hrc] at hv; simp [CField.lookup] at hv
  | vmap m =>
      subst hrc
      set r : ApiResult := { rdata := some d, collection := some col, expanded := rexp, rcached := CField.vmap m } with hrdef
      set key := getKeyInput url data with hkey
      set content : ApiResult := { rdata := some d, collection := some col, expanded := rexp, rcached := CField.flag true } with hcontent
      set size := resultSize content with hsize
      set c1 : CacheSt := { c with results := objSet c.results key content } with hc1
      have hpos : size > 0 := resultSize_pos content
      have hput : Cache.put c url data r
          = (Cache.resultCollections r).foldl
              (Cache.putLoopStep (CField.vmap m) key size) c1 := by
        show (if size > 0 then
            match (CField.vmap m : CField) with
            | .absent => c1
            | rc => (Cache.resultCollections r).foldl
                (Cache.putLoopStep rc key size) c1
          else c1) = _
        rw [if_pos hpos]
      obtain ⟨extras, hsh, hnd⟩ := resultCollections_shape r col rfl
      have hndc := List.nodup_cons.mp hnd
      have hsafe1 : ∀ col' ∈ Cache.resultCollections r, ∀ km,
          objGet (Cache.getIndex c1) col' = some km →
          km.length ≥ c1.indexLimit →
          (objKeys km).getLast? ≠ some key := hsafe
      have hstep := putLoopStep_effect (CField.vmap m) key size c1 col
        (hsafe1 col (by rw [hsh]; simp) )
      obtain ⟨hres0, hoth0, hlim0, hself0⟩ := hstep
      have hlv : CField.lookup (CField.vmap m) col = some v := hv
      obtain ⟨km0, hkm0, hkey0⟩ := hself0 v hlv
      have hres1 : objGet (Cache.putLoopStep (CField.vmap m) key size c1 col).results
          key = some content := by
        rw [hres0]
        show objGet (objSet c.results key content) key = some content
        exact objGet_objSet_self _ _ _
      have hloop := C6_loop (CField.vmap m) key size col content extras
        (Cache.putLoopStep (CField.vmap m) key size c1 col)
        hndc.2
        (fun col' hm he => hndc.1 (he ▸ hm))
        (fun col' hm km hkm hfull => by
          have hcc : col ≠ col' := fun he => hndc.1 (he ▸ hm)
          rw [hoth0 col' hcc] at hkm
          rw [hlim0] at hfull
          exact hsafe1 col' (by rw [hsh]; exact List.mem_cons_of_mem _ hm)
            km hkm hfull)
        hres1
        ⟨km0, hkm0, hkey0⟩
      have hfold : Cache.put c url data r
          = extras.foldl (Cache.putLoopStep (CField.vmap m) key size)
              (Cache.putLoopStep (CField.vmap m) key size c1 col) := by
        rw [hput, hsh]
        rfl
      rw [← hfold] at hloop
      obtain ⟨hresF, hex⟩ := hloop
      obtain ⟨kmF, hkmF, hkeyF⟩ := hex
      have hsz : ((objGet kmF key).getD 0 != 0) = true := by
        rw [hkeyF]
        show (size != 0) = true
        simp only [bne_iff_ne, ne_eq]
        omega
      unfold Cache.get
      rw [← hkey]
      simp only [hresF]
      have hcc : content.collection = some col := rfl
      simp only [hcc, hkmF, hkeyF]
      have : (size != 0) = true := by
        simp only [bne_iff_ne, ne_eq]
        omega
      rw [this]
      rfl

end SwellNode

namespace SwellNode

/-- Claim C6 (counterexample): with `indexLimit = 1`, cache the url under
collection colB, then `put` a response for the same url whose
`$collection` is colA (which its `$cached` map assigns version 1 — the
claim's proviso holds) and whose `$expanded` names colB.  Indexing the
key under colB truncates colB's full index, whose most recent key is
this very key, deleting the just-stored result; the immediate `get`
misses and returns null instead of the stored response. -/
theorem C6_counterexample :
    (Cache.get
      (Cache.put
        (Cache.put (Cache.init "t" "" none (some 1)) "/x" JVal.null
          ⟨some (JVal.str "a"), some "colB", none,
           CField.vmap [("colB", JVal.num 1)]⟩)
        "/x" JVal.null
        ⟨some (JVal.str "b"), some "colA", some ["colB"],
         CField.vmap [("colA", JVal.num 1), ("colB", JVal.num 1)]⟩)
      "/x" JVal.null).2 = none := by
  decide

/-- Witness for C6_cache_roundtrip at a concrete input. -/
theorem C6_witness :
    (Cache.get
      (Cache.put (Cache.init "t" "" none none) "/p" JVal.null
        ⟨some (JVal.str "foo"), some "bar", none,
         CField.vmap [("bar", JVal.num 1)]⟩)
      "/p" JVal.null).2
      = some ⟨some (JVal.str "foo"), some "bar", none, CField.flag true⟩ :=
  C6_cache_roundtrip (Cache.init "t" "" none none) "/p" JVal.null
    ⟨some (JVal.str "foo"), some "bar", none,
     CField.vmap [("bar", JVal.num 1)]⟩
    "bar" (JVal.num 1) (JVal.str "foo") rfl (by decide) rfl
    (fun col' hm km hkm => by
      rw [show Cache.getIndex (Cache.init "t" "" none none) = [] from rfl]
        at hkm
      exact absurd hkm (by simp [objGet]))

end SwellNode

namespace SwellNode

/-! ## Facts about the connection (claims C1-C5) -/

theorem requestNext_spec (c : Conn) :
    (Conn.requestNext c).1.requestBuffer = c.requestBuffer
    ∧ (Conn.requestNext c).1.pendingBuffer = c.pendingBuffer
    ∧ (Conn.requestNext c).1.ready = c.ready
    ∧ (Conn.requestNext c).1.connected = c.connected
    ∧ (Conn.requestNext c).1.hasStream = c.hasStream
    ∧ (Conn.requestNext c).1.maxConcurrent = c.maxConcurrent
    ∧ invocations (Conn.requestNext c).2 = [] := by
  unfold Conn.requestNext
  split
  · exact ⟨rfl, rfl, rfl, rfl, rfl, rfl, rfl⟩
  · split
    · split
      · exact ⟨rfl, rfl, rfl, rfl, rfl, rfl, rfl⟩
      · cases hargs : c.requestBuffer.get? c.requested.toNat with
        | none => simp [hargs, invocations]
        | some r => simp [hargs, invocations]
    · exact ⟨rfl, rfl, rfl, rfl, rfl, rfl, rfl⟩

/-- Every write issued by `requestNext` is an element of the buffer. -/
theorem requestNext_writes_mem (c : Conn) (r : Request)
    (h : Ev.wrote r ∈ (Conn.requestNext c).2) : r ∈ c.requestBuffer := by
  unfold Conn.requestNext at h
  split at h
  · simp at h
  · split at h
    · split at h
      · simp at h
      · cases hargs : c.requestBuffer.get? c.requested.toNat with
        | none =>
            simp only [hargs] at h
            simp at h
        | some q =>
            simp only [hargs] at h
            simp only [List.mem_singleton] at h
            injection h with h
            subst h
            exact List.get?_mem hargs
    · simp at h

/-- The in-flight counter after `requestNext` stays within one slot above
the configured limit (the guard admits `requested = maxConcurrent`). -/
theorem requestNext_inv (c : Conn)
    (h : c.requested ≤ (c.maxConcurrent : Int) + 1) :
    (Conn.requestNext c).1.requested ≤ ((Conn.requestNext c).1.maxConcurrent : Int) + 1 := by
  unfold Conn.requestNext
  split
  · exact h
  · rename_i hguard
    split
    · split
      · exact h
      · cases hargs : c.requestBuffer.get? c.requested.toNat with
        | none =>
            simp only [hargs]
            exact h
        | some r =>
            simp only [hargs]
            show c.requested + 1 ≤ (c.maxConcurrent : Int) + 1
            omega
    · exact h

end SwellNode

namespace SwellNode

/-- The concurrency invariant the code actually maintains: the in-flight
counter never exceeds `maxConcurrent + 1` (the admission guard at
connection.js:213 uses `>`, leaving one extra slot). -/
def ConnInv (c : Conn) : Prop :=
  c.requested ≤ (c.maxConcurrent : Int) + 1

theorem request_ConnInv (c : Conn) (r : Request) (h : ConnInv c) :
    ConnInv (Conn.request c r).1 := by
  simp only [Conn.request]
  repeat' split
  all_goals first
    | exact h
    | exact requestNext_inv _ h

theorem close_ConnInv (c : Conn) (h : ConnInv c) : ConnInv (Conn.close c).1 := by
  simp only [Conn.close]
  split
  · exact h
  · split
    · show (0 : Int) ≤ (c.maxConcurrent : Int) + 1
      omega
    · show (0 : Int) ≤ (c.maxConcurrent : Int) + 1
      omega

theorem receiveNonPush_ConnInv (c : Conn) (o? : Option RespObj)
    (h : ConnInv c) : ConnInv (Conn.receiveNonPush c o?).1 := by
  have hdec : ∀ (m : List (String × Option Nat)) (rb : List Request), ConnInv { c with requestBuffer := rb, requestCallbacks := m, requested := c.requested - 1 } := by
    intro m rb
    show c.requested - 1 ≤ (c.maxConcurrent : Int) + 1
    unfold ConnInv at h
    omega
  simp only [Conn.receiveNonPush]
  repeat' split
  all_goals first
    | exact hdec _ _
    | exact close_ConnInv _ (hdec _ _)
    | exact requestNext_inv _ (hdec _ _)
    | exact requestNext_inv _ (close_ConnInv _ (hdec _ _))

theorem receiveResponse_ConnInv (c : Conn) (p : Parsed) (h : ConnInv c) :
    ConnInv (Conn.receiveResponse c p).1 := by
  cases p with
  | bad =>
      simp only [Conn.receiveResponse]
      exact receiveNonPush_ConnInv c none h
  | obj o =>
      simp only [Conn.receiveResponse]
      split
      · exact h
      · exact receiveNonPush_ConnInv c (some o) h

theorem flushPending_ConnInv (c : Conn) (h : ConnInv c) :
    ConnInv (Conn.flushPendingBuffer c).1 := by
  simp only [Conn.flushPendingBuffer]
  split
  · exact h
  · exact foldl_preserve (fun acc : Conn × List Ev => ConnInv acc.1)
      Conn.requestFoldStep _
      (fun a b ha => request_ConnInv a.1 b ha) _ h

theorem flushRequests_ConnInv (c : Conn) (h : ConnInv c) :
    ConnInv (Conn.flushRequestBuffer c).1 := by
  simp only [Conn.flushRequestBuffer]
  split
  · exact h
  · refine foldl_preserve (fun acc : Conn × List Ev => ConnInv acc.1)
      Conn.requestFoldStep _
      (fun a b ha => request_ConnInv a.1 b ha) _ ?_
    show (0 : Int) ≤ (c.maxConcurrent : Int) + 1
    omega

theorem flushError_ConnInv (c : Conn) : ConnInv (Conn.flushRequestBufferWithError c).1 := by
  show (0 : Int) ≤ (c.maxConcurrent : Int) + 1
  omega

theorem timeout_ConnInv (c : Conn) (h : ConnInv c) :
    ConnInv (Conn.timeoutClose c).1 := by
  simp only [Conn.timeoutClose]
  split
  · exact h
  · exact close_ConnInv c h

theorem apply_ConnInv (c : Conn) (op : ConnOp) (h : ConnInv c) :
    ConnInv (Conn.apply c op).1 := by
  cases op with
  | requestOp r => exact request_ConnInv c r h
  | receiveOp p => exact receiveResponse_ConnInv c p h
  | flushPendingOp => exact flushPending_ConnInv c h
  | flushRequestsOp => exact flushRequests_ConnInv c h
  | flushErrorOp => exact flushError_ConnInv c
  | closeOp => exact close_ConnInv c h
  | timeoutOp => exact timeout_ConnInv c h
  | connectDoneOp =>
      simp only [Conn.apply, Conn.connectDone]
      split <;> exact h

theorem runConnOps_ConnInv (ops : List ConnOp) (c : Conn) (h : ConnInv c) :
    ConnInv (runConnOps ops c).1 := by
  unfold runConnOps
  exact foldl_preserve (fun acc : Conn × List Ev => ConnInv acc.1)
    connOpFold ops (fun a b ha => apply_ConnInv a.1 b ha) _ h

end SwellNode

namespace SwellNode

/-! ### The configured concurrency limit never changes -/

theorem requestNext_maxConcurrent (c : Conn) :
    (Conn.requestNext c).1.maxConcurrent = c.maxConcurrent :=
  (requestNext_spec c).2.2.2.2.2.1

theorem request_maxConcurrent (c : Conn) (r : Request) :
    (Conn.request c r).1.maxConcurrent = c.maxConcurrent := by
  simp only [Conn.request]
  repeat' split
  all_goals first
    | rfl
    | exact requestNext_maxConcurrent _

theorem close_maxConcurrent (c : Conn) :
    (Conn.close c).1.maxConcurrent = c.maxConcurrent := by
  simp only [Conn.close]
  repeat' split
  all_goals rfl

theorem receiveNonPush_maxConcurrent (c : Conn) (o? : Option RespObj) :
    (Conn.receiveNonPush c o?).1.maxConcurrent = c.maxConcurrent := by
  simp only [Conn.receiveNonPush]
  repeat' split
  all_goals first
    | rfl
    | exact close_maxConcurrent _
    | exact requestNext_maxConcurrent _
    | exact (requestNext_maxConcurrent _).trans (close_maxConcurrent _)

theorem receiveResponse_maxConcurrent (c : Conn) (p : Parsed) :
    (Conn.receiveResponse c p).1.maxConcurrent = c.maxConcurrent := by
  cases p with
  | bad =>
      simp only [Conn.receiveResponse]
      exact receiveNonPush_maxConcurrent c none
  | obj o =>
      simp only [Conn.receiveResponse]
      split
      · rfl
      · exact receiveNonPush_maxConcurrent c (some o)

theorem flushPending_maxConcurrent (c : Conn) :
    (Conn.flushPendingBuffer c).1.maxConcurrent = c.maxConcurrent := by
  simp only [Conn.flushPendingBuffer]
  split
  · rfl
  · exact foldl_preserve
      (fun acc : Conn × List Ev => acc.1.maxConcurrent = c.maxConcurrent)
      Conn.requestFoldStep _
      (fun a b ha => (request_maxConcurrent a.1 b).trans ha) _ rfl

theorem flushRequests_maxConcurrent (c : Conn) :
    (Conn.flushRequestBuffer c).1.maxConcurrent = c.maxConcurrent := by
  simp only [Conn.flushRequestBuffer]
  split
  · rfl
  · exact foldl_preserve
      (fun acc : Conn × List Ev => acc.1.maxConcurrent = c.maxConcurrent)
      Conn.requestFoldStep _
      (fun a b ha => (request_maxConcurrent a.1 b).trans ha) _ rfl

theorem timeout_maxConcurrent (c : Conn) :
    (Conn.timeoutClose c).1.maxConcurrent = c.maxConcurrent := by
  simp only [Conn.timeoutClose]
  split
  · rfl
  · exact close_maxConcurrent c

theorem apply_maxConcurrent (c : Conn) (op : ConnOp) :
    (Conn.apply c op).1.maxConcurrent = c.maxConcurrent := by
  cases op with
  | requestOp r => exact request_maxConcurrent c r
  | receiveOp p => exact receiveResponse_maxConcurrent c p
  | flushPendingOp => exact flushPending_maxConcurrent c
  | flushRequestsOp => exact flushRequests_maxConcurrent c
  | flushErrorOp => rfl
  | closeOp => exact close_maxConcurrent c
  | timeoutOp => exact timeout_maxConcurrent c
  | connectDoneOp =>
      simp only [Conn.apply, Conn.connectDone]
      split <;> rfl

theorem runConnOps_maxConcurrent (ops : List ConnOp) (c : Conn) :
    (runConnOps ops c).1.maxConcurrent = c.maxConcurrent := by
  unfold runConnOps
  exact foldl_preserve
    (fun acc : Conn × List Ev => acc.1.maxConcurrent = c.maxConcurrent)
    connOpFold ops
    (fun a b ha => (apply_maxConcurrent a.1 b).trans ha) _ rfl

end SwellNode

namespace SwellNode

/-! ### What a connected, ready connection does with a submitted request -/

/-- `requestNext` on a buffer `done ++ [r]` whose in-flight counter is
`min done.length (maxConcurrent + 1)`: the fresh tail entry `r` is written
exactly when `done.length ≤ maxConcurrent`, and the counter moves to
`min (done.length + 1) (maxConcurrent + 1)`. -/
theorem requestNext_tail (c : Conn) (r : Request) (done : List Request)
    (hbuf : c.requestBuffer = done ++ [r])
    (hreq : c.requested = ((min done.length (c.maxConcurrent + 1) : Nat) : Int)) :
    (Conn.requestNext c).1.requested
        = ((min (done.length + 1) (c.maxConcurrent + 1) : Nat) : Int)
    ∧ (Conn.requestNext c).2
        = if done.length ≤ c.maxConcurrent then [Ev.wrote r] else [] := by
  rcases le_or_lt done.length c.maxConcurrent with hle | hgt
  · have h1 : ¬ c.requested > (c.maxConcurrent : Int) := by
      rw [hreq]; push_cast; omega
    have h2 : (c.requestBuffer.length : Int) > c.requested := by
      rw [hbuf, hreq]; simp only [List.length_append, List.length_singleton]
      push_cast; omega
    have h3 : ¬ c.requested < 0 := by rw [hreq]; push_cast; omega
    have h4 : c.requested.toNat = done.length := by
      rw [hreq, Int.toNat_natCast]; omega
    simp only [Conn.requestNext, if_neg h1, if_pos h2, if_neg h3]
    rw [h4, hbuf, List.get?_concat_length]
    constructor
    · show c.requested + 1 = _
      rw [hreq]; push_cast; omega
    · rw [if_pos hle]
  · have h1 : c.requested > (c.maxConcurrent : Int) := by
      rw [hreq]; push_cast; omega
    simp only [Conn.requestNext, if_pos h1]
    constructor
    · rw [hreq]; push_cast; omega
    · rw [if_neg (by omega)]

/-- `request` on a connected, ready connection with a live socket: the
request is appended to the active buffer and written at once iff the
buffer had a free concurrency slot. -/
theorem request_ready_step (c : Conn) (r : Request)
    (hconn : c.connected = true) (hstream : c.hasStream = true)
    (hready : c.ready = true)
    (hreq : c.requested
        = ((min c.requestBuffer.length (c.maxConcurrent + 1) : Nat) : Int)) :
    (Conn.request c r).1.requestBuffer = c.requestBuffer ++ [r]
    ∧ (Conn.request c r).1.requested
        = ((min (c.requestBuffer.length + 1) (c.maxConcurrent + 1) : Nat) : Int)
    ∧ (Conn.request c r).1.connected = true
    ∧ (Conn.request c r).1.hasStream = true
    ∧ (Conn.request c r).1.ready = true
    ∧ (Conn.request c r).1.maxConcurrent = c.maxConcurrent
    ∧ (Conn.request c r).1.pendingBuffer = c.pendingBuffer
    ∧ (Conn.request c r).2
        = if c.requestBuffer.length ≤ c.maxConcurrent then [Ev.wrote r] else [] := by
  have hsel : Conn.request c r
      = Conn.requestNext { c with requestBuffer := c.requestBuffer ++ [r] } := by
    simp only [Conn.request]
    split
    · split
      · rename_i hc; simp [hconn] at hc
      · split
        · rename_i hs; simp [hstream] at hs
        · rfl
    · split
      · split
        · rename_i hc; simp [hconn] at hc
        · split
          · rename_i hs; simp [hstream] at hs
          · rfl
      · rename_i hrd; simp [hready] at hrd
  have hnext := requestNext_tail { c with requestBuffer := c.requestBuffer ++ [r] }
    r c.requestBuffer rfl hreq
  have hspec := requestNext_spec { c with requestBuffer := c.requestBuffer ++ [r] }
  rw [hsel]
  exact ⟨hspec.1, hnext.1, hspec.2.2.2.1.trans hconn, hspec.2.2.2.2.1.trans hstream,
    hspec.2.2.1.trans hready, hspec.2.2.2.2.2.1, hspec.2.1, hnext.2⟩

end SwellNode

namespace SwellNode

/-- The flush fold from a connected, ready state with a live socket: all
flushed requests land in the active buffer in order, and exactly the
first `maxConcurrent + 1 - |buffer|` of them are written to the socket. -/
theorem flushFold_spec (rest : List Request) :
    ∀ (c : Conn) (evs : List Ev),
      c.connected = true → c.hasStream = true → c.ready = true →
      c.requested
          = ((min c.requestBuffer.length (c.maxConcurrent + 1) : Nat) : Int) →
      (rest.foldl Conn.requestFoldStep (c, evs)).1.requestBuffer
          = c.requestBuffer ++ rest
      ∧ (rest.foldl Conn.requestFoldStep (c, evs)).1.requested
          = ((min (c.requestBuffer.length + rest.length)
              (c.maxConcurrent + 1) : Nat) : Int)
      ∧ (rest.foldl Conn.requestFoldStep (c, evs)).1.connected = true
      ∧ (rest.foldl Conn.requestFoldStep (c, evs)).1.hasStream = true
      ∧ (rest.foldl Conn.requestFoldStep (c, evs)).1.ready = true
      ∧ (rest.foldl Conn.requestFoldStep (c, evs)).1.maxConcurrent
          = c.maxConcurrent
      ∧ (rest.foldl Conn.requestFoldStep (c, evs)).1.pendingBuffer
          = c.pendingBuffer
      ∧ (rest.foldl Conn.requestFoldStep (c, evs)).2
          = evs ++ (rest.take (c.maxConcurrent + 1 - c.requestBuffer.length)).map
              Ev.wrote := by
  induction rest with
  | nil =>
      intro c evs hconn hstream hready hreq
      simp only [List.foldl_nil, List.take_nil, List.map_nil, List.append_nil,
        List.length_nil, Nat.add_zero]
      exact ⟨by trivial, hreq, hconn, hstream, hready, by trivial, by trivial,
        by trivial⟩
  | cons r rest ih =>
      intro c evs hconn hstream hready hreq
      obtain ⟨hb, hr, hc, hs, hrdy, hmc, hpend, hevs⟩ :=
        request_ready_step c r hconn hstream hready hreq
      have hstep : Conn.requestFoldStep (c, evs) r
          = ((Conn.request c r).1, evs ++ (Conn.request c r).2) := rfl
      have hreq' : (Conn.request c r).1.requested
          = ((min (Conn.request c r).1.requestBuffer.length
              ((Conn.request c r).1.maxConcurrent + 1) : Nat) : Int) := by
        rw [hr, hb, hmc, List.length_append, List.length_singleton]
      obtain ⟨ib, ir, ic, is, irdy, imc, ip, ievs⟩ :=
        ih (Conn.request c r).1 (evs ++ (Conn.request c r).2) hc hs hrdy hreq'
      rw [List.foldl_cons, hstep]
      refine ⟨?_, ?_, ic, is, irdy, ?_, ip.trans hpend, ?_⟩
      · rw [ib, hb, List.append_assoc, List.singleton_append]
      · rw [ir, hb, hmc]
        simp only [List.length_append, List.length_singleton, List.length_cons,
          List.length_nil]
        omega
      · rw [imc, hmc]
      · rw [ievs, hevs, hb, hmc, List.length_append, List.length_singleton]
        rcases le_or_lt c.requestBuffer.length c.maxConcurrent with hle | hgt
        · rw [if_pos hle,
            show c.maxConcurrent + 1 - c.requestBuffer.length
              = (c.maxConcurrent + 1 - (c.requestBuffer.length + 1)) + 1
              from by omega,
            List.take_succ_cons, List.map_cons, List.append_assoc,
            List.singleton_append]
        · rw [if_neg (by omega),
            show c.maxConcurrent + 1 - c.requestBuffer.length = 0 from by omega,
            show c.maxConcurrent + 1 - (c.requestBuffer.length + 1) = 0
              from by omega]
          simp

end SwellNode

namespace SwellNode

theorem writes_append (a b : List Ev) : writes (a ++ b) = writes a ++ writes b := by
  simp [writes, List.filterMap_append]

theorem writes_map_wrote (l : List Request) : writes (l.map Ev.wrote) = l := by
  induction l with
  | nil => rfl
  | cons a l ih =>
      show a :: writes (l.map Ev.wrote) = a :: l
      rw [ih]

theorem connectDone_state (c : Conn) :
    (Conn.connectDone c).1 = { c with connected := true } := by
  simp only [Conn.connectDone]
  split <;> rfl

theorem connectDone_writes (c : Conn) : writes (Conn.connectDone c).2 = [] := by
  simp only [Conn.connectDone]
  split <;> rfl

/-- Requests submitted before the connection is established, with no
service name and no auth credentials, queue in `pendingBuffer` in order
and produce no events. -/
theorem requestOps_queue (rs : List Request) :
    ∀ (c : Conn) (evs : List Ev),
      c.connected = false → c.ready = false →
      (∀ r ∈ rs, r.name ≠ "auth" ∧ r.name ≠ "cached"
        ∧ hasRequestAuthData r = false) →
      (rs.map ConnOp.requestOp).foldl connOpFold (c, evs)
        = ({ c with pendingBuffer := c.pendingBuffer ++ rs }, evs) := by
  induction rs with
  | nil =>
      intro c evs _ _ _
      simp
  | cons r rs ih =>
      intro c evs hconn hready hrs
      obtain ⟨hn1, hn2, hcred⟩ := hrs r (List.mem_cons_self r rs)
      have hstep : Conn.request c r
          = ({ c with pendingBuffer := c.pendingBuffer ++ [r] }, []) := by
        simp only [Conn.request]
        split
        · rename_i hsv
          rcases hsv with h | h
          · exact absurd h hn1
          · exact absurd h hn2
        · split
          · rename_i hrd; simp [hready, hcred] at hrd
          · rfl
      have hfold : connOpFold (c, evs) (ConnOp.requestOp r)
          = ({ c with pendingBuffer := c.pendingBuffer ++ [r] }, evs) := by
        show ((Conn.request c r).1, evs ++ (Conn.request c r).2) = _
        rw [hstep]
        simp
      rw [List.map_cons, List.foldl_cons, hfold,
        ih { c with pendingBuffer := c.pendingBuffer ++ [r] } evs hconn hready
          (fun q hq => hrs q (List.mem_cons_of_mem r hq))]
      simp

/-- The claimed scenario: `k + m` requests submitted on a fresh connection
before it is established, then the connect callback fires and the owner
flushes the pending buffer. -/
def preConnectScenario (k : Nat) (rs : List Request) : Conn × List Ev :=
  runConnOps
    (rs.map ConnOp.requestOp ++ [ConnOp.connectDoneOp, ConnOp.flushPendingOp])
    (Conn.init (some k))

theorem preConnectScenario_spec (k : Nat) (rs : List Request) (hk : 1 ≤ k)
    (hrs : ∀ r ∈ rs, r.name ≠ "auth" ∧ r.name ≠ "cached"
      ∧ hasRequestAuthData r = false) :
    (preConnectScenario k rs).1.requested = ((min rs.length (k + 1) : Nat) : Int)
    ∧ writes (preConnectScenario k rs).2 = rs.take (k + 1) := by
  have hinit : Conn.init (some k)
      = (⟨true, false, false, [], [], 0, [], k, true⟩ : Conn) := by
    simp only [Conn.init]
    rw [if_neg (by omega)]
  have hq := requestOps_queue rs (Conn.init (some k)) [] rfl rfl hrs
  have hc1 : ({ Conn.init (some k) with
        pendingBuffer := (Conn.init (some k)).pendingBuffer ++ rs })
      = (⟨true, false, false, [], rs, 0, [], k, true⟩ : Conn) := by
    rw [hinit]
    rfl
  have hrun : preConnectScenario k rs
      = connOpFold
          (connOpFold ((⟨true, false, false, [], rs, 0, [], k, true⟩ : Conn), [])
            ConnOp.connectDoneOp)
          ConnOp.flushPendingOp := by
    unfold preConnectScenario runConnOps
    rw [List.foldl_append, hq, hc1]
    rfl
  have hcd1 : (Conn.connectDone (⟨true, false, false, [], rs, 0, [], k, true⟩ : Conn)).1
      = (⟨true, false, true, [], rs, 0, [], k, true⟩ : Conn) := by
    rw [connectDone_state]
  have hfl : Conn.flushPendingBuffer (⟨true, false, true, [], rs, 0, [], k, true⟩ : Conn)
      = rs.foldl Conn.requestFoldStep
          ((⟨true, true, true, [], [], 0, [], k, true⟩ : Conn), []) := by
    simp only [Conn.flushPendingBuffer]
    split
    · rename_i h; simp at h
    · rfl
  obtain ⟨fb, fr, fc, fs, frdy, fmc, fp, fevs⟩ := flushFold_spec rs
    (⟨true, true, true, [], [], 0, [], k, true⟩ : Conn) [] rfl rfl rfl (by simp)
  have hfinal1 : (preConnectScenario k rs).1
      = (rs.foldl Conn.requestFoldStep
          ((⟨true, true, true, [], [], 0, [], k, true⟩ : Conn), [])).1 := by
    rw [hrun]
    show (Conn.flushPendingBuffer
      (Conn.connectDone (⟨true, false, false, [], rs, 0, [], k, true⟩ : Conn)).1).1 = _
    rw [hcd1, hfl]
  have hfinal2 : (preConnectScenario k rs).2
      = ([] ++ (Conn.connectDone
            (⟨true, false, false, [], rs, 0, [], k, true⟩ : Conn)).2)
        ++ (Conn.flushPendingBuffer
            (⟨true, false, true, [], rs, 0, [], k, true⟩ : Conn)).2 := by
    rw [hrun]
    show ([] ++ (Conn.connectDone _).2)
      ++ (Conn.flushPendingBuffer
        (Conn.connectDone (⟨true, false, false, [], rs, 0, [], k, true⟩ : Conn)).1).2 = _
    rw [hcd1]
  constructor
  · rw [hfinal1, fr]
    simp
  · rw [hfinal2, List.nil_append, writes_append, connectDone_writes, hfl, fevs,
      List.nil_append, List.nil_append, writes_map_wrote]
    simp

end SwellNode

namespace SwellNode

/-- C2 counterexample: `maxConcurrent = 1`, two plain requests queued
before the connection is established.  Upon connect + flush, BOTH are
written to the socket at once and the in-flight counter reaches 2 > 1:
the guard at connection.js:213 (`this.requested > this.maxConcurrent`)
admits one request beyond the configured limit. -/
theorem C2_counterexample :
    (writes (preConnectScenario 1
      [⟨"get", ⟨none, false, false⟩, some 1⟩,
       ⟨"get", ⟨none, false, false⟩, some 2⟩]).2).length = 2
    ∧ (preConnectScenario 1
      [⟨"get", ⟨none, false, false⟩, some 1⟩,
       ⟨"get", ⟨none, false, false⟩, some 2⟩]).1.requested = 2 := by
  decide

/-- C2 (corrected): in every state reachable from a fresh connection
configured with `maxConcurrent = k ≥ 1`, the in-flight counter is at most
`k + 1` (not `k`: the admission guard uses strict `>`); and with the
requests `rs` queued before the connection is established, connect + flush
writes exactly the first `min |rs| (k + 1)` of them to the socket, the
rest being deferred. -/
theorem C2_concurrency_cap (k : Nat) (rs : List Request) (hk : 1 ≤ k)
    (hrs : ∀ r ∈ rs, r.name ≠ "auth" ∧ r.name ≠ "cached"
      ∧ hasRequestAuthData r = false) :
    (∀ ops : List ConnOp,
        (runConnOps ops (Conn.init (some k))).1.requested ≤ (k : Int) + 1)
    ∧ writes (preConnectScenario k rs).2 = rs.take (k + 1)
    ∧ (preConnectScenario k rs).1.requested
        = ((min rs.length (k + 1) : Nat) : Int) := by
  have hspec := preConnectScenario_spec k rs hk hrs
  refine ⟨?_, hspec.2, hspec.1⟩
  intro ops
  have hmck : (Conn.init (some k)).maxConcurrent = k := by
    simp only [Conn.init]
    rw [if_neg (by omega)]
  have hinv := runConnOps_ConnInv ops (Conn.init (some k))
    (by show (0 : Int) ≤ ((Conn.init (some k)).maxConcurrent : Int) + 1; omega)
  have hmc := runConnOps_maxConcurrent ops (Conn.init (some k))
  unfold ConnInv at hinv
  rw [hmc, hmck] at hinv
  exact hinv

/-- Witness for C2_concurrency_cap at `k = 1` with one queued request. -/
theorem C2_witness :
    (∀ ops : List ConnOp,
        (runConnOps ops (Conn.init (some 1))).1.requested ≤ (1 : Int) + 1)
    ∧ writes (preConnectScenario 1 [⟨"get", ⟨none, false, false⟩, some 5⟩]).2
        = [⟨"get", ⟨none, false, false⟩, some 5⟩]
    ∧ (preConnectScenario 1
        [⟨"get", ⟨none, false, false⟩, some 5⟩]).1.requested = 1 := by
  have h := C2_concurrency_cap 1 [⟨"get", ⟨none, false, false⟩, some 5⟩]
    (by decide) (by decide)
  exact ⟨h.1, h.2.1, h.2.2⟩

end SwellNode

namespace SwellNode

/-! ### FIFO correlation machinery (claim C1) -/

theorem invocations_append (a b : List Ev) :
    invocations (a ++ b) = invocations a ++ invocations b := by
  simp [invocations, List.filterMap_append]

theorem invocations_map_wrote (l : List Request) :
    invocations (l.map Ev.wrote) = [] := by
  induction l with
  | nil => rfl
  | cons a l ih => exact ih

theorem connectDone_invocations (c : Conn) :
    invocations (Conn.connectDone c).2 = [] := by
  simp only [Conn.connectDone]
  split <;> rfl

/-- When as many requests have been written as are buffered, `requestNext`
does nothing: there is no unwritten entry at index `requested`. -/
theorem requestNext_noop (c : Conn)
    (h : c.requested = (c.requestBuffer.length : Int)) :
    Conn.requestNext c = (c, []) := by
  unfold Conn.requestNext
  split
  · rfl
  · rw [if_neg (by rw [h]; omega)]

/-- `requestNext` leaves the callbacks map alone when no buffered request
carries a truthy `$req_id`. -/
theorem requestNext_cbs (c : Conn)
    (h : ∀ q ∈ c.requestBuffer, truthyId q.data.reqId = none) :
    (Conn.requestNext c).1.requestCallbacks = c.requestCallbacks := by
  unfold Conn.requestNext
  split
  · rfl
  · split
    · split
      · rfl
      · cases hargs : c.requestBuffer.get? c.requested.toNat with
        | none => simp only [hargs]
        | some q =>
            simp only [hargs]
            rw [h q (List.get?_mem hargs)]
    · rfl

theorem requestNext_hasOnPush (c : Conn) :
    (Conn.requestNext c).1.hasOnPush = c.hasOnPush := by
  unfold Conn.requestNext
  split
  · rfl
  · split
    · split
      · rfl
      · cases hargs : c.requestBuffer.get? c.requested.toNat with
        | none => simp only [hargs]
        | some q => simp only [hargs]
    · rfl

/-- `request` leaves the callbacks map alone (and keeps every buffered
request id-free) when neither the buffer nor the new request carries a
truthy `$req_id`. -/
theorem request_cbs (c : Conn) (r : Request)
    (hb : ∀ q ∈ c.requestBuffer, truthyId q.data.reqId = none)
    (hr : truthyId r.data.reqId = none) :
    (Conn.request c r).1.requestCallbacks = c.requestCallbacks
    ∧ ∀ q ∈ (Conn.request c r).1.requestBuffer,
        truthyId q.data.reqId = none := by
  have hball : ∀ q ∈ c.requestBuffer ++ [r], truthyId q.data.reqId = none := by
    intro q hq
    rcases List.mem_append.mp hq with h | h
    · exact hb q h
    · rw [List.mem_singleton.mp h]; exact hr
  simp only [Conn.request]
  repeat' split
  all_goals refine ⟨?_, ?_⟩
  all_goals first
    | rfl
    | exact requestNext_cbs _ hball
    | exact requestNext_cbs _ hb
    | exact hball
    | exact hb
    | (rw [(requestNext_spec _).1]; first | exact hball | exact hb)

/-- The flush fold never touches the callbacks map when no request in
sight carries a truthy `$req_id`. -/
theorem flushFold_cbs (rest : List Request) :
    ∀ (c : Conn) (evs : List Ev),
      (∀ q ∈ c.requestBuffer, truthyId q.data.reqId = none) →
      (∀ q ∈ rest, truthyId q.data.reqId = none) →
      (rest.foldl Conn.requestFoldStep (c, evs)).1.requestCallbacks
        = c.requestCallbacks := by
  induction rest with
  | nil => intro c evs _ _; rfl
  | cons r rest ih =>
      intro c evs hb hrest
      obtain ⟨hcb, hmem⟩ := request_cbs c r hb (hrest r (List.mem_cons_self r rest))
      rw [List.foldl_cons,
        show Conn.requestFoldStep (c, evs) r
          = ((Conn.request c r).1, evs ++ (Conn.request c r).2) from rfl,
        ih (Conn.request c r).1 _ hmem
          (fun q hq => hrest q (List.mem_cons_of_mem r hq)),
        hcb]

theorem request_hasOnPush (c : Conn) (r : Request) :
    (Conn.request c r).1.hasOnPush = c.hasOnPush := by
  simp only [Conn.request]
  repeat' split
  all_goals first
    | rfl
    | exact requestNext_hasOnPush _

theorem flushFold_hasOnPush (rest : List Request) (c : Conn) (evs : List Ev) :
    (rest.foldl Conn.requestFoldStep (c, evs)).1.hasOnPush = c.hasOnPush :=
  foldl_preserve (fun acc : Conn × List Ev => acc.1.hasOnPush = c.hasOnPush)
    Conn.requestFoldStep rest
    (fun a b ha => (request_hasOnPush a.1 b).trans ha) _ rfl

end SwellNode

namespace SwellNode

/-- Full state after the queue/connect/flush scenario, when no more
requests are queued than can be written at once and none carries a
truthy `$req_id`: everything is in the active buffer and in flight, the
callbacks map is empty, and no callback has been invoked. -/
theorem preConnectScenario_state (k : Nat) (rs : List Request) (hk : 1 ≤ k)
    (hrs : ∀ r ∈ rs, r.name ≠ "auth" ∧ r.name ≠ "cached"
      ∧ hasRequestAuthData r = false)
    (hnoid : ∀ r ∈ rs, truthyId r.data.reqId = none)
    (hcap : rs.length ≤ k + 1) :
    (preConnectScenario k rs).1.connected = true
    ∧ (preConnectScenario k rs).1.hasStream = true
    ∧ (preConnectScenario k rs).1.requestBuffer = rs
    ∧ (preConnectScenario k rs).1.requested = (rs.length : Int)
    ∧ (preConnectScenario k rs).1.requestCallbacks = []
    ∧ invocations (preConnectScenario k rs).2 = [] := by
  have hinit : Conn.init (some k)
      = (⟨true, false, false, [], [], 0, [], k, true⟩ : Conn) := by
    simp only [Conn.init]
    rw [if_neg (by omega)]
  have hq := requestOps_queue rs (Conn.init (some k)) [] rfl rfl hrs
  have hc1 : ({ Conn.init (some k) with
        pendingBuffer := (Conn.init (some k)).pendingBuffer ++ rs })
      = (⟨true, false, false, [], rs, 0, [], k, true⟩ : Conn) := by
    rw [hinit]
    rfl
  have hrun : preConnectScenario k rs
      = connOpFold
          (connOpFold ((⟨true, false, false, [], rs, 0, [], k, true⟩ : Conn), [])
            ConnOp.connectDoneOp)
          ConnOp.flushPendingOp := by
    unfold preConnectScenario runConnOps
    rw [List.foldl_append, hq, hc1]
    rfl
  have hcd1 : (Conn.connectDone
        (⟨true, false, false, [], rs, 0, [], k, true⟩ : Conn)).1
      = (⟨true, false, true, [], rs, 0, [], k, true⟩ : Conn) := by
    rw [connectDone_state]
  have hfl : Conn.flushPendingBuffer
        (⟨true, false, true, [], rs, 0, [], k, true⟩ : Conn)
      = rs.foldl Conn.requestFoldStep
          ((⟨true, true, true, [], [], 0, [], k, true⟩ : Conn), []) := by
    simp only [Conn.flushPendingBuffer]
    split
    · rename_i h; simp at h
    · rfl
  obtain ⟨fb, fr, fc, fs, frdy, fmc, fp, fevs⟩ := flushFold_spec rs
    (⟨true, true, true, [], [], 0, [], k, true⟩ : Conn) [] rfl rfl rfl (by simp)
  have fcbs := flushFold_cbs rs
    (⟨true, true, true, [], [], 0, [], k, true⟩ : Conn) [] (by simp) hnoid
  have hfinal1 : (preConnectScenario k rs).1
      = (rs.foldl Conn.requestFoldStep
          ((⟨true, true, true, [], [], 0, [], k, true⟩ : Conn), [])).1 := by
    rw [hrun]
    show (Conn.flushPendingBuffer
      (Conn.connectDone
        (⟨true, false, false, [], rs, 0, [], k, true⟩ : Conn)).1).1 = _
    rw [hcd1, hfl]
  have hfinal2 : (preConnectScenario k rs).2
      = ([] ++ (Conn.connectDone
            (⟨true, false, false, [], rs, 0, [], k, true⟩ : Conn)).2)
        ++ (Conn.flushPendingBuffer
            (⟨true, false, true, [], rs, 0, [], k, true⟩ : Conn)).2 := by
    rw [hrun]
    show ([] ++ (Conn.connectDone _).2)
      ++ (Conn.flushPendingBuffer
        (Conn.connectDone
          (⟨true, false, false, [], rs, 0, [], k, true⟩ : Conn)).1).2 = _
    rw [hcd1]
  refine ⟨?_, ?_, ?_, ?_, ?_, ?_⟩
  · rw [hfinal1]; exact fc
  · rw [hfinal1]; exact fs
  · rw [hfinal1, fb]; rfl
  · rw [hfinal1, fr]
    simp
    omega
  · rw [hfinal1, fcbs]
  · rw [hfinal2, List.nil_append, invocations_append, connectDone_invocations,
      hfl, fevs, List.nil_append, List.nil_append, invocations_map_wrote]

end SwellNode

namespace SwellNode

/-- One FIFO receive step: a non-push response without `$req_id` and
without `$end` shifts the head request off the buffer, invokes its
trailing callback with the response, and decrements the in-flight
counter; the trailing `requestNext` finds nothing new to write. -/
theorem receiveNonPush_fifo_step (c : Conn) (o : RespObj) (q : Request)
    (qs' : List Request) (cb : Nat)
    (hconn : c.connected = true) (hstream : c.hasStream = true)
    (hbuf : c.requestBuffer = q :: qs')
    (hreq : c.requested = ((q :: qs').length : Int))
    (hcb : q.cb = some cb)
    (hoid : truthyId o.reqId = none) (hend : o.endd = false) :
    Conn.receiveNonPush c (some o)
      = ({ c with requestBuffer := qs', requested := c.requested - 1 },
         (if o.err then [Ev.emitted "error.server"] else [])
           ++ [Ev.invoked cb (RespOut.ok o)]) := by
  have h1 : c.requestBuffer.head? = some q := by rw [hbuf]; rfl
  have h2 : c.requestBuffer.tail = qs' := by rw [hbuf]; rfl
  have h3 : Conn.requestNext
        { c with requestBuffer := qs', requested := c.requested - 1 }
      = ({ c with requestBuffer := qs', requested := c.requested - 1 }, []) :=
    requestNext_noop _ (by
      show c.requested - 1 = (qs'.length : Int)
      rw [hreq]
      simp only [List.length_cons]
      push_cast
      omega)
  have hcs : (c.connected && c.hasStream) = true := by rw [hconn, hstream]; rfl
  simp [Conn.receiveNonPush, h1, h2, hoid, hcb, hend, hcs, h3]

end SwellNode

namespace SwellNode

/-- FIFO receive loop: delivering id-free, non-push, non-end responses in
order to a connection whose buffer holds exactly the awaiting requests
invokes the requests' callbacks in submission order, each with its own
response. -/
theorem receive_fifo (resps : List RespObj) :
    ∀ (qs : List Request) (c : Conn) (evs : List Ev),
      c.connected = true → c.hasStream = true →
      c.requestBuffer = qs →
      c.requested = (qs.length : Int) →
      qs.length = resps.length →
      (∀ q ∈ qs, q.cb.isSome = true) →
      (∀ o ∈ resps, o.push = false ∧ truthyId o.reqId = none
        ∧ o.endd = false) →
      invocations ((resps.map (fun o => ConnOp.receiveOp (Parsed.obj o))).foldl
          connOpFold (c, evs)).2
        = invocations evs
          ++ List.zipWith (fun q o => (q.cb.getD 0, RespOut.ok o)) qs resps := by
  induction resps with
  | nil =>
      intro qs c evs _ _ _ _ hlen _ _
      simp
  | cons o resps ih =>
      intro qs c evs hconn hstream hbuf hreq hlen hq hr
      obtain ⟨hpush, hoid, hend⟩ := hr o (List.mem_cons_self o resps)
      cases qs with
      | nil => simp at hlen
      | cons q qs' =>
          obtain ⟨cb, hcb⟩ :=
            Option.isSome_iff_exists.mp (hq q (List.mem_cons_self q qs'))
          have hstep := receiveNonPush_fifo_step c o q qs' cb hconn hstream
            hbuf hreq hcb hoid hend
          have hrr : Conn.receiveResponse c (Parsed.obj o)
              = Conn.receiveNonPush c (some o) := by
            simp [Conn.receiveResponse, hpush]
          have hfold : connOpFold (c, evs) (ConnOp.receiveOp (Parsed.obj o))
              = ({ c with requestBuffer := qs', requested := c.requested - 1 },
                 evs ++ ((if o.err then [Ev.emitted "error.server"] else [])
                   ++ [Ev.invoked cb (RespOut.ok o)])) := by
            show ((Conn.receiveResponse c (Parsed.obj o)).1,
              evs ++ (Conn.receiveResponse c (Parsed.obj o)).2) = _
            rw [hrr, hstep]
          have hreq' : c.requested - 1 = (qs'.length : Int) := by
            rw [hreq]
            simp only [List.length_cons]
            push_cast
            omega
          have hlen' : qs'.length = resps.length := by
            simp only [List.length_cons] at hlen
            omega
          rw [List.map_cons, List.foldl_cons, hfold,
            ih qs' { c with requestBuffer := qs', requested := c.requested - 1 }
              (evs ++ ((if o.err then [Ev.emitted "error.server"] else [])
                ++ [Ev.invoked cb (RespOut.ok o)]))
              hconn hstream rfl hreq' hlen'
              (fun x hx => hq x (List.mem_cons_of_mem q hx))
              (fun x hx => hr x (List.mem_cons_of_mem o hx))]
          have hie : invocations
              ((if o.err then [Ev.emitted "error.server"] else [])
                ++ [Ev.invoked cb (RespOut.ok o)]) = [(cb, RespOut.ok o)] := by
            cases o.err <;> rfl
          rw [invocations_append, hie, List.zipWith_cons_cons, hcb]
          simp

end SwellNode

namespace SwellNode

/-- C1 counterexample: two id-free requests in flight, two well-formed
non-push responses delivered in order, but the first response carries
`$end: true`.  Its receipt closes the connection (connection.js:321-323),
which requeues the second request and empties the buffer, so the second
callback is never invoked: the correlation does NOT hold regardless of
response content. -/
theorem C1_counterexample :
    invocations (runConnOps
      [ConnOp.requestOp ⟨"get", ⟨none, false, false⟩, some 1⟩,
       ConnOp.requestOp ⟨"get", ⟨none, false, false⟩, some 2⟩,
       ConnOp.connectDoneOp, ConnOp.flushPendingOp,
       ConnOp.receiveOp (Parsed.obj ⟨false, none, false, true, JVal.null⟩),
       ConnOp.receiveOp (Parsed.obj ⟨false, none, false, false, JVal.null⟩)]
      (Conn.init (some 5))).2
      = [(1, RespOut.ok ⟨false, none, false, true, JVal.null⟩)] := by
  decide

/-- C1 (corrected): FIFO correlation holds for `N` id-free requests
submitted before the connection is established (N within the concurrency
window `k + 1`, each with a trailing callback, no service names, no auth
credentials) when the `N` delivered responses are non-push, carry no
truthy `$req_id` and no `$end` flag: callbacks fire in submission order,
the i-th with the i-th response.  The claim's "regardless of response
content" is too strong: a response with `$end` closes the connection
mid-sequence (see the counterexample), and a response with a truthy
`$req_id` is matched by id, not position. -/
theorem C1_fifo_correlation (k : Nat) (qs : List Request)
    (resps : List RespObj) (hk : 1 ≤ k)
    (hlen : qs.length = resps.length)
    (hcap : qs.length ≤ k + 1)
    (hq : ∀ q ∈ qs, q.name ≠ "auth" ∧ q.name ≠ "cached"
      ∧ hasRequestAuthData q = false ∧ truthyId q.data.reqId = none
      ∧ q.cb.isSome = true)
    (hr : ∀ o ∈ resps, o.push = false ∧ truthyId o.reqId = none
      ∧ o.endd = false) :
    invocations (runConnOps
        (qs.map ConnOp.requestOp
          ++ [ConnOp.connectDoneOp, ConnOp.flushPendingOp]
          ++ resps.map (fun o => ConnOp.receiveOp (Parsed.obj o)))
        (Conn.init (some k))).2
      = List.zipWith (fun q o => (q.cb.getD 0, RespOut.ok o)) qs resps := by
  obtain ⟨pc, ps, pb, pr, pcb, pinv⟩ := preConnectScenario_state k qs hk
    (fun r hr' => ⟨(hq r hr').1, (hq r hr').2.1, (hq r hr').2.2.1⟩)
    (fun r hr' => (hq r hr').2.2.2.1) hcap
  have hsplit : runConnOps
      (qs.map ConnOp.requestOp
        ++ [ConnOp.connectDoneOp, ConnOp.flushPendingOp]
        ++ resps.map (fun o => ConnOp.receiveOp (Parsed.obj o)))
      (Conn.init (some k))
      = (resps.map (fun o => ConnOp.receiveOp (Parsed.obj o))).foldl
          connOpFold
          ((preConnectScenario k qs).1, (preConnectScenario k qs).2) := by
    unfold preConnectScenario runConnOps
    simp only [List.foldl_append]
  have happ := receive_fifo resps qs (preConnectScenario k qs).1
    (preConnectScenario k qs).2 pc ps pb pr hlen
    (fun q hq' => (hq q hq').2.2.2.2) hr
  rw [pinv, List.nil_append] at happ
  rw [hsplit]
  exact happ

/-- Witness for C1_fifo_correlation: two requests, two responses (the
second a server error, still correlated in order). -/
theorem C1_witness :
    invocations (runConnOps
        ([⟨"get", ⟨none, false, false⟩, some 1⟩,
          ⟨"put", ⟨none, false, false⟩, some 2⟩].map ConnOp.requestOp
          ++ [ConnOp.connectDoneOp, ConnOp.flushPendingOp]
          ++ [⟨false, none, false, false, JVal.num 1⟩,
              ⟨false, none, true, false, JVal.num 2⟩].map
              (fun o => ConnOp.receiveOp (Parsed.obj o)))
        (Conn.init (some 1))).2
      = [(1, RespOut.ok ⟨false, none, false, false, JVal.num 1⟩),
         (2, RespOut.ok ⟨false, none, true, false, JVal.num 2⟩)] := by
  have h := C1_fifo_correlation 1
    [⟨"get", ⟨none, false, false⟩, some 1⟩,
     ⟨"put", ⟨none, false, false⟩, some 2⟩]
    [⟨false, none, false, false, JVal.num 1⟩,
     ⟨false, none, true, false, JVal.num 2⟩]
    (by decide) (by decide) (by decide) (by decide) (by decide)
  exact h

end SwellNode

namespace SwellNode

/-! ### Id correlation machinery (claim C3) -/

/-- `requestNext` writing the fresh tail entry of the buffer when that
entry carries a truthy `$req_id`: the id is registered in the callbacks
map. -/
theorem requestNext_register (c : Conn) (r : Request) (rid : String)
    (done : List Request)
    (hbuf : c.requestBuffer = done ++ [r])
    (hrid : r.data.reqId = some rid) (hne : rid ≠ "")
    (hreq : c.requested = (done.length : Int))
    (hcap : c.requested ≤ (c.maxConcurrent : Int)) :
    Conn.requestNext c
      = ({ c with requestCallbacks := objSet c.requestCallbacks rid r.cb, requested := c.requested + 1 },
         [Ev.wrote r]) := by
  have hA : ¬ c.requested > (c.maxConcurrent : Int) := by omega
  have hB : (c.requestBuffer.length : Int) > c.requested := by
    rw [hbuf, hreq]
    simp only [List.length_append, List.length_singleton]
    push_cast
    omega
  have hC : ¬ c.requested < 0 := by rw [hreq]; omega
  have hD : c.requested.toNat = done.length := by
    rw [hreq, Int.toNat_natCast]
  have htr : truthyId r.data.reqId = some rid := by
    rw [hrid]; simp [truthyId, hne]
  simp only [Conn.requestNext, if_neg hA, if_pos hB, if_neg hC]
  rw [hD, hbuf, List.get?_concat_length]
  simp only [htr]

/-- `request` on a connected, ready connection: a request with a truthy
`$req_id` and a free concurrency slot is appended, written, and its id
registered in the callbacks map. -/
theorem request_register_step (c : Conn) (r : Request) (rid : String)
    (hconn : c.connected = true) (hstream : c.hasStream = true)
    (hready : c.ready = true)
    (hrid : r.data.reqId = some rid) (hne : rid ≠ "")
    (hreq : c.requested = (c.requestBuffer.length : Int))
    (hcap : c.requested ≤ (c.maxConcurrent : Int)) :
    Conn.request c r
      = ({ c with requestBuffer := c.requestBuffer ++ [r], requestCallbacks := objSet c.requestCallbacks rid r.cb, requested := c.requested + 1 },
         [Ev.wrote r]) := by
  have hsel : Conn.request c r
      = Conn.requestNext { c with requestBuffer := c.requestBuffer ++ [r] } := by
    simp only [Conn.request]
    split
    · split
      · rename_i hc; simp [hconn] at hc
      · split
        · rename_i hs; simp [hstream] at hs
        · rfl
    · split
      · split
        · rename_i hc; simp [hconn] at hc
        · split
          · rename_i hs; simp [hstream] at hs
          · rfl
      · rename_i hrd; simp [hready] at hrd
  rw [hsel,
    requestNext_register { c with requestBuffer := c.requestBuffer ++ [r] }
      r rid c.requestBuffer rfl hrid hne hreq hcap]

/-- One id-matched receive step: a non-push, non-end response carrying a
truthy `$req_id` found in the callbacks map shifts the (non-empty)
buffer, invokes the mapped callback with this response, removes the id
from the map and decrements the in-flight counter. -/
theorem receiveNonPush_byid_step (c : Conn) (o : RespObj) (rid : String)
    (cb : Nat)
    (hconn : c.connected = true) (hstream : c.hasStream = true)
    (hoid : o.reqId = some rid) (hne : rid ≠ "") (hend : o.endd = false)
    (hlook : (objGet c.requestCallbacks rid).join = some cb)
    (hreq : c.requested = (c.requestBuffer.length : Int))
    (hlen : 1 ≤ c.requestBuffer.length) :
    Conn.receiveNonPush c (some o)
      = ({ c with requestBuffer := c.requestBuffer.tail, requestCallbacks := objDelete c.requestCallbacks rid, requested := c.requested - 1 },
         (if o.err then [Ev.emitted "error.server"] else [])
           ++ [Ev.invoked cb (RespOut.ok o)]) := by
  have htid : truthyId o.reqId = some rid := by
    rw [hoid]; simp [truthyId, hne]
  have h3 : Conn.requestNext
        { c with requestBuffer := c.requestBuffer.tail, requestCallbacks := objDelete c.requestCallbacks rid, requested := c.requested - 1 }
      = ({ c with requestBuffer := c.requestBuffer.tail, requestCallbacks := objDelete c.requestCallbacks rid, requested := c.requested - 1 }, []) :=
    requestNext_noop _ (by
      show c.requested - 1 = (c.requestBuffer.tail.length : Int)
      rw [hreq, List.length_tail]
      push_cast [hlen]
      omega)
  have hcs : (c.connected && c.hasStream) = true := by rw [hconn, hstream]; rfl
  have hlook' : ((objGet c.requestCallbacks rid).bind fun a => a) = some cb :=
    hlook
  simp [Conn.receiveNonPush, htid, hend, hcs, h3]
  rw [hlook']

end SwellNode

namespace SwellNode

/-- C3 (confirmed): two in-flight requests carrying distinct truthy
`$req_id`s; the response for the second id arrives first.  Callbacks are
resolved by looking the id up in the callbacks map (and removing it),
never by queue position: the second callback fires first with the second
response, then the first with the first response, and afterwards the
callbacks map is empty. -/
theorem C3_id_correlation (k : Nat) (rid1 rid2 : String) (cb1 cb2 : Nat)
    (n1 n2 : String) (d1 d2 : ReqData) (o1 o2 : RespObj)
    (h1 : rid1 ≠ "") (h2 : rid2 ≠ "") (h12 : rid1 ≠ rid2)
    (hd1 : d1.reqId = some rid1) (hd2 : d2.reqId = some rid2)
    (ho1p : o1.push = false) (ho1i : o1.reqId = some rid1)
    (ho1e : o1.endd = false)
    (ho2p : o2.push = false) (ho2i : o2.reqId = some rid2)
    (ho2e : o2.endd = false) :
    invocations (runConnOps
        [ConnOp.requestOp ⟨n1, d1, some cb1⟩,
         ConnOp.requestOp ⟨n2, d2, some cb2⟩,
         ConnOp.receiveOp (Parsed.obj o2),
         ConnOp.receiveOp (Parsed.obj o1)]
        (Conn.readyState k)).2
      = [(cb2, RespOut.ok o2), (cb1, RespOut.ok o1)]
    ∧ (runConnOps
        [ConnOp.requestOp ⟨n1, d1, some cb1⟩,
         ConnOp.requestOp ⟨n2, d2, some cb2⟩,
         ConnOp.receiveOp (Parsed.obj o2),
         ConnOp.receiveOp (Parsed.obj o1)]
        (Conn.readyState k)).1.requestCallbacks = [] := by
  have hmc1 : (1 : Int) ≤ ((Conn.readyState k).maxConcurrent : Int) := by
    simp only [Conn.readyState, Conn.init]
    split <;> omega
  have s1 := request_register_step (Conn.readyState k) ⟨n1, d1, some cb1⟩ rid1
    rfl rfl rfl hd1 h1 rfl (by show (0 : Int) ≤ _; omega)
  have e1 : connOpFold (Conn.readyState k, [])
        (ConnOp.requestOp ⟨n1, d1, some cb1⟩)
      = ((⟨true, true, true, [⟨n1, d1, some cb1⟩], [], 1, [(rid1, some cb1)], (Conn.readyState k).maxConcurrent, true⟩ : Conn),
         [Ev.wrote ⟨n1, d1, some cb1⟩]) := by
    show ((Conn.request (Conn.readyState k) ⟨n1, d1, some cb1⟩).1,
      [] ++ (Conn.request (Conn.readyState k) ⟨n1, d1, some cb1⟩).2) = _
    rw [s1]
    rfl
  have s2 := request_register_step
    (⟨true, true, true, [⟨n1, d1, some cb1⟩], [], 1, [(rid1, some cb1)], (Conn.readyState k).maxConcurrent, true⟩ : Conn)
    ⟨n2, d2, some cb2⟩ rid2 rfl rfl rfl hd2 h2 rfl hmc1
  have e2 : connOpFold
        ((⟨true, true, true, [⟨n1, d1, some cb1⟩], [], 1, [(rid1, some cb1)], (Conn.readyState k).maxConcurrent, true⟩ : Conn),
         [Ev.wrote ⟨n1, d1, some cb1⟩])
        (ConnOp.requestOp ⟨n2, d2, some cb2⟩)
      = ((⟨true, true, true, [⟨n1, d1, some cb1⟩, ⟨n2, d2, some cb2⟩], [], 2, [(rid1, some cb1), (rid2, some cb2)], (Conn.readyState k).maxConcurrent, true⟩ : Conn),
         [Ev.wrote ⟨n1, d1, some cb1⟩, Ev.wrote ⟨n2, d2, some cb2⟩]) := by
    show ((Conn.request _ ⟨n2, d2, some cb2⟩).1,
      [Ev.wrote ⟨n1, d1, some cb1⟩] ++ (Conn.request _ ⟨n2, d2, some cb2⟩).2) = _
    rw [s2]
    simp [objSet, h12]
  have hrr2 : Conn.receiveResponse
        (⟨true, true, true, [⟨n1, d1, some cb1⟩, ⟨n2, d2, some cb2⟩], [], 2, [(rid1, some cb1), (rid2, some cb2)], (Conn.readyState k).maxConcurrent, true⟩ : Conn)
        (Parsed.obj o2)
      = Conn.receiveNonPush
        (⟨true, true, true, [⟨n1, d1, some cb1⟩, ⟨n2, d2, some cb2⟩], [], 2, [(rid1, some cb1), (rid2, some cb2)], (Conn.readyState k).maxConcurrent, true⟩ : Conn)
        (some o2) := by
    simp [Conn.receiveResponse, ho2p]
  have s3 := receiveNonPush_byid_step
    (⟨true, true, true, [⟨n1, d1, some cb1⟩, ⟨n2, d2, some cb2⟩], [], 2, [(rid1, some cb1), (rid2, some cb2)], (Conn.readyState k).maxConcurrent, true⟩ : Conn)
    o2 rid2 cb2 rfl rfl ho2i h2 ho2e
    (by simp [objGet, Option.join, h12]) rfl (by simp)
  have e3 : connOpFold
        ((⟨true, true, true, [⟨n1, d1, some cb1⟩, ⟨n2, d2, some cb2⟩], [], 2, [(rid1, some cb1), (rid2, some cb2)], (Conn.readyState k).maxConcurrent, true⟩ : Conn),
         [Ev.wrote ⟨n1, d1, some cb1⟩, Ev.wrote ⟨n2, d2, some cb2⟩])
        (ConnOp.receiveOp (Parsed.obj o2))
      = ((⟨true, true, true, [⟨n2, d2, some cb2⟩], [], 1, [(rid1, some cb1)], (Conn.readyState k).maxConcurrent, true⟩ : Conn),
         [Ev.wrote ⟨n1, d1, some cb1⟩, Ev.wrote ⟨n2, d2, some cb2⟩]
           ++ ((if o2.err then [Ev.emitted "error.server"] else [])
             ++ [Ev.invoked cb2 (RespOut.ok o2)])) := by
    show ((Conn.receiveResponse _ (Parsed.obj o2)).1,
      [Ev.wrote ⟨n1, d1, some cb1⟩, Ev.wrote ⟨n2, d2, some cb2⟩]
        ++ (Conn.receiveResponse _ (Parsed.obj o2)).2) = _
    rw [hrr2, s3]
    simp [objDelete, h12]
  have hrr1 : Conn.receiveResponse
        (⟨true, true, true, [⟨n2, d2, some cb2⟩], [], 1, [(rid1, some cb1)], (Conn.readyState k).maxConcurrent, true⟩ : Conn)
        (Parsed.obj o1)
      = Conn.receiveNonPush
        (⟨true, true, true, [⟨n2, d2, some cb2⟩], [], 1, [(rid1, some cb1)], (Conn.readyState k).maxConcurrent, true⟩ : Conn)
        (some o1) := by
    simp [Conn.receiveResponse, ho1p]
  have s4 := receiveNonPush_byid_step
    (⟨true, true, true, [⟨n2, d2, some cb2⟩], [], 1, [(rid1, some cb1)], (Conn.readyState k).maxConcurrent, true⟩ : Conn)
    o1 rid1 cb1 rfl rfl ho1i h1 ho1e
    (by simp [objGet, Option.join]) rfl (by simp)
  have e4 : connOpFold
        ((⟨true, true, true, [⟨n2, d2, some cb2⟩], [], 1, [(rid1, some cb1)], (Conn.readyState k).maxConcurrent, true⟩ : Conn),
         [Ev.wrote ⟨n1, d1, some cb1⟩, Ev.wrote ⟨n2, d2, some cb2⟩]
           ++ ((if o2.err then [Ev.emitted "error.server"] else [])
             ++ [Ev.invoked cb2 (RespOut.ok o2)]))
        (ConnOp.receiveOp (Parsed.obj o1))
      = ((⟨true, true, true, [], [], 0, [], (Conn.readyState k).maxConcurrent, true⟩ : Conn),
         ([Ev.wrote ⟨n1, d1, some cb1⟩, Ev.wrote ⟨n2, d2, some cb2⟩]
           ++ ((if o2.err then [Ev.emitted "error.server"] else [])
             ++ [Ev.invoked cb2 (RespOut.ok o2)]))
           ++ ((if o1.err then [Ev.emitted "error.server"] else [])
             ++ [Ev.invoked cb1 (RespOut.ok o1)])) := by
    show ((Conn.receiveResponse _ (Parsed.obj o1)).1,
      ([Ev.wrote ⟨n1, d1, some cb1⟩, Ev.wrote ⟨n2, d2, some cb2⟩]
        ++ ((if o2.err then [Ev.emitted "error.server"] else [])
          ++ [Ev.invoked cb2 (RespOut.ok o2)]))
        ++ (Conn.receiveResponse _ (Parsed.obj o1)).2) = _
    rw [hrr1, s4]
    simp [objDelete]
  have hrun : runConnOps
        [ConnOp.requestOp ⟨n1, d1, some cb1⟩,
         ConnOp.requestOp ⟨n2, d2, some cb2⟩,
         ConnOp.receiveOp (Parsed.obj o2),
         ConnOp.receiveOp (Parsed.obj o1)]
        (Conn.readyState k)
      = ((⟨true, true, true, [], [], 0, [], (Conn.readyState k).maxConcurrent, true⟩ : Conn),
         ([Ev.wrote ⟨n1, d1, some cb1⟩, Ev.wrote ⟨n2, d2, some cb2⟩]
           ++ ((if o2.err then [Ev.emitted "error.server"] else [])
             ++ [Ev.invoked cb2 (RespOut.ok o2)]))
           ++ ((if o1.err then [Ev.emitted "error.server"] else [])
             ++ [Ev.invoked cb1 (RespOut.ok o1)])) := by
    show connOpFold (connOpFold (connOpFold (connOpFold
        (Conn.readyState k, []) (ConnOp.requestOp ⟨n1, d1, some cb1⟩))
        (ConnOp.requestOp ⟨n2, d2, some cb2⟩))
        (ConnOp.receiveOp (Parsed.obj o2)))
        (ConnOp.receiveOp (Parsed.obj o1)) = _
    rw [e1, e2, e3, e4]
  constructor
  · rw [hrun]
    have hi2 : invocations
        ((if o2.err then [Ev.emitted "error.server"] else [])
          ++ [Ev.invoked cb2 (RespOut.ok o2)]) = [(cb2, RespOut.ok o2)] := by
      cases o2.err <;> rfl
    have hi1 : invocations
        ((if o1.err then [Ev.emitted "error.server"] else [])
          ++ [Ev.invoked cb1 (RespOut.ok o1)]) = [(cb1, RespOut.ok o1)] := by
      cases o1.err <;> rfl
    rw [invocations_append, invocations_append, hi2, hi1]
    rfl
  · rw [hrun]

end SwellNode

namespace SwellNode

/-- Witness for C3_id_correlation at concrete ids, callbacks and
payloads (the out-of-order response also carries a server error). -/
theorem C3_witness :
    invocations (runConnOps
        [ConnOp.requestOp ⟨"one", ⟨some "r1", false, false⟩, some 1⟩,
         ConnOp.requestOp ⟨"two", ⟨some "r2", false, false⟩, some 2⟩,
         ConnOp.receiveOp
           (Parsed.obj ⟨false, some "r2", true, false, JVal.num 2⟩),
         ConnOp.receiveOp
           (Parsed.obj ⟨false, some "r1", false, false, JVal.num 1⟩)]
        (Conn.readyState 1)).2
      = [(2, RespOut.ok ⟨false, some "r2", true, false, JVal.num 2⟩),
         (1, RespOut.ok ⟨false, some "r1", false, false, JVal.num 1⟩)]
    ∧ (runConnOps
        [ConnOp.requestOp ⟨"one", ⟨some "r1", false, false⟩, some 1⟩,
         ConnOp.requestOp ⟨"two", ⟨some "r2", false, false⟩, some 2⟩,
         ConnOp.receiveOp
           (Parsed.obj ⟨false, some "r2", true, false, JVal.num 2⟩),
         ConnOp.receiveOp
           (Parsed.obj ⟨false, some "r1", false, false, JVal.num 1⟩)]
        (Conn.readyState 1)).1.requestCallbacks = [] :=
  C3_id_correlation 1 "r1" "r2" 1 2 "one" "two"
    ⟨some "r1", false, false⟩ ⟨some "r2", false, false⟩
    ⟨false, some "r1", false, false, JVal.num 1⟩
    ⟨false, some "r2", true, false, JVal.num 2⟩
    (by decide) (by decide) (by decide) rfl rfl rfl rfl rfl rfl rfl rfl

end SwellNode

namespace SwellNode

/-- C4 (confirmed): closing a connected connection moves the non-service
requests of the active buffer, in order, to the front of the pending
buffer (service requests `auth`/`cached` are dropped), resets the
in-flight counter to 0 and clears the by-id callbacks map; after the next
connect completes and the owner flushes, the requeued requests are back
in the active buffer in order and the front window of them has been
rewritten to the socket. -/
theorem C4_reconnect_requeue (c : Conn) (hconn : c.connected = true)
    (hne : (c.requestBuffer.filter
        (fun r => r.name ≠ "auth" ∧ r.name ≠ "cached"))
        ++ c.pendingBuffer ≠ []) :
    (Conn.close c).1.pendingBuffer
        = (c.requestBuffer.filter
            (fun r => r.name ≠ "auth" ∧ r.name ≠ "cached"))
          ++ c.pendingBuffer
    ∧ (Conn.close c).1.requestBuffer = []
    ∧ (Conn.close c).1.requested = 0
    ∧ (Conn.close c).1.requestCallbacks = []
    ∧ (Conn.close c).1.connected = false
    ∧ writes (runConnOps [ConnOp.connectDoneOp, ConnOp.flushPendingOp]
          (Conn.close c).1).2
        = ((c.requestBuffer.filter
            (fun r => r.name ≠ "auth" ∧ r.name ≠ "cached"))
            ++ c.pendingBuffer).take (c.maxConcurrent + 1)
    ∧ (runConnOps [ConnOp.connectDoneOp, ConnOp.flushPendingOp]
          (Conn.close c).1).1.requestBuffer
        = (c.requestBuffer.filter
            (fun r => r.name ≠ "auth" ∧ r.name ≠ "cached"))
          ++ c.pendingBuffer
    ∧ (runConnOps [ConnOp.connectDoneOp, ConnOp.flushPendingOp]
          (Conn.close c).1).1.ready = true := by
  have hclose : Conn.close c
      = ({ c with ready := false, connected := false, hasStream := true, requestCallbacks := [], pendingBuffer := (c.requestBuffer.filter (fun r => r.name ≠ "auth" ∧ r.name ≠ "cached")) ++ c.pendingBuffer, requestBuffer := [], requested := 0 },
         [Ev.emitted "close"]) := by
    simp only [Conn.close]
    rw [if_neg (by simp [hconn]),
      if_pos (show (Conn.isBufferNotEmpty _) = true from by
        have h0 := List.length_pos.mpr hne
        simp only [List.length_append] at h0
        simp at h0
        simp [Conn.isBufferNotEmpty]
        omega)]
    rfl
  have hcd : (Conn.connectDone (Conn.close c).1).1
      = ({ c with ready := false, connected := true, hasStream := true, requestCallbacks := [], pendingBuffer := (c.requestBuffer.filter (fun r => r.name ≠ "auth" ∧ r.name ≠ "cached")) ++ c.pendingBuffer, requestBuffer := [], requested := 0 } : Conn) := by
    rw [hclose, connectDone_state]
  have hfl : Conn.flushPendingBuffer
        ({ c with ready := false, connected := true, hasStream := true, requestCallbacks := [], pendingBuffer := (c.requestBuffer.filter (fun r => r.name ≠ "auth" ∧ r.name ≠ "cached")) ++ c.pendingBuffer, requestBuffer := [], requested := 0 } : Conn)
      = ((c.requestBuffer.filter (fun r => r.name ≠ "auth" ∧ r.name ≠ "cached"))
          ++ c.pendingBuffer).foldl Conn.requestFoldStep
          (({ c with ready := true, connected := true, hasStream := true, requestCallbacks := [], pendingBuffer := [], requestBuffer := [], requested := 0 } : Conn), []) := by
    simp only [Conn.flushPendingBuffer]
    split
    · rename_i h; simp at h
    · rfl
  obtain ⟨fb, fr, fc, fs, frdy, fmc, fp, fevs⟩ := flushFold_spec
    ((c.requestBuffer.filter (fun r => r.name ≠ "auth" ∧ r.name ≠ "cached"))
      ++ c.pendingBuffer)
    ({ c with ready := true, connected := true, hasStream := true, requestCallbacks := [], pendingBuffer := [], requestBuffer := [], requested := 0 } : Conn)
    [] rfl rfl rfl (by simp)
  have hfinal1 : (runConnOps [ConnOp.connectDoneOp, ConnOp.flushPendingOp]
        (Conn.close c).1).1
      = (((c.requestBuffer.filter
          (fun r => r.name ≠ "auth" ∧ r.name ≠ "cached"))
          ++ c.pendingBuffer).foldl Conn.requestFoldStep
          (({ c with ready := true, connected := true, hasStream := true, requestCallbacks := [], pendingBuffer := [], requestBuffer := [], requested := 0 } : Conn), [])).1 := by
    show (Conn.flushPendingBuffer (Conn.connectDone (Conn.close c).1).1).1 = _
    rw [hcd, hfl]
  have hfinal2 : (runConnOps [ConnOp.connectDoneOp, ConnOp.flushPendingOp]
        (Conn.close c).1).2
      = ([] ++ (Conn.connectDone (Conn.close c).1).2)
        ++ (Conn.flushPendingBuffer
          ({ c with ready := false, connected := true, hasStream := true, requestCallbacks := [], pendingBuffer := (c.requestBuffer.filter (fun r => r.name ≠ "auth" ∧ r.name ≠ "cached")) ++ c.pendingBuffer, requestBuffer := [], requested := 0 } : Conn)).2 := by
    show ([] ++ (Conn.connectDone (Conn.close c).1).2)
      ++ (Conn.flushPendingBuffer (Conn.connectDone (Conn.close c).1).1).2 = _
    rw [hcd]
  refine ⟨?_, ?_, ?_, ?_, ?_, ?_, ?_, ?_⟩
  · rw [hclose]
  · rw [hclose]
  · rw [hclose]
  · rw [hclose]
  · rw [hclose]
  · rw [hfinal2, List.nil_append, writes_append, connectDone_writes, hfl, fevs,
      List.nil_append, List.nil_append, writes_map_wrote]
    simp
  · rw [hfinal1, fb]
    rfl
  · rw [hfinal1]
    exact frdy

end SwellNode

namespace SwellNode

/-- Witness for C4_reconnect_requeue: a connected connection with one
plain and one service request active and one request already pending. -/
theorem C4_witness :
    (Conn.close (⟨true, true, true, [⟨"get", ⟨none, false, false⟩, some 1⟩, ⟨"auth", ⟨none, false, false⟩, some 2⟩], [⟨"put", ⟨none, false, false⟩, some 3⟩], 2, [("x", some 9)], 1, true⟩ : Conn)).1.pendingBuffer
        = [⟨"get", ⟨none, false, false⟩, some 1⟩,
           ⟨"put", ⟨none, false, false⟩, some 3⟩]
    ∧ (Conn.close (⟨true, true, true, [⟨"get", ⟨none, false, false⟩, some 1⟩, ⟨"auth", ⟨none, false, false⟩, some 2⟩], [⟨"put", ⟨none, false, false⟩, some 3⟩], 2, [("x", some 9)], 1, true⟩ : Conn)).1.requestBuffer = []
    ∧ (Conn.close (⟨true, true, true, [⟨"get", ⟨none, false, false⟩, some 1⟩, ⟨"auth", ⟨none, false, false⟩, some 2⟩], [⟨"put", ⟨none, false, false⟩, some 3⟩], 2, [("x", some 9)], 1, true⟩ : Conn)).1.requested = 0
    ∧ (Conn.close (⟨true, true, true, [⟨"get", ⟨none, false, false⟩, some 1⟩, ⟨"auth", ⟨none, false, false⟩, some 2⟩], [⟨"put", ⟨none, false, false⟩, some 3⟩], 2, [("x", some 9)], 1, true⟩ : Conn)).1.requestCallbacks = []
    ∧ (Conn.close (⟨true, true, true, [⟨"get", ⟨none, false, false⟩, some 1⟩, ⟨"auth", ⟨none, false, false⟩, some 2⟩], [⟨"put", ⟨none, false, false⟩, some 3⟩], 2, [("x", some 9)], 1, true⟩ : Conn)).1.connected = false
    ∧ writes (runConnOps [ConnOp.connectDoneOp, ConnOp.flushPendingOp]
          (Conn.close (⟨true, true, true, [⟨"get", ⟨none, false, false⟩, some 1⟩, ⟨"auth", ⟨none, false, false⟩, some 2⟩], [⟨"put", ⟨none, false, false⟩, some 3⟩], 2, [("x", some 9)], 1, true⟩ : Conn)).1).2
        = [⟨"get", ⟨none, false, false⟩, some 1⟩,
           ⟨"put", ⟨none, false, false⟩, some 3⟩]
    ∧ (runConnOps [ConnOp.connectDoneOp, ConnOp.flushPendingOp]
          (Conn.close (⟨true, true, true, [⟨"get", ⟨none, false, false⟩, some 1⟩, ⟨"auth", ⟨none, false, false⟩, some 2⟩], [⟨"put", ⟨none, false, false⟩, some 3⟩], 2, [("x", some 9)], 1, true⟩ : Conn)).1).1.requestBuffer
        = [⟨"get", ⟨none, false, false⟩, some 1⟩,
           ⟨"put", ⟨none, false, false⟩, some 3⟩]
    ∧ (runConnOps [ConnOp.connectDoneOp, ConnOp.flushPendingOp]
          (Conn.close (⟨true, true, true, [⟨"get", ⟨none, false, false⟩, some 1⟩, ⟨"auth", ⟨none, false, false⟩, some 2⟩], [⟨"put", ⟨none, false, false⟩, some 3⟩], 2, [("x", some 9)], 1, true⟩ : Conn)).1).1.ready = true :=
  C4_reconnect_requeue
    (⟨true, true, true, [⟨"get", ⟨none, false, false⟩, some 1⟩, ⟨"auth", ⟨none, false, false⟩, some 2⟩], [⟨"put", ⟨none, false, false⟩, some 3⟩], 2, [("x", some 9)], 1, true⟩ : Conn)
    rfl (by decide)

end SwellNode

namespace SwellNode

/-! ### Pending-gate machinery (claim C5) -/

theorem close_evs (c : Conn) : (Conn.close c).2 = [Ev.emitted "close"] := by
  simp only [Conn.close]
  repeat' split
  all_goals rfl

theorem close_buf_mem (c : Conn) (r : Request)
    (h : r ∈ (Conn.close c).1.requestBuffer) : r ∈ c.requestBuffer := by
  simp only [Conn.close] at h
  repeat' split at h
  all_goals first
    | exact h
    | (simp [Conn.connectSync] at h
       done)

theorem close_connected (c : Conn) : (Conn.close c).1.connected = false := by
  simp only [Conn.close]
  split
  · rename_i h; exact h
  · split <;> rfl

/-- Every write emitted by `request` is either a previously buffered
request or the request just submitted. -/
theorem request_writes_mem (c : Conn) (q r : Request)
    (h : Ev.wrote r ∈ (Conn.request c q).2) :
    r ∈ c.requestBuffer ∨ r = q := by
  simp only [Conn.request] at h
  repeat' split at h
  all_goals first
    | simp at h
    | (have h' := requestNext_writes_mem _ r h
       simp at h'
       first
         | exact Or.inl h'
         | exact h')

theorem request_buf_mem (c : Conn) (q r : Request)
    (h : r ∈ (Conn.request c q).1.requestBuffer) :
    r ∈ c.requestBuffer ∨ r = q := by
  simp only [Conn.request] at h
  repeat' split at h
  all_goals first
    | exact Or.inl h
    | (simp [Conn.connectSync] at h
       first
         | exact Or.inl h
         | exact h)
    | (rw [(requestNext_spec _).1] at h
       simp at h
       first
         | exact Or.inl h
         | exact h)

theorem receiveNonPush_writes_mem (c : Conn) (o? : Option RespObj)
    (r : Request) (h : Ev.wrote r ∈ (Conn.receiveNonPush c o?).2) :
    r ∈ c.requestBuffer := by
  cases o? with
  | none =>
      simp only [Conn.receiveNonPush] at h
      cases hh : c.requestBuffer.head? with
      | none => simp [hh] at h
      | some q =>
          simp only [hh] at h
          cases hcb : q.cb with
          | none => simp [hcb] at h
          | some cb => simp [hcb] at h
  | some o =>
      simp only [Conn.receiveNonPush] at h
      cases hrid : truthyId o.reqId with
      | none =>
          simp only [hrid] at h
          cases hh : c.requestBuffer.head? with
          | none => simp [hh] at h
          | some q =>
              simp only [hh] at h
              cases hcb : q.cb with
              | none => simp [hcb] at h
              | some cb =>
                  simp only [hcb] at h
                  repeat' split at h
                  all_goals first
                    | (simp at h
                       done)
                    | (simp [close_evs] at h
                       first
                         | exact @List.mem_of_mem_tail _ r c.requestBuffer
                             (requestNext_writes_mem _ r h)
                         | exact @List.mem_of_mem_tail _ r c.requestBuffer
                             (close_buf_mem _ r (requestNext_writes_mem _ r h))
                         | done)
                    | (simp_all [close_connected]
                       done)
      | some rid =>
          simp only [hrid] at h
          cases hres : objGet c.requestCallbacks rid with
          | none => simp [hres] at h
          | some v =>
              cases v with
              | none => simp [hres] at h
              | some cb =>
                  simp only [hres, Option.join, Option.bind, id_eq] at h
                  repeat' split at h
                  all_goals simp [close_evs] at h
                  all_goals first
                    | exact @List.mem_of_mem_tail _ r c.requestBuffer
                        (requestNext_writes_mem _ r h)
                    | exact @List.mem_of_mem_tail _ r c.requestBuffer
                        (close_buf_mem _ r (requestNext_writes_mem _ r h))

theorem receiveNonPush_buf_mem (c : Conn) (o? : Option RespObj)
    (r : Request) (h : r ∈ (Conn.receiveNonPush c o?).1.requestBuffer) :
    r ∈ c.requestBuffer := by
  cases o? with
  | none =>
      simp only [Conn.receiveNonPush] at h
      cases hh : c.requestBuffer.head? with
      | none =>
          simp only [hh] at h
          exact @List.mem_of_mem_tail _ r c.requestBuffer h
      | some q =>
          simp only [hh] at h
          cases hcb : q.cb with
          | none =>
              simp only [hcb] at h
              exact @List.mem_of_mem_tail _ r c.requestBuffer h
          | some cb =>
              simp only [hcb] at h
              exact @List.mem_of_mem_tail _ r c.requestBuffer h
  | some o =>
      simp only [Conn.receiveNonPush] at h
      cases hrid : truthyId o.reqId with
      | none =>
          simp only [hrid] at h
          cases hh : c.requestBuffer.head? with
          | none =>
              simp only [hh] at h
              exact @List.mem_of_mem_tail _ r c.requestBuffer h
          | some q =>
              simp only [hh] at h
              cases hcb : q.cb with
              | none =>
                  simp only [hcb] at h
                  exact @List.mem_of_mem_tail _ r c.requestBuffer h
              | some cb =>
                  simp only [hcb] at h
                  repeat' split at h
                  all_goals first
                    | exact @List.mem_of_mem_tail _ r c.requestBuffer h
                    | exact @List.mem_of_mem_tail _ r c.requestBuffer
                        (close_buf_mem _ r h)
                    | (rw [(requestNext_spec _).1] at h
                       first
                         | exact @List.mem_of_mem_tail _ r c.requestBuffer h
                         | exact @List.mem_of_mem_tail _ r c.requestBuffer
                             (close_buf_mem _ r h))
                    | simp_all [close_connected]
      | some rid =>
          simp only [hrid] at h
          cases hres : (objGet c.requestCallbacks rid).join with
          | none =>
              simp only [hres] at h
              exact @List.mem_of_mem_tail _ r c.requestBuffer h
          | some cb =>
              simp only [hres] at h
              repeat' split at h
              all_goals first
                | exact @List.mem_of_mem_tail _ r c.requestBuffer h
                | exact @List.mem_of_mem_tail _ r c.requestBuffer
                    (close_buf_mem _ r h)
                | (rw [(requestNext_spec _).1] at h
                   first
                     | exact @List.mem_of_mem_tail _ r c.requestBuffer h
                     | exact @List.mem_of_mem_tail _ r c.requestBuffer
                         (close_buf_mem _ r h))
                | simp_all [close_connected]

theorem receiveResponse_writes_mem (c : Conn) (p : Parsed) (r : Request)
    (h : Ev.wrote r ∈ (Conn.receiveResponse c p).2) : r ∈ c.requestBuffer := by
  cases p with
  | bad =>
      simp only [Conn.receiveResponse] at h
      exact receiveNonPush_writes_mem c none r h
  | obj o =>
      simp only [Conn.receiveResponse] at h
      split at h
      · split at h <;> simp at h
      · exact receiveNonPush_writes_mem c (some o) r h

theorem receiveResponse_buf_mem (c : Conn) (p : Parsed) (r : Request)
    (h : r ∈ (Conn.receiveResponse c p).1.requestBuffer) :
    r ∈ c.requestBuffer := by
  cases p with
  | bad =>
      simp only [Conn.receiveResponse] at h
      exact receiveNonPush_buf_mem c none r h
  | obj o =>
      simp only [Conn.receiveResponse] at h
      split at h
      · exact h
      · exact receiveNonPush_buf_mem c (some o) r h

theorem errEvents_no_write (r : Request) (l : List Request) :
    Ev.wrote r ∉ l.filterMap
      (fun q => q.cb.map (fun cb => Ev.invoked cb RespOut.errResp)) := by
  induction l with
  | nil => simp
  | cons q l ih =>
      cases hq : q.cb with
      | none => simpa [List.filterMap_cons, hq] using ih
      | some cb => simpa [List.filterMap_cons, hq] using ih

theorem connectDone_evs_no_write (c : Conn) (r : Request) :
    Ev.wrote r ∉ (Conn.connectDone c).2 := by
  simp only [Conn.connectDone]
  split <;> simp

theorem requestFold_writes (rest : List Request) (r : Request) :
    ∀ (c : Conn) (evs : List Ev),
      Ev.wrote r ∉ evs → r ∉ c.requestBuffer → r ∉ rest →
      Ev.wrote r ∉ (rest.foldl Conn.requestFoldStep (c, evs)).2
      ∧ r ∉ (rest.foldl Conn.requestFoldStep (c, evs)).1.requestBuffer := by
  induction rest with
  | nil => intro c evs he hb _; exact ⟨he, hb⟩
  | cons q rest ih =>
      intro c evs he hb hrest
      have hq : r ≠ q := fun h =>
        hrest (by rw [h]; exact List.mem_cons_self q rest)
      have he' : Ev.wrote r ∉ evs ++ (Conn.request c q).2 := by
        intro hm
        rcases List.mem_append.mp hm with h | h
        · exact he h
        · rcases request_writes_mem c q r h with h' | h'
          · exact hb h'
          · exact hq h'
      have hb' : r ∉ (Conn.request c q).1.requestBuffer := by
        intro hm
        rcases request_buf_mem c q r hm with h' | h'
        · exact hb h'
        · exact hq h'
      rw [List.foldl_cons,
        show Conn.requestFoldStep (c, evs) q
          = ((Conn.request c q).1, evs ++ (Conn.request c q).2) from rfl]
      exact ih (Conn.request c q).1 _ he' hb'
        (fun hm => hrest (List.mem_cons_of_mem q hm))

end SwellNode

namespace SwellNode

/-- No operation other than `flushPendingBuffer` (or submitting `r`
itself again) can write a request that is not in the active buffer, and
none can put it there. -/
theorem apply_no_write (c : Conn) (op : ConnOp) (r : Request)
    (hbuf : r ∉ c.requestBuffer)
    (hop : op ≠ ConnOp.flushPendingOp)
    (hopr : op ≠ ConnOp.requestOp r) :
    Ev.wrote r ∉ (Conn.apply c op).2
    ∧ r ∉ (Conn.apply c op).1.requestBuffer := by
  cases op with
  | requestOp q =>
      have hq : r ≠ q := fun h => hopr (by rw [h])
      constructor
      · intro hm
        rcases request_writes_mem c q r hm with h | h
        · exact hbuf h
        · exact hq h
      · intro hm
        rcases request_buf_mem c q r hm with h | h
        · exact hbuf h
        · exact hq h
  | receiveOp p =>
      exact ⟨fun hm => hbuf (receiveResponse_writes_mem c p r hm),
             fun hm => hbuf (receiveResponse_buf_mem c p r hm)⟩
  | flushPendingOp => exact absurd rfl hop
  | flushRequestsOp =>
      show Ev.wrote r ∉ (Conn.flushRequestBuffer c).2
        ∧ r ∉ (Conn.flushRequestBuffer c).1.requestBuffer
      simp only [Conn.flushRequestBuffer]
      split
      · exact ⟨by simp, hbuf⟩
      · exact requestFold_writes c.requestBuffer r _ [] (by simp) (by simp) hbuf
  | flushErrorOp =>
      exact ⟨errEvents_no_write r _,
        by simp [Conn.apply, Conn.flushRequestBufferWithError]⟩
  | closeOp =>
      refine ⟨?_, fun hm => hbuf (close_buf_mem c r hm)⟩
      rw [show (Conn.apply c ConnOp.closeOp).2 = (Conn.close c).2 from rfl,
        close_evs]
      simp
  | timeoutOp =>
      show Ev.wrote r ∉ (Conn.timeoutClose c).2
        ∧ r ∉ (Conn.timeoutClose c).1.requestBuffer
      simp only [Conn.timeoutClose]
      split
      · exact ⟨by simp, hbuf⟩
      · refine ⟨?_, fun hm => hbuf (close_buf_mem c r hm)⟩
        rw [close_evs]
        simp
  | connectDoneOp =>
      refine ⟨connectDone_evs_no_write c r, ?_⟩
      rw [show (Conn.apply c ConnOp.connectDoneOp).1 = (Conn.connectDone c).1
          from rfl, connectDone_state]
      exact hbuf

/-- A request absent from the active buffer is never written by any
sequence of operations that contains no `flushPendingBuffer` call and
does not resubmit the request. -/
theorem runConnOps_no_write (r : Request) (ops : List ConnOp) :
    ∀ (c : Conn) (evs : List Ev),
      (∀ op ∈ ops, op ≠ ConnOp.flushPendingOp ∧ op ≠ ConnOp.requestOp r) →
      Ev.wrote r ∉ evs → r ∉ c.requestBuffer →
      Ev.wrote r ∉ (ops.foldl connOpFold (c, evs)).2
      ∧ r ∉ (ops.foldl connOpFold (c, evs)).1.requestBuffer := by
  induction ops with
  | nil => intro c evs _ he hb; exact ⟨he, hb⟩
  | cons op ops ih =>
      intro c evs hops he hb
      obtain ⟨h1, h2⟩ := hops op (List.mem_cons_self op ops)
      obtain ⟨hw, hbb⟩ := apply_no_write c op r hb h1 h2
      rw [List.foldl_cons,
        show connOpFold (c, evs) op
          = ((Conn.apply c op).1, evs ++ (Conn.apply c op).2) from rfl]
      refine ih _ _ (fun o ho => hops o (List.mem_cons_of_mem op ho)) ?_ hbb
      intro hm
      rcases List.mem_append.mp hm with h | h
      · exact he h
      · exact hw h

end SwellNode

namespace SwellNode

/-- On a connected, ready connection with a live socket, `request` always
appends to the active buffer (whatever the concurrency state). -/
theorem request_ready_append (c : Conn) (r : Request)
    (hconn : c.connected = true) (hstream : c.hasStream = true)
    (hready : c.ready = true) :
    (Conn.request c r).1.requestBuffer = c.requestBuffer ++ [r]
    ∧ (Conn.request c r).1.connected = true
    ∧ (Conn.request c r).1.hasStream = true
    ∧ (Conn.request c r).1.ready = true
    ∧ (Conn.request c r).1.pendingBuffer = c.pendingBuffer := by
  have hsel : Conn.request c r
      = Conn.requestNext { c with requestBuffer := c.requestBuffer ++ [r] } := by
    simp only [Conn.request]
    split
    · split
      · rename_i hc; simp [hconn] at hc
      · split
        · rename_i hs; simp [hstream] at hs
        · rfl
    · split
      · split
        · rename_i hc; simp [hconn] at hc
        · split
          · rename_i hs; simp [hstream] at hs
          · rfl
      · rename_i hrd; simp [hready] at hrd
  rw [hsel]
  have hspec := requestNext_spec { c with requestBuffer := c.requestBuffer ++ [r] }
  exact ⟨hspec.1, hspec.2.2.2.1.trans hconn, hspec.2.2.2.2.1.trans hstream,
    hspec.2.2.1.trans hready, hspec.2.1⟩

theorem flushFold_buffer (rest : List Request) :
    ∀ (c : Conn) (evs : List Ev),
      c.connected = true → c.hasStream = true → c.ready = true →
      (rest.foldl Conn.requestFoldStep (c, evs)).1.requestBuffer
          = c.requestBuffer ++ rest
      ∧ (rest.foldl Conn.requestFoldStep (c, evs)).1.ready = true
      ∧ (rest.foldl Conn.requestFoldStep (c, evs)).1.pendingBuffer
          = c.pendingBuffer := by
  induction rest with
  | nil => intro c evs _ _ hr; exact ⟨by simp, hr, rfl⟩
  | cons q rest ih =>
      intro c evs hc hs hr
      obtain ⟨hb, hcc, hss, hrr, hp⟩ := request_ready_append c q hc hs hr
      rw [List.foldl_cons,
        show Conn.requestFoldStep (c, evs) q
          = ((Conn.request c q).1, evs ++ (Conn.request c q).2) from rfl]
      obtain ⟨ib, irdy, ip⟩ := ih (Conn.request c q).1 _ hcc hss hrr
      refine ⟨?_, irdy, ip.trans hp⟩
      rw [ib, hb, List.append_assoc, List.singleton_append]

/-- `flushPendingBuffer` on a connected connection with a live socket:
sets `ready`, empties the pending buffer, and appends every pending
entry to the active buffer in order. -/
theorem flushPending_moves (c : Conn) (hconn : c.connected = true)
    (hstream : c.hasStream = true) :
    (Conn.flushPendingBuffer c).1.requestBuffer
        = c.requestBuffer ++ c.pendingBuffer
    ∧ (Conn.flushPendingBuffer c).1.ready = true
    ∧ (Conn.flushPendingBuffer c).1.pendingBuffer = [] := by
  simp only [Conn.flushPendingBuffer]
  split
  · rename_i h; simp [hconn] at h
  · exact flushFold_buffer c.pendingBuffer
      { c with pendingBuffer := [], ready := true } [] hconn hstream rfl

/-- A non-service, credential-free request submitted while `ready` is
false is appended to the pending buffer, leaves the active buffer alone,
and is not written. -/
theorem request_pending_step (c : Conn) (r : Request)
    (hready : c.ready = false)
    (hname : r.name ≠ "auth" ∧ r.name ≠ "cached")
    (hcred : hasRequestAuthData r = false)
    (hbuf : r ∉ c.requestBuffer) :
    (Conn.request c r).1.pendingBuffer = c.pendingBuffer ++ [r]
    ∧ (Conn.request c r).1.requestBuffer = c.requestBuffer
    ∧ Ev.wrote r ∉ (Conn.request c r).2 := by
  simp only [Conn.request]
  split
  · rename_i hsv
    rcases hsv with h | h
    · exact absurd h hname.1
    · exact absurd h hname.2
  · split
    · rename_i hrd; simp [hready, hcred] at hrd
    · split
      · exact ⟨rfl, rfl, by simp⟩
      · split
        · exact ⟨rfl, rfl, by simp⟩
        · refine ⟨(requestNext_spec _).2.1, (requestNext_spec _).1, ?_⟩
          intro hm
          exact hbuf (requestNext_writes_mem
            { c with pendingBuffer := c.pendingBuffer ++ [r] } r hm)

end SwellNode

namespace SwellNode

/-- C5 (confirmed): a non-service request `r` without auth credentials
submitted while `ready = false` is appended to `pendingBuffer` (active
buffer untouched, nothing written for it), and no subsequent sequence of
operations that does not call `flushPendingBuffer` (nor resubmit `r`)
ever writes `r` to the socket; `flushPendingBuffer` on a connected
connection with a live socket sets `ready = true`, empties the pending
buffer and appends every pending entry to the active buffer in their
original order. -/
theorem C5_pending_gate (c : Conn) (r : Request)
    (hready : c.ready = false)
    (hname : r.name ≠ "auth" ∧ r.name ≠ "cached")
    (hcred : hasRequestAuthData r = false)
    (hbuf : r ∉ c.requestBuffer) :
    (Conn.request c r).1.pendingBuffer = c.pendingBuffer ++ [r]
    ∧ (Conn.request c r).1.requestBuffer = c.requestBuffer
    ∧ Ev.wrote r ∉ (Conn.request c r).2
    ∧ (∀ ops : List ConnOp,
        (∀ op ∈ ops, op ≠ ConnOp.flushPendingOp ∧ op ≠ ConnOp.requestOp r) →
        Ev.wrote r ∉ (runConnOps ops (Conn.request c r).1).2)
    ∧ (∀ c' : Conn, c'.connected = true → c'.hasStream = true →
        (Conn.flushPendingBuffer c').1.requestBuffer
            = c'.requestBuffer ++ c'.pendingBuffer
        ∧ (Conn.flushPendingBuffer c').1.ready = true
        ∧ (Conn.flushPendingBuffer c').1.pendingBuffer = []) := by
  obtain ⟨hp, hb, hw⟩ := request_pending_step c r hready hname hcred hbuf
  refine ⟨hp, hb, hw, ?_, fun c' hc hs => flushPending_moves c' hc hs⟩
  intro ops hops
  exact (runConnOps_no_write r ops (Conn.request c r).1 [] hops (by simp)
    (by rw [hb]; exact hbuf)).1

/-- Witness for C5_pending_gate: fresh unconnected connection, one plain
`get` request. -/
theorem C5_witness :
    (Conn.request (Conn.init (some 2))
        ⟨"get", ⟨none, false, false⟩, some 7⟩).1.pendingBuffer
      = [⟨"get", ⟨none, false, false⟩, some 7⟩]
    ∧ (Conn.request (Conn.init (some 2))
        ⟨"get", ⟨none, false, false⟩, some 7⟩).1.requestBuffer = []
    ∧ Ev.wrote ⟨"get", ⟨none, false, false⟩, some 7⟩
        ∉ (Conn.request (Conn.init (some 2))
            ⟨"get", ⟨none, false, false⟩, some 7⟩).2
    ∧ (∀ ops : List ConnOp,
        (∀ op ∈ ops, op ≠ ConnOp.flushPendingOp
          ∧ op ≠ ConnOp.requestOp ⟨"get", ⟨none, false, false⟩, some 7⟩) →
        Ev.wrote ⟨"get", ⟨none, false, false⟩, some 7⟩
          ∉ (runConnOps ops (Conn.request (Conn.init (some 2))
              ⟨"get", ⟨none, false, false⟩, some 7⟩).1).2)
    ∧ (∀ c' : Conn, c'.connected = true → c'.hasStream = true →
        (Conn.flushPendingBuffer c').1.requestBuffer
            = c'.requestBuffer ++ c'.pendingBuffer
        ∧ (Conn.flushPendingBuffer c').1.ready = true
        ∧ (Conn.flushPendingBuffer c').1.pendingBuffer = []) :=
  C5_pending_gate (Conn.init (some 2)) ⟨"get", ⟨none, false, false⟩, some 7⟩
    rfl (by decide) rfl (by decide)

end SwellNode

namespace SwellNode

/-! ## Client authorization flow (claim C9, src/lib/client.js:456-611)

`Client.setAuthedEnv` (client.js:599-611) calls `this.cache.setEnv(env)`,
but no `setEnv` method exists in src/lib/cache.js; its semantics are
modelled from the spec below. -/

/-- Modelled from the spec: `env` is the "optional environment/tenant
discriminator appended to storage keys"; `setEnv` (called from
src/lib/client.js:605, not present in src/lib/cache.js) replaces the
cache's `env` parameter with the server-declared value, so that
`getPath` appends it to every subsequently computed storage path. -/
def Cache.setEnv (cch : CacheSt) (env : Option String) : CacheSt :=
  { cch with env := env }

/-- The client state read and written by the authorization response
handlers: `authed`, `authRequested`, `sentVersions`, `env`, the optional
cache, and whether a connection object exists. -/
structure ClientSt where
  authed : Bool
  authRequested : Bool
  sentVersions : Bool
  env : Option String
  cache : Option CacheSt
  hasConnection : Bool
deriving Repr

/-- Observable effects of the authorization flow, in program order. -/
inductive CEv where
  | envPropagated (e : Option String)
  | flushedPending
  | sendVersionsEntered
  | versionsRequestSent
  | completed
deriving DecidableEq, Repr

/-- `setAuthedEnv(response)` (src/lib/client.js:599-611): marks the
client authenticated, propagates `response.$env` to the cache when both
cache and response are truthy, then flushes the connection's pending
buffer. -/
def setAuthedEnv (st : ClientSt) (respTruthy : Bool)
    (respEnv : Option String) : ClientSt × List CEv :=
  let st := { st with authed := true, authRequested := false }
  let step :=
    if st.cache.isSome && respTruthy then
      match st.cache with
      | some cch =>
          ({ st with env := respEnv, cache := some (Cache.setEnv cch respEnv) },
           [CEv.envPropagated respEnv])
      | none => (st, [])
    else (st, [])
  (step.1, step.2 ++ if st.hasConnection then [CEv.flushedPending] else [])

/-- `sendCachedVersions(callback)` (src/lib/client.js:565-597):
`CEv.completed` is the invocation of `callback`; when stored versions
exist and were not yet sent, a `cached` request is issued instead and
completion is deferred to its response. -/
def sendCachedVersions (st : ClientSt) : ClientSt × List CEv :=
  if st.cache.isNone || st.hasConnection = false then (st, [CEv.completed])
  else if st.sentVersions = false then
    match st.cache with
    | some cch =>
        if 0 < (Cache.getVersions cch).length then
          (st, [CEv.versionsRequestSent])
        else ({ st with sentVersions := true }, [CEv.completed])
    | none => (st, [CEv.completed])
  else (st, [CEv.completed])

/-- The response handler shared by `auth` (client.js:514-519) and
`authWithKey` (client.js:552-557): `setAuthedEnv(response)` then
`sendCachedVersions(() => callback(response))`. -/
def handleAuthResponse (st : ClientSt) (respTruthy : Bool)
    (respEnv : Option String) : ClientSt × List CEv :=
  let a := setAuthedEnv st respTruthy respEnv
  let b := sendCachedVersions a.1
  (b.1, a.2 ++ CEv.sendVersionsEntered :: b.2)

theorem sendCachedVersions_flags (s : ClientSt) :
    (sendCachedVersions s).1.cache = s.cache
    ∧ (sendCachedVersions s).1.authed = s.authed
    ∧ (sendCachedVersions s).1.authRequested = s.authRequested := by
  simp only [sendCachedVersions]
  repeat' split
  all_goals exact ⟨rfl, rfl, rfl⟩

end SwellNode

namespace SwellNode

/-- C9 (confirmed, with `Cache.setEnv` modelled from the spec): on an
authorization response (truthy, either auth path), the handler marks the
client authenticated, clears `authRequested`, replaces the cache's env
with the response's `$env` so that every subsequently computed cache
storage path includes that environment segment (when truthy), and the
event trace shows the propagation strictly before `sendCachedVersions`
is entered, with completion never signaled before that point. -/
theorem C9_env_propagation (st : ClientSt) (cch : CacheSt)
    (respEnv : Option String)
    (hc : st.cache = some cch) (hconn : st.hasConnection = true) :
    (handleAuthResponse st true respEnv).1.authed = true
    ∧ (handleAuthResponse st true respEnv).1.authRequested = false
    ∧ (handleAuthResponse st true respEnv).1.cache
        = some (Cache.setEnv cch respEnv)
    ∧ (∀ e args, respEnv = some e → e ≠ "" →
        Cache.getPath (Cache.setEnv cch respEnv) args
          = (Cache.stripOneTrailingSlash cch.path ++ "/client." ++ cch.clientId
              ++ "." ++ e ++ ".") ++ String.intercalate "." args)
    ∧ (handleAuthResponse st true respEnv).2
        = CEv.envPropagated respEnv :: CEv.flushedPending
            :: CEv.sendVersionsEntered
            :: (sendCachedVersions (setAuthedEnv st true respEnv).1).2
    ∧ CEv.envPropagated respEnv
        ∈ (handleAuthResponse st true respEnv).2.takeWhile
            (fun e => e ≠ CEv.sendVersionsEntered)
    ∧ CEv.completed ∉ (handleAuthResponse st true respEnv).2.takeWhile
        (fun e => e ≠ CEv.sendVersionsEntered) := by
  have ha : setAuthedEnv st true respEnv
      = ({ st with authed := true, authRequested := false, env := respEnv, cache := some (Cache.setEnv cch respEnv) },
         [CEv.envPropagated respEnv, CEv.flushedPending]) := by
    simp [setAuthedEnv, hc, hconn]
  have hfl := sendCachedVersions_flags
    ({ st with authed := true, authRequested := false, env := respEnv, cache := some (Cache.setEnv cch respEnv) } : ClientSt)
  have htr : (handleAuthResponse st true respEnv).2
      = CEv.envPropagated respEnv :: CEv.flushedPending
          :: CEv.sendVersionsEntered
          :: (sendCachedVersions (setAuthedEnv st true respEnv).1).2 := by
    simp only [handleAuthResponse]
    rw [ha]
    rfl
  refine ⟨?_, ?_, ?_, ?_, htr, ?_, ?_⟩
  · show (sendCachedVersions (setAuthedEnv st true respEnv).1).1.authed = true
    rw [ha]
    exact (sendCachedVersions_flags _).2.1
  · show (sendCachedVersions (setAuthedEnv st true respEnv).1).1.authRequested
      = false
    rw [ha]
    exact (sendCachedVersions_flags _).2.2
  · show (sendCachedVersions (setAuthedEnv st true respEnv).1).1.cache
      = some (Cache.setEnv cch respEnv)
    rw [ha]
    exact (sendCachedVersions_flags _).1
  · intro e args he hne
    subst he
    simp only [Cache.setEnv, Cache.getPath]
    rw [if_pos hne]
  · rw [htr]
    simp [List.takeWhile]
  · rw [htr]
    simp [List.takeWhile]

/-- Witness for C9_env_propagation: fresh cache, environment "prod". -/
theorem C9_witness :
    (handleAuthResponse
        ⟨false, true, false, none, some (Cache.init "t" "" none none), true⟩
        true (some "prod")).1.authed = true
    ∧ (handleAuthResponse
        ⟨false, true, false, none, some (Cache.init "t" "" none none), true⟩
        true (some "prod")).1.authRequested = false
    ∧ (handleAuthResponse
        ⟨false, true, false, none, some (Cache.init "t" "" none none), true⟩
        true (some "prod")).1.cache
        = some (Cache.setEnv (Cache.init "t" "" none none) (some "prod"))
    ∧ (∀ e args, (some "prod" : Option String) = some e → e ≠ "" →
        Cache.getPath (Cache.setEnv (Cache.init "t" "" none none)
            (some "prod")) args
          = (Cache.stripOneTrailingSlash (Cache.init "t" "" none none).path
              ++ "/client." ++ (Cache.init "t" "" none none).clientId
              ++ "." ++ e ++ ".") ++ String.intercalate "." args)
    ∧ (handleAuthResponse
        ⟨false, true, false, none, some (Cache.init "t" "" none none), true⟩
        true (some "prod")).2
        = CEv.envPropagated (some "prod") :: CEv.flushedPending
            :: CEv.sendVersionsEntered
            :: (sendCachedVersions (setAuthedEnv
                ⟨false, true, false, none, some (Cache.init "t" "" none none), true⟩
                true (some "prod")).1).2
    ∧ CEv.envPropagated (some "prod")
        ∈ (handleAuthResponse
            ⟨false, true, false, none, some (Cache.init "t" "" none none), true⟩
            true (some "prod")).2.takeWhile
            (fun e => e ≠ CEv.sendVersionsEntered)
    ∧ CEv.completed ∉ (handleAuthResponse
        ⟨false, true, false, none, some (Cache.init "t" "" none none), true⟩
        true (some "prod")).2.takeWhile
        (fun e => e ≠ CEv.sendVersionsEntered) :=
  C9_env_propagation
    ⟨false, true, false, none, some (Cache.init "t" "" none none), true⟩
    (Cache.init "t" "" none none) (some "prod") rfl rfl

end SwellNode
